import Mathlib

/-!
# magic-string: a shallow embedding of the chunk list and its edit operations

The Go package keeps the original string as a doubly linked list of chunks,
indexed by two maps from boundary offsets to chunks.  The embedding below keeps
that shape:

* a Go string is a list of code units (`Str`);
* a `*chunk` is an index into an arena (`heap`), `nil` is `none`;
* `map[int]*chunk` is a function `Int → Option Nat` (a missing key reads `nil`);
* a method that mutates its receiver returns the new state;
* a run-time abort (nil dereference, slice bound out of range) is `Fault.panic`
  and a loop that never ends is `Fault.diverge`.

Every loop of the source is a recursion on an explicit step budget.  The walks
over chunks never change a link while they run, so a walk that makes more steps
than there are chunks in the arena is on a cycle; the budget `heap.length + 1`
is therefore exact.  The loop `for v < 0 { v += n }` needs at most `-v` rounds
when `n > 0` and never ends when `n = 0`; its budget is `(-v).toNat`.
-/

namespace magicstring

/-- A Go string, as the list of its code units. -/
abbrev Str := List Char

/-- A pointer to a chunk: an index into the arena, or nil. -/
abbrev Ptr := Option Nat

/-- The two ways a call can fail to return. -/
inductive Fault where
  | panic
  | diverge
deriving DecidableEq, Repr

/-- The error values of the package, one constructor per message. -/
inductive Err where
  | endOutOfBounds
  | zeroLength
  | acrossSplit
  | splitEdited
  | moveInside
  | outOfBounds
  | endBeforeStart
deriving DecidableEq, Repr

/-- The struct `chunk` of chunk.go. -/
structure chunk where
  start : Int
  end_ : Int
  original : Str
  intro : Str
  outro : Str
  content : Str
  edited : Bool
  prev : Ptr
  next : Ptr
deriving DecidableEq, Repr

/-- The struct `MagicString` of magic-string.go; `heap` holds the chunks the
pointers refer to.  The `locator` field only formats the text of the error of
`splitChunk` and is not part of the state modelled here. -/
structure MagicString where
  original : Str
  intro : Str
  outro : Str
  firstChunk : Ptr
  lastChunk : Ptr
  lastSearchedChunk : Ptr
  byStart : Int → Ptr
  byEnd : Int → Ptr
  heap : List chunk

/-- Assignment `m[k] = v` on a Go map. -/
def mapSet (m : Int → Ptr) (k : Int) (v : Ptr) : Int → Ptr :=
  fun j => if j = k then v else m j

/-- Reading through a pointer; nil aborts. -/
def deref (h : List chunk) (p : Ptr) : Except Fault chunk :=
  match p with
  | none => Except.error Fault.panic
  | some i =>
    match h[i]? with
    | none => Except.error Fault.panic
    | some c => Except.ok c

/-- Function `newChunk` of chunk.go. -/
def newChunk (start end_ : Int) (content : Str) : chunk :=
  { start := start, end_ := end_, original := content, intro := [], outro := [],
    content := content, edited := false, prev := none, next := none }

/-- Method `chunk.appendLeft`. -/
def chunk.appendLeft (c : chunk) (content : Str) : chunk :=
  { c with outro := c.outro ++ content }

/-- Method `chunk.appendRight`. -/
def chunk.appendRight (c : chunk) (content : Str) : chunk :=
  { c with intro := c.intro ++ content }

/-- Method `chunk.prependLeft`. -/
def chunk.prependLeft (c : chunk) (content : Str) : chunk :=
  { c with outro := content ++ c.outro }

/-- Method `chunk.prependRight`. -/
def chunk.prependRight (c : chunk) (content : Str) : chunk :=
  { c with intro := content ++ c.intro }

/-- Method `chunk.contains`. -/
def chunk.contains (c : chunk) (index : Int) : Bool :=
  decide (c.start < index) && decide (index < c.end_)

/-- Method `chunk.edit`. -/
def chunk.edit (c : chunk) (content : Str) : chunk :=
  { c with content := content, intro := [], outro := [], edited := true }

/-- Method `chunk.String`. -/
def chunk.String (c : chunk) : Str :=
  c.intro ++ c.content ++ c.outro

/-- Method `chunk.split`, on the chunk at `p`: the new chunk is allocated at the
end of the arena and its index is returned with the new arena. -/
def chunk.split (h : List chunk) (p : Nat) (index : Int) : Except Fault (List chunk × Nat) :=
  match deref h (some p) with
  | Except.error f => Except.error f
  | Except.ok c =>
    let sliceIndex := index - c.start
    if sliceIndex < 0 ∨ (c.original.length : Int) < sliceIndex then Except.error Fault.panic
    else
      let originBefore := c.original.take sliceIndex.toNat
      let originAfter := c.original.drop sliceIndex.toNat
      let c2 : chunk := { newChunk index c.end_ originAfter with outro := c.outro }
      let c1 : chunk := { c with original := originBefore, outro := [], end_ := index }
      let c2e : chunk := if c.edited then c2.edit [] else c2
      let c1e : chunk := if c.edited then { c1 with content := [] } else { c1 with content := originBefore }
      let p2 := h.length
      let h1 := h.set p { c1e with next := some p2 } ++ [{ c2e with next := c.next, prev := some p }]
      match c.next with
      | none => Except.ok (h1, p2)
      | some q =>
        match h1[q]? with
        | none => Except.error Fault.panic
        | some cq => Except.ok (h1.set q { cq with prev := some p2 }, p2)

/-- Method `MagicString.splitChunk`. -/
def MagicString.splitChunk (ms : MagicString) (p : Nat) (index : Int) :
    Except Fault (MagicString × Option Err) :=
  match deref ms.heap (some p) with
  | Except.error f => Except.error f
  | Except.ok c =>
    if c.edited = true ∧ 0 < c.content.length then Except.ok (ms, some Err.splitEdited)
    else
      match chunk.split ms.heap p index with
      | Except.error f => Except.error f
      | Except.ok (h, p2) =>
        match deref h (some p2) with
        | Except.error f => Except.error f
        | Except.ok c2 =>
          Except.ok
            ({ ms with
                heap := h
                byEnd := mapSet (mapSet ms.byEnd index (some p)) c2.end_ (some p2)
                byStart := mapSet ms.byStart index (some p2)
                lastChunk := if ms.lastChunk = some p then some p2 else ms.lastChunk
                lastSearchedChunk := some p }, none)

/-- The loop of `MagicString.split`. -/
def MagicString.splitWalk (ms : MagicString) (index : Int) (search_forward : Bool) :
    Nat → Ptr → Except Fault MagicString
  | _, none => Except.ok ms
  | 0, some _ => Except.error Fault.diverge
  | fuel + 1, some p =>
    match deref ms.heap (some p) with
    | Except.error f => Except.error f
    | Except.ok c =>
      if c.contains index = true then
        match ms.splitChunk p index with
        | Except.error f => Except.error f
        | Except.ok r => Except.ok r.1
      else
        MagicString.splitWalk ms index search_forward fuel
          (if search_forward = true then ms.byStart c.end_ else ms.byEnd c.start)

/-- Method `MagicString.split`; the error of `splitChunk` is not passed on. -/
def MagicString.split (ms : MagicString) (index : Int) : Except Fault MagicString :=
  if ms.byStart index ≠ none then Except.ok ms
  else if ms.byEnd index ≠ none then Except.ok ms
  else
    match deref ms.heap ms.lastSearchedChunk with
    | Except.error f => Except.error f
    | Except.ok c =>
      MagicString.splitWalk ms index (decide (index > c.end_)) (ms.heap.length + 1)
        ms.lastSearchedChunk

/-- The loop `for v < 0 { v += n }`. -/
def addLen (n : Int) : Nat → Int → Except Fault Int
  | 0, v => if v < 0 then Except.error Fault.diverge else Except.ok v
  | fuel + 1, v => if v < 0 then addLen n fuel (v + n) else Except.ok v

/-- The two loops that open `Overwrite` and `Remove`. -/
def resolve (ms : MagicString) (v : Int) : Except Fault Int :=
  addLen (ms.original.length : Int) (-v).toNat v

/-- The loop `for c := firstC.next; c != lastC; c = c.next { c.edit("") }` of
`Overwrite`. -/
def editRun (lastC : Ptr) : Nat → List chunk → Ptr → Except Fault (List chunk)
  | 0, h, c =>
    if c = lastC then Except.ok h
    else match c with
      | none => Except.error Fault.panic
      | some _ => Except.error Fault.diverge
  | fuel + 1, h, c =>
    if c = lastC then Except.ok h
    else match c with
      | none => Except.error Fault.panic
      | some p =>
        match h[p]? with
        | none => Except.error Fault.panic
        | some ch => editRun lastC fuel (h.set p (ch.edit [])) ch.next

/-- Method `MagicString.Overwrite`.  The result is the state after the call,
whether the returned `*MagicString` is the receiver (`true`) or nil (`false`),
and the returned error. -/
def MagicString.Overwrite (ms : MagicString) (start end_ : Int) (content : Str) :
    Except Fault (MagicString × Bool × Option Err) :=
  match resolve ms start with
  | Except.error f => Except.error f
  | Except.ok start =>
  match resolve ms end_ with
  | Except.error f => Except.error f
  | Except.ok end_ =>
  if end_ > (ms.original.length : Int) then Except.ok (ms, false, some Err.endOutOfBounds)
  else if start = end_ then Except.ok (ms, false, some Err.zeroLength)
  else
    match ms.split start with
    | Except.error f => Except.error f
    | Except.ok ms1 =>
    match ms1.split end_ with
    | Except.error f => Except.error f
    | Except.ok ms2 =>
      let firstC := ms2.byStart start
      let lastC := ms2.byEnd end_
      match firstC with
      | some pf =>
        match ms2.heap[pf]? with
        | none => Except.error Fault.panic
        | some cf =>
          if end_ > cf.end_ ∧ cf.next ≠ ms2.byStart cf.end_ then
            Except.ok (ms2, false, some Err.acrossSplit)
          else
            let h1 := ms2.heap.set pf (cf.edit content)
            if firstC ≠ lastC then
              match editRun lastC (h1.length + 1) h1 cf.next with
              | Except.error f => Except.error f
              | Except.ok h2 =>
                match deref h2 lastC with
                | Except.error f => Except.error f
                | Except.ok cl =>
                  match lastC with
                  | none => Except.error Fault.panic
                  | some pl => Except.ok ({ ms2 with heap := h2.set pl (cl.edit []) }, true, none)
            else Except.ok ({ ms2 with heap := h1 }, true, none)
      | none =>
        let c := (newChunk start end_ []).edit []
        match lastC with
        | none => Except.error Fault.panic
        | some pl =>
          match ms2.heap[pl]? with
          | none => Except.error Fault.panic
          | some cl =>
            let pc := ms2.heap.length
            Except.ok
              ({ ms2 with heap := ms2.heap.set pl { cl with next := some pc } ++
                    [{ c with prev := some pl }] }, true, none)

/-- The loop of `MagicString.String`. -/
def walkString (h : List chunk) : Nat → Ptr → Except Fault Str
  | _, none => Except.ok []
  | 0, some _ => Except.error Fault.diverge
  | fuel + 1, some p =>
    match h[p]? with
    | none => Except.error Fault.panic
    | some c =>
      match walkString h fuel c.next with
      | Except.error f => Except.error f
      | Except.ok rest => Except.ok (c.String ++ rest)

/-- Method `MagicString.String`. -/
def MagicString.String (ms : MagicString) : Except Fault Str :=
  match walkString ms.heap (ms.heap.length + 1) ms.firstChunk with
  | Except.error f => Except.error f
  | Except.ok body => Except.ok (ms.intro ++ body ++ ms.outro)

/-- Method `MagicString.Prepend`: returns the receiver. -/
def MagicString.Prepend (ms : MagicString) (_content : Str) : MagicString := ms

/-- Method `MagicString.PrependLeft`: returns the receiver. -/
def MagicString.PrependLeft (ms : MagicString) (_index : Int) (_content : Str) : MagicString := ms

/-- Method `MagicString.PrependRight`: returns the receiver. -/
def MagicString.PrependRight (ms : MagicString) (_index : Int) (_content : Str) : MagicString := ms

/-- Method `MagicString.Append`. -/
def MagicString.Append (ms : MagicString) (content : Str) : MagicString :=
  { ms with outro := ms.outro ++ content }

/-- Method `MagicString.AppendLeft`. -/
def MagicString.AppendLeft (ms : MagicString) (index : Int) (content : Str) :
    Except Fault MagicString :=
  match ms.split index with
  | Except.error f => Except.error f
  | Except.ok ms1 =>
    match ms1.byEnd index with
    | some p =>
      match ms1.heap[p]? with
      | none => Except.error Fault.panic
      | some c => Except.ok { ms1 with heap := ms1.heap.set p (c.appendLeft content) }
    | none => Except.ok { ms1 with intro := ms1.intro ++ content }

/-- Method `MagicString.AppendRight`. -/
def MagicString.AppendRight (ms : MagicString) (index : Int) (content : Str) :
    Except Fault MagicString :=
  match ms.split index with
  | Except.error f => Except.error f
  | Except.ok ms1 =>
    match ms1.byStart index with
    | some p =>
      match ms1.heap[p]? with
      | none => Except.error Fault.panic
      | some c => Except.ok { ms1 with heap := ms1.heap.set p (c.appendRight content) }
    | none => Except.ok { ms1 with outro := ms1.outro ++ content }

/-- Assignment `p.next = v` through a pointer that is not nil. -/
def setNext (h : List chunk) (p : Nat) (v : Ptr) : Except Fault (List chunk) :=
  match h[p]? with
  | none => Except.error Fault.panic
  | some c => Except.ok (h.set p { c with next := v })

/-- Assignment `p.prev = v` through a pointer that is not nil. -/
def setPrev (h : List chunk) (p : Nat) (v : Ptr) : Except Fault (List chunk) :=
  match h[p]? with
  | none => Except.error Fault.panic
  | some c => Except.ok (h.set p { c with prev := v })

/-- The statement `if p != nil { p.next = v }`. -/
def setNextOpt (h : List chunk) (p : Ptr) (v : Ptr) : Except Fault (List chunk) :=
  match p with
  | some q => setNext h q v
  | none => Except.ok h

/-- The statement `if p != nil { p.prev = v }`. -/
def setPrevOpt (h : List chunk) (p : Ptr) (v : Ptr) : Except Fault (List chunk) :=
  match p with
  | some q => setPrev h q v
  | none => Except.ok h

/-- The value of `newLeft` in `MagicString.Move`: `newRight.prev` when `newRight`
is not nil, `ms.lastChunk` otherwise. -/
def newLeftOf (ms : MagicString) (newRight : Ptr) : Except Fault Ptr :=
  match newRight with
  | some pr =>
    match ms.heap[pr]? with
    | none => Except.error Fault.panic
    | some cr => Except.ok cr.prev
  | none => Except.ok ms.lastChunk

/-- The relinking part of `MagicString.Move`, after the three splits. -/
def MagicString.relink (ms : MagicString) (start end_ index : Int) :
    Except Fault (MagicString × Option Err) :=
  match ms.byStart start, ms.byEnd end_ with
  | none, _ => Except.error Fault.panic
  | some _, none => Except.error Fault.panic
  | some pf, some pl =>
    match ms.heap[pf]?, ms.heap[pl]? with
    | none, _ => Except.error Fault.panic
    | some _, none => Except.error Fault.panic
    | some cf, some cl =>
      let oldLeft := cf.prev
      let oldRight := cl.next
      let newRight := ms.byStart index
      if newRight = none ∧ some pl = ms.lastChunk then Except.ok (ms, none)
      else
        match newLeftOf ms newRight with
        | Except.error f => Except.error f
        | Except.ok newLeft =>
          match setNextOpt ms.heap oldLeft oldRight with
          | Except.error f => Except.error f
          | Except.ok h1 =>
          match setPrevOpt h1 oldRight oldLeft with
          | Except.error f => Except.error f
          | Except.ok h2 =>
          match setPrev h2 pf newLeft with
          | Except.error f => Except.error f
          | Except.ok h3 =>
          match setNextOpt h3 newLeft (some pf) with
          | Except.error f => Except.error f
          | Except.ok h4 =>
          match setNext h4 pl newRight with
          | Except.error f => Except.error f
          | Except.ok h5 =>
          match setPrevOpt h5 newRight (some pl) with
          | Except.error f => Except.error f
          | Except.ok h6 =>
            Except.ok
              ({ ms with
                  heap := h6
                  firstChunk := if newLeft = none then some pf else ms.firstChunk
                  lastChunk := if newRight = none then some pl else ms.lastChunk }, none)

/-- Method `MagicString.Move`. -/
def MagicString.Move (ms : MagicString) (start end_ index : Int) :
    Except Fault (MagicString × Option Err) :=
  if index ≥ start ∧ index ≤ end_ then Except.ok (ms, some Err.moveInside)
  else
    match ms.split start with
    | Except.error f => Except.error f
    | Except.ok ms1 =>
    match ms1.split end_ with
    | Except.error f => Except.error f
    | Except.ok ms2 =>
    match ms2.split index with
    | Except.error f => Except.error f
    | Except.ok ms3 => ms3.relink start end_ index

/-- The loop of `MagicString.Remove`. -/
def removeRun (end_ : Int) : Nat → List chunk → Ptr → Except Fault (List chunk)
  | _, h, none => Except.ok h
  | 0, _, some _ => Except.error Fault.diverge
  | fuel + 1, h, some p =>
    match h[p]? with
    | none => Except.error Fault.panic
    | some c =>
      let c1 := ({ c with intro := [], outro := [] } : chunk).edit []
      removeRun end_ fuel (h.set p c1) (if end_ > c1.end_ then c1.next else none)

/-- Method `MagicString.Remove`. -/
def MagicString.Remove (ms : MagicString) (start end_ : Int) :
    Except Fault (MagicString × Option Err) :=
  match resolve ms start with
  | Except.error f => Except.error f
  | Except.ok start =>
  match resolve ms end_ with
  | Except.error f => Except.error f
  | Except.ok end_ =>
  if start = end_ then Except.ok (ms, none)
  else if end_ > (ms.original.length : Int) then Except.ok (ms, some Err.outOfBounds)
  else if start > end_ then Except.ok (ms, some Err.endBeforeStart)
  else
    match ms.split start with
    | Except.error f => Except.error f
    | Except.ok ms1 =>
    match ms1.split end_ with
    | Except.error f => Except.error f
    | Except.ok ms2 =>
      match removeRun end_ (ms2.heap.length + 1) ms2.heap (ms2.byStart start) with
      | Except.error f => Except.error f
      | Except.ok h => Except.ok ({ ms2 with heap := h }, none)

/-- Function `New`. -/
def New (input : Str) : MagicString :=
  { original := input
    intro := []
    outro := []
    firstChunk := some 0
    lastChunk := some 0
    lastSearchedChunk := some 0
    byStart := mapSet (fun _ => none) 0 (some 0)
    byEnd := mapSet (fun _ => none) (input.length : Int) (some 0)
    heap := [newChunk 0 (input.length : Int) input] }

/-! ## The chunks in list order

The definitions below describe a state by the list of its chunks in the order
of the linked list, each paired with its place in the arena. -/

/-- A chunk without its two links. -/
def chunk.bare (c : chunk) : chunk := { c with prev := none, next := none }

/-- The Go slice expression `s[a:b]`. -/
def slice (s : Str) (a b : Int) : Str := (s.take b.toNat).drop a.toNat

/-- The pointer to the first chunk of a run, or `nxt` when the run is empty. -/
def hd : List (Nat × chunk) → Ptr → Ptr
  | [], nxt => nxt
  | pc :: _, _ => some pc.1

/-- The pointer to the last chunk of a run, or `prv` when the run is empty. -/
def tl : Ptr → List (Nat × chunk) → Ptr
  | prv, [] => prv
  | _, pc :: rest => tl (some pc.1) rest

/-- The arena holds the run `pcs` as a doubly linked segment entered from `prv`
and left towards `nxt`. -/
def LSeg (h : List chunk) : Ptr → List (Nat × chunk) → Ptr → Prop
  | _, [], _ => True
  | prv, pc :: rest, nxt =>
    (∃ ch, h[pc.1]? = some ch ∧ ch.bare = pc.2 ∧ ch.prev = prv ∧ ch.next = hd rest nxt) ∧
      LSeg h (some pc.1) rest nxt

/-- The pointer a boundary map holds for the first chunk of the run that
satisfies `f`. -/
def findPtr (f : chunk → Bool) (pcs : List (Nat × chunk)) : Ptr :=
  (pcs.find? (fun pc => f pc.2)).map Prod.fst

/-- The state `ms` is the list `pcs`: the linked list runs through exactly these
chunks, and the two maps index their boundaries. -/
structure Rep (ms : MagicString) (pcs : List (Nat × chunk)) : Prop where
  nodup : (pcs.map Prod.fst).Nodup
  lseg : LSeg ms.heap none pcs none
  first : ms.firstChunk = hd pcs none
  last : ms.lastChunk = tl none pcs
  searched : ∃ pc ∈ pcs, ms.lastSearchedChunk = some pc.1
  starts : ∀ k, ms.byStart k = findPtr (fun c => decide (c.start = k)) pcs
  ends : ∀ k, ms.byEnd k = findPtr (fun c => decide (c.end_ = k)) pcs

/-- The chunks `cs` tile the range from `lo` to `hi` of `s` in order: each one
starts where the one before ends, is not empty, holds its slice of `s` as
`original`, and renders it as `content` until edited. -/
def Cover (s : Str) : Int → Int → List chunk → Prop
  | lo, hi, [] => lo = hi
  | lo, hi, c :: cs =>
    c.start = lo ∧ lo < c.end_ ∧ c.original = slice s lo c.end_ ∧
      (c.edited = false → c.content = c.original) ∧ Cover s c.end_ hi cs

/-- What `String` concatenates for a list of chunks. -/
def render (cs : List chunk) : Str := cs.flatMap chunk.String

/-- What `split` does once its search has ended: nothing when no chunk was
found, `splitChunk` (its error dropped) on the chunk found. -/
def splitFound (ms : MagicString) (index : Int) : Option (Nat × chunk) → Except Fault MagicString
  | none => Except.ok ms
  | some pc =>
    match ms.splitChunk pc.1 index with
    | Except.error f => Except.error f
    | Except.ok r => Except.ok r.1

/-- The chunk `chunk.split` leaves in place of the one it splits, links aside. -/
def frontHalf (index : Int) (c : chunk) : chunk :=
  if c.edited then
    { c with original := c.original.take (index - c.start).toNat, outro := [], end_ := index,
             content := [] }
  else
    { c with original := c.original.take (index - c.start).toNat, outro := [], end_ := index,
             content := c.original.take (index - c.start).toNat }

/-- The chunk `chunk.split` creates, links aside. -/
def backHalf (index : Int) (c : chunk) : chunk :=
  if c.edited then
    ({ newChunk index c.end_ (c.original.drop (index - c.start).toNat) with
        outro := c.outro } : chunk).edit []
  else
    { newChunk index c.end_ (c.original.drop (index - c.start).toNat) with outro := c.outro }

/-- What `split` makes of one chunk of the list: two halves when the chunk
contains the offset and is not an edit with content, the chunk itself otherwise. -/
def splitSeg (index : Int) (c : chunk) : List chunk :=
  if c.contains index = true ∧ ¬ (c.edited = true ∧ 0 < c.content.length) then
    [frontHalf index c, backHalf index c]
  else [c]

/-- What `split` makes of the list of chunks. -/
def asplit (index : Int) (cs : List chunk) : List chunk := cs.flatMap (splitSeg index)

/-- The state `ms` over the original `s` is the tiling `cs` of `s`. -/
def Good (s : Str) (ms : MagicString) (cs : List chunk) : Prop :=
  ms.original = s ∧ Cover s 0 (s.length : Int) cs ∧ ∃ pcs, Rep ms pcs ∧ pcs.map Prod.snd = cs

/-- A change of the data of chunks that leaves their offsets and links alone. -/
def DataOnly (g : chunk → chunk) : Prop :=
  ∀ c, (g c).bare = g c.bare ∧ (g c).start = c.start ∧ (g c).end_ = c.end_ ∧
    (g c).prev = c.prev ∧ (g c).next = c.next

/-- What `AppendLeft` makes of the list of chunks, after its split. -/
def aappendLeft (index : Int) (x : Str) (cs : List chunk) : List chunk :=
  cs.map (fun c => if c.end_ = index then c.appendLeft x else c)

/-- What `AppendRight` makes of the list of chunks, after its split. -/
def aappendRight (index : Int) (x : Str) (cs : List chunk) : List chunk :=
  cs.map (fun c => if c.start = index then c.appendRight x else c)

/-- Some chunk of the list ends at `index`. -/
def hasEnd (index : Int) (cs : List chunk) : Bool := cs.any (fun c => decide (c.end_ = index))

/-- Some chunk of the list starts at `index`. -/
def hasStart (index : Int) (cs : List chunk) : Bool := cs.any (fun c => decide (c.start = index))

/-- What `Overwrite(a, b, content)` makes of the list of chunks, after its two
splits: the chunk starting at `a` gets the content, the other chunks up to `b`
are blanked.  `Remove(a, b)` is the case of an empty content. -/
def aedit (a b : Int) (content : Str) (cs : List chunk) : List chunk :=
  cs.map (fun c =>
    if a ≤ c.start ∧ c.end_ ≤ b then c.edit (if c.start = a then content else []) else c)

/-- An offset can be cut: no chunk that holds an edit with content contains it. -/
def Cut (cs : List chunk) (index : Int) : Prop :=
  ∀ c ∈ cs, c.contains index = true → ¬ (c.edited = true ∧ 0 < c.content.length)

/-- A chunk as `New` and `split` make it: not edited, nothing inserted. -/
def Plain (c : chunk) : Prop := c.edited = false ∧ c.intro = [] ∧ c.outro = []

/-- A tiling by plain chunks. -/
def Pure (s : Str) (lo hi : Int) (cs : List chunk) : Prop :=
  Cover s lo hi cs ∧ ∀ c ∈ cs, Plain c

/-- One call of a sequence of edits: `Overwrite(a, b, c)` or `Remove(a, b)`. -/
inductive Edit where
  | overwrite (a b : Int) (c : Str)
  | remove (a b : Int)

/-- The start of the range of an edit. -/
def Edit.a : Edit → Int
  | Edit.overwrite a _ _ => a
  | Edit.remove a _ => a

/-- The end of the range of an edit. -/
def Edit.b : Edit → Int
  | Edit.overwrite _ b _ => b
  | Edit.remove _ b => b

/-- The text an edit puts in place of its range: nothing for a `Remove`. -/
def Edit.text : Edit → Str
  | Edit.overwrite _ _ c => c
  | Edit.remove _ _ => []

/-- One call; `some` is the state after it when the call returned a nil error
(and, for `Overwrite`, the receiver). -/
def applyEdit (ms : MagicString) : Edit → Option MagicString
  | Edit.overwrite a b c =>
    match ms.Overwrite a b c with
    | Except.ok (ms1, true, none) => some ms1
    | _ => none
  | Edit.remove a b =>
    match ms.Remove a b with
    | Except.ok (ms1, none) => some ms1
    | _ => none

/-- The calls of a list, in order; `some` is the final state when every call
returned a nil error. -/
def runEdits : MagicString → List Edit → Option MagicString
  | ms, [] => some ms
  | ms, e :: rest =>
    match applyEdit ms e with
    | some ms1 => runEdits ms1 rest
    | none => none

/-- The string of claim C1: `s` read offset by offset, with the text of an edit
in place of the first offset of its range, nothing for the other offsets of
the range, and the character of `s` at every offset outside the ranges. -/
def spliced (s : Str) (es : List Edit) : Str :=
  (List.range s.length).flatMap (fun j =>
    match es.find? (fun e => decide (e.a ≤ (j : Int) ∧ (j : Int) < e.b)) with
    | some e => if e.a = (j : Int) then e.text else []
    | none => slice s (j : Int) ((j : Int) + 1))

/-- What `spliced` reads at the offset `j`. -/
def splicedAt (s : Str) (es : List Edit) (j : Nat) : Str :=
  match es.find? (fun e => decide (e.a ≤ (j : Int) ∧ (j : Int) < e.b)) with
  | some e => if e.a = (j : Int) then e.text else []
  | none => slice s (j : Int) ((j : Int) + 1)

/-- Two edits have disjoint ranges. -/
def Apart (e f : Edit) : Prop := e.b ≤ f.a ∨ f.b ≤ e.a

/-- A chunk of a state reached by the edits `D`: nothing inserted, and either
not edited and outside every range, or edited, inside one range and holding its
text when it is the first chunk of the range. -/
def Tagged (D : Edit → Prop) (c : chunk) : Prop :=
  c.intro = [] ∧ c.outro = [] ∧
    ((c.edited = false ∧ ∀ e, D e → e.b ≤ c.start ∨ c.end_ ≤ e.a) ∨
      (c.edited = true ∧ ∃ e, D e ∧ e.a ≤ c.start ∧ c.end_ ≤ e.b ∧
        c.content = if c.start = e.a then e.text else []))

/-- The invariant of a sequence of disjoint edits. -/
def Inv (s : Str) (D : Edit → Prop) (ms : MagicString) : Prop :=
  ∃ cs, Good s ms cs ∧ ms.intro = [] ∧ ms.outro = [] ∧ ∀ c ∈ cs, Tagged D c

/-- What the walk of `String` reads of the cell at `p`: its data and its `next`. -/
def cv (h : List chunk) (p : Nat) : Option (chunk × Ptr) :=
  (h[p]?).map (fun c => (c.bare, c.next))

/-- The arena holds the run `pcs` as a chain of `next` links left towards `nxt`. -/
def NSeg (h : List chunk) : List (Nat × chunk) → Ptr → Prop
  | [], _ => True
  | pc :: rest, nxt => cv h pc.1 = some (pc.2, hd rest nxt) ∧ NSeg h rest nxt

/-! ## The boundary maps

The two maps are written by `splitChunk` alone, and `chunk.split` is the only
code that changes the offsets or the original text of a chunk.  The definitions
below state what the maps hold without reference to the links of the list. -/

/-- The offsets and the original text of a chunk. -/
def chunk.key (c : chunk) : Int × Int × Str := (c.start, c.end_, c.original)

/-- Every chunk of the arena `h` is in `h2` at the same place, with the same
offsets and the same original text. -/
def Frame (h h2 : List chunk) : Prop :=
  ∀ (x : Nat) (d : chunk), h[x]? = some d → ∃ d2 : chunk, h2[x]? = some d2 ∧ d2.key = d.key

/-- What the code keeps true of the two maps, in the form the proofs carry
along: a key of `byStart` leads to a chunk that starts there, lies inside the
original, holds its slice and is the entry of `byEnd` at its end; a key of
`byEnd` leads to a chunk that ends there and is the entry of `byStart` at its
start; a chunk registered at a smaller start ends before a larger one; every
offset of the original is inside a registered chunk; the search cursor is a
registered chunk. -/
structure MapInv (s : Str) (ms : MagicString) : Prop where
  starts : ∀ k p, ms.byStart k = some p → ∃ c, ms.heap[p]? = some c ∧ c.start = k ∧ 0 ≤ k ∧
    k < c.end_ ∧ c.end_ ≤ (s.length : Int) ∧ c.original = slice s k c.end_ ∧
    ms.byEnd c.end_ = some p
  ends : ∀ k p, ms.byEnd k = some p → ∃ c, ms.heap[p]? = some c ∧ c.end_ = k ∧
    ms.byStart c.start = some p
  apart : ∀ k1 k2 p1 p2 c1, ms.byStart k1 = some p1 → ms.byStart k2 = some p2 →
    ms.heap[p1]? = some c1 → k1 < k2 → c1.end_ ≤ k2
  cover : ∀ x, 0 ≤ x → x < (s.length : Int) →
    ∃ k p c, ms.byStart k = some p ∧ ms.heap[p]? = some c ∧ k ≤ x ∧ x < c.end_
  searched : ∃ p c, ms.lastSearchedChunk = some p ∧ ms.heap[p]? = some c ∧
    ms.byStart c.start = some p

/-- One call of a public method that can change the state. -/
inductive Op where
  | overwrite (start end_ : Int) (content : Str)
  | remove (start end_ : Int)
  | move (start end_ index : Int)
  | appendLeft (index : Int) (content : Str)
  | appendRight (index : Int) (content : Str)
  | append (content : Str)
  | prepend (content : Str)
  | prependLeft (index : Int) (content : Str)
  | prependRight (index : Int) (content : Str)

/-- The state one call leaves when it returns, with or without an error value. -/
def applyOp (ms : MagicString) : Op → Except Fault MagicString
  | Op.overwrite a b c =>
    match ms.Overwrite a b c with
    | Except.error f => Except.error f
    | Except.ok r => Except.ok r.1
  | Op.remove a b =>
    match ms.Remove a b with
    | Except.error f => Except.error f
    | Except.ok r => Except.ok r.1
  | Op.move a b i =>
    match ms.Move a b i with
    | Except.error f => Except.error f
    | Except.ok r => Except.ok r.1
  | Op.appendLeft i x => ms.AppendLeft i x
  | Op.appendRight i x => ms.AppendRight i x
  | Op.append x => Except.ok (ms.Append x)
  | Op.prepend x => Except.ok (ms.Prepend x)
  | Op.prependLeft i x => Except.ok (ms.PrependLeft i x)
  | Op.prependRight i x => Except.ok (ms.PrependRight i x)

/-- The calls of a list, in order; the result is the final state when every
call returned. -/
def runOps : MagicString → List Op → Except Fault MagicString
  | ms, [] => Except.ok ms
  | ms, o :: rest =>
    match applyOp ms o with
    | Except.error f => Except.error f
    | Except.ok ms1 => runOps ms1 rest

/-- The boundary-index invariant of claim C17: the two maps register the same
chunks; a registered chunk has `start < end_`, lies inside the original, holds
its slice of the original and is the entry of `byStart` at its start and of
`byEnd` at its end; every offset of the original lies in the range of exactly
one registered chunk; an offset strictly inside the original is a key of both
maps or of neither; 0 is a key of `byStart` only and `len(s)` is a key of
`byEnd` only. -/
structure BoundaryIndex (s : Str) (ms : MagicString) : Prop where
  sameSet : ∀ p, (∃ k, ms.byStart k = some p) ↔ (∃ k, ms.byEnd k = some p)
  registered : ∀ k p, ms.byStart k = some p ∨ ms.byEnd k = some p →
    ∃ c, ms.heap[p]? = some c ∧ c.start < c.end_ ∧ 0 ≤ c.start ∧ c.end_ ≤ (s.length : Int) ∧
      c.original = slice s c.start c.end_ ∧ ms.byStart c.start = some p ∧
      ms.byEnd c.end_ = some p ∧ (ms.byStart k = some p → c.start = k) ∧
      (ms.byEnd k = some p → c.end_ = k)
  partition : ∀ x, 0 ≤ x → x < (s.length : Int) →
    ∃! p, ∃ k c, ms.byStart k = some p ∧ ms.heap[p]? = some c ∧ c.start ≤ x ∧ x < c.end_
  internal : ∀ k, 0 < k → k < (s.length : Int) → (ms.byStart k ≠ none ↔ ms.byEnd k ≠ none)
  zero : ms.byStart 0 ≠ none ∧ ms.byEnd 0 = none
  last : ms.byEnd (s.length : Int) ≠ none ∧ ms.byStart (s.length : Int) = none

/-! ## Theorems -/

theorem bare_String (c : chunk) : c.bare.String = c.String := rfl

theorem hd_nil (nxt : Ptr) : hd [] nxt = nxt := rfl

theorem hd_cons (pc : Nat × chunk) (rest : List (Nat × chunk)) (nxt : Ptr) :
    hd (pc :: rest) nxt = some pc.1 := rfl

theorem walkString_lseg (h : List chunk) (nxt : Ptr) (f : Nat) :
    ∀ (pcs : List (Nat × chunk)) (prv : Ptr), LSeg h prv pcs nxt →
      walkString h (pcs.length + f) (hd pcs nxt) =
        match walkString h f nxt with
        | Except.error e => Except.error e
        | Except.ok rest => Except.ok (render (pcs.map Prod.snd) ++ rest) := by
  intro pcs
  induction pcs with
  | nil =>
    intro prv _
    simp only [List.length_nil, Nat.zero_add, hd_nil, List.map_nil, render, List.flatMap_nil,
      List.nil_append]
    cases walkString h f nxt <;> rfl
  | cons pc rest ih =>
    intro prv hl
    obtain ⟨⟨ch, hch, hbare, _, hnext⟩, hrest⟩ := hl
    have e1 : (pc :: rest).length + f = (rest.length + f) + 1 := by
      simp only [List.length_cons]; omega
    rw [e1]
    simp only [hd_cons, walkString, hch, hnext]
    rw [ih (some pc.1) hrest]
    cases walkString h f nxt with
    | error e => rfl
    | ok r =>
      simp only [List.map_cons, render, List.flatMap_cons, List.append_assoc]
      rw [← hbare, bare_String]

theorem tl_nil (prv : Ptr) : tl prv [] = prv := rfl

theorem tl_cons (prv : Ptr) (pc : Nat × chunk) (rest : List (Nat × chunk)) :
    tl prv (pc :: rest) = tl (some pc.1) rest := rfl

theorem hd_append (A B : List (Nat × chunk)) (nxt : Ptr) :
    hd (A ++ B) nxt = hd A (hd B nxt) := by
  cases A <;> rfl

theorem tl_append (A B : List (Nat × chunk)) (prv : Ptr) :
    tl prv (A ++ B) = tl (tl prv A) B := by
  induction A generalizing prv with
  | nil => rfl
  | cons pc rest ih => simp only [List.cons_append, tl_cons, ih]

theorem tl_snoc (A : List (Nat × chunk)) (pc : Nat × chunk) (prv : Ptr) :
    tl prv (A ++ [pc]) = some pc.1 := by
  rw [tl_append]; rfl

theorem LSeg_nil (h : List chunk) (prv nxt : Ptr) : LSeg h prv [] nxt := trivial

theorem LSeg_cons (h : List chunk) (prv nxt : Ptr) (pc : Nat × chunk)
    (rest : List (Nat × chunk)) :
    LSeg h prv (pc :: rest) nxt ↔
      (∃ ch, h[pc.1]? = some ch ∧ ch.bare = pc.2 ∧ ch.prev = prv ∧ ch.next = hd rest nxt) ∧
        LSeg h (some pc.1) rest nxt := Iff.rfl

theorem LSeg_append (h : List chunk) (A B : List (Nat × chunk)) (prv nxt : Ptr) :
    LSeg h prv (A ++ B) nxt ↔ LSeg h prv A (hd B nxt) ∧ LSeg h (tl prv A) B nxt := by
  induction A generalizing prv with
  | nil => simp only [List.nil_append, LSeg_nil, true_and, tl_nil]
  | cons pc rest ih =>
    simp only [List.cons_append, LSeg_cons, ih, hd_append, tl_cons, and_assoc]

theorem LSeg_frame (h h2 : List chunk) (pcs : List (Nat × chunk)) (prv nxt : Ptr)
    (hsame : ∀ pc ∈ pcs, h2[pc.1]? = h[pc.1]?) (hl : LSeg h prv pcs nxt) :
    LSeg h2 prv pcs nxt := by
  induction pcs generalizing prv with
  | nil => trivial
  | cons pc rest ih =>
    rw [LSeg_cons] at hl ⊢
    refine ⟨?_, ih _ (fun x hx => hsame x (List.mem_cons_of_mem _ hx)) hl.2⟩
    rw [hsame pc (List.mem_cons_self _ _)]
    exact hl.1

theorem LSeg_get (h : List chunk) (pcs : List (Nat × chunk)) (prv nxt : Ptr)
    (hl : LSeg h prv pcs nxt) :
    ∀ pc ∈ pcs, ∃ ch, h[pc.1]? = some ch ∧ ch.bare = pc.2 := by
  induction pcs generalizing prv with
  | nil => intro pc hpc; cases hpc
  | cons x rest ih =>
    intro pc hpc
    rw [LSeg_cons] at hl
    rcases List.mem_cons.1 hpc with rfl | hmem
    · obtain ⟨⟨ch, h1, h2, _⟩, _⟩ := hl
      exact ⟨ch, h1, h2⟩
    · exact ih _ hl.2 pc hmem

theorem LSeg_lt (h : List chunk) (pcs : List (Nat × chunk)) (prv nxt : Ptr)
    (hl : LSeg h prv pcs nxt) : ∀ pc ∈ pcs, pc.1 < h.length := by
  intro pc hpc
  obtain ⟨ch, h1, _⟩ := LSeg_get h pcs prv nxt hl pc hpc
  by_contra hge
  rw [List.getElem?_eq_none (by omega)] at h1
  cases h1

theorem nodup_length_le (l : List Nat) (n : Nat) (hn : l.Nodup) (hlt : ∀ x ∈ l, x < n) :
    l.length ≤ n := by
  have h1 : l.toFinset ⊆ Finset.range n := by
    intro x hx
    rw [List.mem_toFinset] at hx
    exact Finset.mem_range.2 (hlt x hx)
  have h2 := Finset.card_le_card h1
  rw [List.toFinset_card_of_nodup hn, Finset.card_range] at h2
  exact h2

theorem Rep.length_le {ms : MagicString} {pcs : List (Nat × chunk)} (r : Rep ms pcs) :
    pcs.length ≤ ms.heap.length := by
  have h := nodup_length_le (pcs.map Prod.fst) ms.heap.length r.nodup (by
    intro x hx
    obtain ⟨pc, hpc, rfl⟩ := List.mem_map.1 hx
    exact LSeg_lt _ _ _ _ r.lseg pc hpc)
  simpa using h

theorem walkString_none (h : List chunk) (f : Nat) : walkString h f none = Except.ok [] := by
  cases f <;> rfl

theorem Rep_String {ms : MagicString} {pcs : List (Nat × chunk)} (r : Rep ms pcs) :
    ms.String = Except.ok (ms.intro ++ render (pcs.map Prod.snd) ++ ms.outro) := by
  have hlen := r.length_le
  have hw := walkString_lseg ms.heap none (ms.heap.length + 1 - pcs.length) pcs none r.lseg
  have e : pcs.length + (ms.heap.length + 1 - pcs.length) = ms.heap.length + 1 := by omega
  rw [e, walkString_none] at hw
  simp only [MagicString.String, r.first, hw, List.append_nil]

theorem Cover_nil (s : Str) (lo hi : Int) : Cover s lo hi [] ↔ lo = hi := Iff.rfl

theorem Cover_cons (s : Str) (lo hi : Int) (c : chunk) (cs : List chunk) :
    Cover s lo hi (c :: cs) ↔
      c.start = lo ∧ lo < c.end_ ∧ c.original = slice s lo c.end_ ∧
        (c.edited = false → c.content = c.original) ∧ Cover s c.end_ hi cs := Iff.rfl

theorem Cover_append (s : Str) (A B : List chunk) (lo hi : Int) :
    Cover s lo hi (A ++ B) ↔ ∃ mid, Cover s lo mid A ∧ Cover s mid hi B := by
  induction A generalizing lo with
  | nil =>
    simp only [List.nil_append, Cover_nil]
    constructor
    · intro h; exact ⟨lo, rfl, h⟩
    · rintro ⟨mid, rfl, h⟩; exact h
  | cons c rest ih =>
    simp only [List.cons_append, Cover_cons, ih]
    constructor
    · rintro ⟨h1, h2, h3, h4, mid, h5, h6⟩; exact ⟨mid, ⟨h1, h2, h3, h4, h5⟩, h6⟩
    · rintro ⟨mid, ⟨h1, h2, h3, h4, h5⟩, h6⟩; exact ⟨h1, h2, h3, h4, mid, h5, h6⟩

theorem Cover_le (s : Str) (cs : List chunk) (lo hi : Int) (h : Cover s lo hi cs) : lo ≤ hi := by
  induction cs generalizing lo with
  | nil => exact le_of_eq h
  | cons c rest ih =>
    obtain ⟨_, h2, _, _, h5⟩ := h
    have := ih _ h5
    omega

theorem Cover_mem (s : Str) (cs : List chunk) (lo hi : Int) (h : Cover s lo hi cs) :
    ∀ c ∈ cs, lo ≤ c.start ∧ c.start < c.end_ ∧ c.end_ ≤ hi := by
  induction cs generalizing lo with
  | nil => intro c hc; cases hc
  | cons x rest ih =>
    intro c hc
    obtain ⟨h1, h2, _, _, h5⟩ := h
    rcases List.mem_cons.1 hc with rfl | hmem
    · have := Cover_le s rest _ hi h5
      omega
    · have := ih _ h5 c hmem
      omega

theorem findPtr_nil (f : chunk → Bool) : findPtr f [] = none := rfl

theorem findPtr_cons (f : chunk → Bool) (pc : Nat × chunk) (rest : List (Nat × chunk)) :
    findPtr f (pc :: rest) = if f pc.2 = true then some pc.1 else findPtr f rest := by
  unfold findPtr
  rw [List.find?_cons]
  cases f pc.2 <;> simp

theorem findPtr_none (f : chunk → Bool) (pcs : List (Nat × chunk))
    (h : ∀ pc ∈ pcs, f pc.2 = false) : findPtr f pcs = none := by
  induction pcs with
  | nil => rfl
  | cons pc rest ih =>
    rw [findPtr_cons, h pc (List.mem_cons_self _ _)]
    simp only [Bool.false_eq_true, if_false]
    exact ih (fun x hx => h x (List.mem_cons_of_mem _ hx))

theorem findPtr_append_of_none (f : chunk → Bool) (A B : List (Nat × chunk))
    (h : ∀ pc ∈ A, f pc.2 = false) : findPtr f (A ++ B) = findPtr f B := by
  induction A with
  | nil => rfl
  | cons pc rest ih =>
    rw [List.cons_append, findPtr_cons, h pc (List.mem_cons_self _ _)]
    simp only [Bool.false_eq_true, if_false]
    exact ih (fun x hx => h x (List.mem_cons_of_mem _ hx))

theorem findPtr_eq_none (f : chunk → Bool) (pcs : List (Nat × chunk))
    (h : findPtr f pcs = none) : ∀ pc ∈ pcs, f pc.2 = false := by
  induction pcs with
  | nil => intro pc hpc; cases hpc
  | cons x rest ih =>
    rw [findPtr_cons] at h
    intro pc hpc
    by_cases hx : f x.2 = true
    · rw [if_pos hx] at h; cases h
    · rw [if_neg hx] at h
      rcases List.mem_cons.1 hpc with rfl | hmem
      · simpa using hx
      · exact ih h pc hmem

/-- In a tiling, the chunk starting where a chunk ends is the next one. -/
theorem findPtr_start_end (s : Str) (A B : List (Nat × chunk)) (pc : Nat × chunk) (lo hi : Int)
    (hc : Cover s lo hi ((A ++ pc :: B).map Prod.snd)) :
    findPtr (fun c => decide (c.start = pc.2.end_)) (A ++ pc :: B) = hd B none := by
  rw [List.map_append, List.map_cons, Cover_append] at hc
  obtain ⟨mid, hA, hB⟩ := hc
  obtain ⟨h1, h2, _, _, h5⟩ := hB
  rw [findPtr_append_of_none, findPtr_cons]
  · have : ¬ (pc.2.start = pc.2.end_) := by omega
    simp only [this, decide_False, Bool.false_eq_true, if_false]
    cases B with
    | nil => rfl
    | cons x rest =>
      obtain ⟨h6, _⟩ := h5
      rw [findPtr_cons, hd_cons]
      simp [h6]
  · intro x hx
    have := Cover_mem s _ lo mid hA x.2 (List.mem_map_of_mem _ hx)
    simp only [decide_eq_false_iff_not]
    omega

/-- In a tiling, the chunk ending where a chunk starts is the one before. -/
theorem findPtr_end_start (s : Str) (A B : List (Nat × chunk)) (pc : Nat × chunk) (lo hi : Int)
    (hc : Cover s lo hi ((A ++ pc :: B).map Prod.snd)) :
    findPtr (fun c => decide (c.end_ = pc.2.start)) (A ++ pc :: B) = tl none A := by
  rw [List.map_append, List.map_cons, Cover_append] at hc
  obtain ⟨mid, hA, hB⟩ := hc
  obtain ⟨h1, h2, _, _, h5⟩ := hB
  rcases List.eq_nil_or_concat A with rfl | ⟨A0, x, rfl⟩
  · rw [List.nil_append, tl_nil, findPtr_none]
    intro y hy
    have hm := Cover_mem s _ _ _ (show Cover s mid hi (pc.2 :: B.map Prod.snd) from
      ⟨h1, h2, by assumption, by assumption, h5⟩) y.2 (by
        rw [← List.map_cons]; exact List.mem_map_of_mem _ hy)
    simp only [decide_eq_false_iff_not]
    omega
  · rw [List.concat_eq_append] at hA ⊢
    rw [List.map_append, Cover_append] at hA
    obtain ⟨m2, hA0, hx⟩ := hA
    obtain ⟨hx1, hx2, _, _, hx5⟩ := hx
    have hx5 : x.2.end_ = mid := hx5
    rw [tl_snoc, List.append_assoc, findPtr_append_of_none, List.singleton_append, findPtr_cons]
    · simp [hx5, h1]
    · intro y hy
      have := Cover_mem s _ lo m2 hA0 y.2 (List.mem_map_of_mem _ hy)
      simp only [decide_eq_false_iff_not]
      omega

theorem bare_contains (c : chunk) (index : Int) : c.bare.contains index = c.contains index := rfl

theorem bare_start (c : chunk) : c.bare.start = c.start := rfl

theorem bare_end (c : chunk) : c.bare.end_ = c.end_ := rfl

/-- Chunks on the two sides of a cut of a tiling lie on the two sides of an offset. -/
theorem Cover_sides (s : Str) (A B : List chunk) (lo hi : Int) (hc : Cover s lo hi (A ++ B)) :
    ∃ mid, (∀ a ∈ A, a.start < a.end_ ∧ a.end_ ≤ mid) ∧ (∀ b ∈ B, mid ≤ b.start ∧ b.start < b.end_) := by
  rw [Cover_append] at hc
  obtain ⟨mid, hA, hB⟩ := hc
  refine ⟨mid, ?_, ?_⟩
  · intro a ha
    have := Cover_mem s A lo mid hA a ha
    omega
  · intro b hb
    have := Cover_mem s B mid hi hB b hb
    omega

/-- At most one chunk of a tiling contains a given offset. -/
theorem Cover_unique (s : Str) (pcs : List (Nat × chunk)) (lo hi : Int) (index : Int)
    (hc : Cover s lo hi (pcs.map Prod.snd)) (x y : Nat × chunk) (hx : x ∈ pcs) (hy : y ∈ pcs)
    (cx : x.2.contains index = true) (cy : y.2.contains index = true) : y = x := by
  obtain ⟨A, B, rfl⟩ := List.append_of_mem hx
  simp only [chunk.contains, Bool.and_eq_true, decide_eq_true_eq] at cx cy
  rw [List.map_append, List.map_cons] at hc
  have h1 := Cover_sides s _ _ lo hi hc
  obtain ⟨mid, hA, hB⟩ := h1
  have hxm := hB x.2 (List.mem_cons_self _ _)
  rw [← List.singleton_append, ← List.append_assoc] at hc
  obtain ⟨mid2, hA2, hB2⟩ := Cover_sides s _ _ lo hi hc
  have hxm2 := hA2 x.2 (List.mem_append_right _ (List.mem_singleton_self _))
  rcases List.mem_append.1 hy with h | h
  · have := hA y.2 (List.mem_map_of_mem _ h)
    omega
  · rcases List.mem_cons.1 h with h | h
    · exact h
    · have := hB2 y.2 (List.mem_map_of_mem _ h)
      omega

theorem find_unique (s : Str) (pcs : List (Nat × chunk)) (lo hi : Int) (index : Int)
    (hc : Cover s lo hi (pcs.map Prod.snd)) (x : Nat × chunk) (hx : x ∈ pcs)
    (cx : x.2.contains index = true) (l : List (Nat × chunk)) (hl : ∀ y ∈ l, y ∈ pcs)
    (hxl : x ∈ l) : l.find? (fun pc => pc.2.contains index) = some x := by
  cases hf : l.find? (fun pc => pc.2.contains index) with
  | none =>
    rw [List.find?_eq_none] at hf
    exact absurd cx (by simpa using hf x hxl)
  | some y =>
    have hy := List.mem_of_find?_eq_some hf
    have cy := List.find?_some hf
    rw [Cover_unique s pcs lo hi index hc x y hx (hl y hy) cx cy]

theorem splitWalk_forward (s : Str) (ms : MagicString) (index : Int) (lo hi : Int) (f : Nat)
    (pcs : List (Nat × chunk)) (r : Rep ms pcs) (hc : Cover s lo hi (pcs.map Prod.snd)) :
    ∀ (R A : List (Nat × chunk)), pcs = A ++ R →
      MagicString.splitWalk ms index true (R.length + f) (hd R none) =
        splitFound ms index (R.find? (fun pc => pc.2.contains index)) := by
  intro R
  induction R with
  | nil =>
    intro A _
    rw [hd_nil]
    simp only [List.length_nil, Nat.zero_add, List.find?_nil, splitFound]
    cases f <;> rfl
  | cons pc R ih =>
    intro A hA
    obtain ⟨ch, hch, hbare⟩ := LSeg_get _ _ _ _ r.lseg pc (by rw [hA]; simp)
    have e1 : (pc :: R).length + f = (R.length + f) + 1 := by
      simp only [List.length_cons]; omega
    rw [e1, hd_cons, List.find?_cons]
    simp only [MagicString.splitWalk, deref, hch]
    rw [← hbare, bare_contains]
    by_cases hcon : ch.contains index = true
    · simp only [hcon, if_true, splitFound]
    · simp only [hcon, if_false, Bool.false_eq_true]
      have hn : ms.byStart ch.end_ = hd R none := by
        rw [r.starts, ← bare_end, hbare]
        subst hA
        exact findPtr_start_end s A R pc lo hi hc
      rw [hn, if_pos trivial]
      have := ih (A ++ [pc]) (by rw [hA]; simp)
      simp only [Bool.not_eq_true] at hcon
      rw [this]

theorem splitWalk_backward (s : Str) (ms : MagicString) (index : Int) (lo hi : Int) (f : Nat)
    (pcs : List (Nat × chunk)) (r : Rep ms pcs) (hc : Cover s lo hi (pcs.map Prod.snd)) :
    ∀ (L B : List (Nat × chunk)), pcs = L ++ B →
      MagicString.splitWalk ms index false (L.length + f) (tl none L) =
        splitFound ms index (L.reverse.find? (fun pc => pc.2.contains index)) := by
  intro L
  induction L using List.reverseRecOn with
  | nil =>
    intro B _
    rw [tl_nil]
    simp only [List.length_nil, Nat.zero_add, List.reverse_nil, List.find?_nil, splitFound]
    cases f <;> rfl
  | append_singleton L pc ih =>
    intro B hB
    obtain ⟨ch, hch, hbare⟩ := LSeg_get _ _ _ _ r.lseg pc (by rw [hB]; simp)
    have e1 : (L ++ [pc]).length + f = (L.length + f) + 1 := by
      simp only [List.length_append, List.length_singleton]; omega
    rw [e1, tl_snoc, List.reverse_append, List.reverse_singleton, List.singleton_append,
      List.find?_cons]
    simp only [MagicString.splitWalk, deref, hch]
    rw [← hbare, bare_contains]
    by_cases hcon : ch.contains index = true
    · simp only [hcon, if_true, splitFound]
    · simp only [hcon, if_false, Bool.false_eq_true]
      have hn : ms.byEnd ch.start = tl none L := by
        rw [r.ends, ← bare_start, hbare]
        subst hB
        rw [List.append_assoc, List.singleton_append] at hc ⊢
        exact findPtr_end_start s L B pc lo hi hc
      rw [hn]
      have := ih (pc :: B) (by rw [hB]; simp)
      simp only [Bool.not_eq_true] at hcon
      rw [this]

theorem findPtr_some_mem (f : chunk → Bool) (pcs : List (Nat × chunk)) (h : findPtr f pcs ≠ none) :
    ∃ x ∈ pcs, f x.2 = true := by
  by_contra hne
  apply h
  apply findPtr_none
  intro pc hpc
  by_contra hf
  exact hne ⟨pc, hpc, by simpa using hf⟩

/-- No chunk of a tiling contains an offset at which a chunk starts or ends. -/
theorem Cover_boundary (s : Str) (pcs : List (Nat × chunk)) (lo hi : Int) (index : Int)
    (hc : Cover s lo hi (pcs.map Prod.snd)) (x : Nat × chunk) (hx : x ∈ pcs)
    (hb : x.2.start = index ∨ x.2.end_ = index) :
    ∀ y ∈ pcs, y.2.contains index = false := by
  obtain ⟨A, B, rfl⟩ := List.append_of_mem hx
  rw [List.map_append, List.map_cons] at hc
  obtain ⟨mid, hA, hB⟩ := Cover_sides s _ _ lo hi hc
  have hxm := hB x.2 (List.mem_cons_self _ _)
  rw [← List.singleton_append, ← List.append_assoc] at hc
  obtain ⟨mid2, hA2, hB2⟩ := Cover_sides s _ _ lo hi hc
  have hxm2 := hA2 x.2 (List.mem_append_right _ (List.mem_singleton_self _))
  intro y hy
  simp only [chunk.contains, Bool.and_eq_false_iff, decide_eq_false_iff_not]
  rcases List.mem_append.1 hy with h | h
  · have := hA y.2 (List.mem_map_of_mem _ h)
    omega
  · rcases List.mem_cons.1 h with h | h
    · subst h; omega
    · have := hB2 y.2 (List.mem_map_of_mem _ h)
      omega

theorem find_none_of_boundary (s : Str) (pcs : List (Nat × chunk)) (lo hi : Int) (index : Int)
    (hc : Cover s lo hi (pcs.map Prod.snd)) (x : Nat × chunk) (hx : x ∈ pcs)
    (hb : x.2.start = index ∨ x.2.end_ = index) :
    pcs.find? (fun pc => pc.2.contains index) = none := by
  rw [List.find?_eq_none]
  intro y hy
  simp [Cover_boundary s pcs lo hi index hc x hx hb y hy]

/-- On a tiling, `split` splits the one chunk that contains the offset, if any. -/
theorem split_eq (s : Str) (ms : MagicString) (pcs : List (Nat × chunk)) (lo hi : Int)
    (index : Int) (r : Rep ms pcs) (hc : Cover s lo hi (pcs.map Prod.snd)) :
    ms.split index = splitFound ms index (pcs.find? (fun pc => pc.2.contains index)) := by
  unfold MagicString.split
  by_cases hs : ms.byStart index ≠ none
  · rw [if_pos hs]
    rw [r.starts] at hs
    obtain ⟨x, hx, hx2⟩ := findPtr_some_mem _ _ hs
    rw [find_none_of_boundary s pcs lo hi index hc x hx (Or.inl (by simpa using hx2))]
    rfl
  rw [if_neg hs]
  by_cases he : ms.byEnd index ≠ none
  · rw [if_pos he]
    rw [r.ends] at he
    obtain ⟨x, hx, hx2⟩ := findPtr_some_mem _ _ he
    rw [find_none_of_boundary s pcs lo hi index hc x hx (Or.inr (by simpa using hx2))]
    rfl
  rw [if_neg he]
  obtain ⟨pc, hpc, hsearch⟩ := r.searched
  obtain ⟨ch, hch, hbare⟩ := LSeg_get _ _ _ _ r.lseg pc hpc
  obtain ⟨L, R, hLR⟩ := List.append_of_mem hpc
  have hlen := r.length_le
  have hlen2 : pcs.length = L.length + (R.length + 1) := by
    rw [hLR]; simp
  simp only [hsearch, deref, hch]
  have hc2 := hc
  rw [hLR, List.map_append, List.map_cons] at hc2
  obtain ⟨mid, hA, hB⟩ := Cover_sides s _ _ lo hi hc2
  have hxm := hB pc.2 (List.mem_cons_self _ _)
  rw [← List.singleton_append, ← List.append_assoc] at hc2
  obtain ⟨mid2, hA2, hB2⟩ := Cover_sides s _ _ lo hi hc2
  have hxm2 := hA2 pc.2 (List.mem_append_right _ (List.mem_singleton_self _))
  rw [← hbare, bare_start, bare_end] at hxm hxm2
  by_cases hfwd : index > ch.end_
  · have hw := splitWalk_forward s ms index lo hi (ms.heap.length + 1 - (R.length + 1)) pcs r hc
      (pc :: R) L hLR
    have e : (pc :: R).length + (ms.heap.length + 1 - (R.length + 1)) = ms.heap.length + 1 := by
      simp only [List.length_cons]; omega
    rw [e, hd_cons] at hw
    simp only [hfwd, decide_True]
    rw [hw]
    congr 1
    cases hfind : pcs.find? (fun pc => pc.2.contains index) with
    | none =>
      rw [List.find?_eq_none] at hfind ⊢
      intro y hy
      exact hfind y (by rw [hLR]; exact List.mem_append_right _ hy)
    | some x =>
      have hx := List.mem_of_find?_eq_some hfind
      have cx := List.find?_some hfind
      apply find_unique s pcs lo hi index hc x hx cx
      · intro y hy; rw [hLR]; exact List.mem_append_right _ hy
      · rw [hLR] at hx
        rcases List.mem_append.1 hx with h | h
        · have := hA x.2 (List.mem_map_of_mem _ h)
          simp only [chunk.contains, Bool.and_eq_true, decide_eq_true_eq] at cx
          omega
        · exact h
  · have hw := splitWalk_backward s ms index lo hi (ms.heap.length + 1 - (L.length + 1)) pcs r hc
      (L ++ [pc]) R (by rw [hLR]; simp)
    have e : (L ++ [pc]).length + (ms.heap.length + 1 - (L.length + 1)) = ms.heap.length + 1 := by
      simp only [List.length_append, List.length_singleton]; omega
    rw [e, tl_snoc] at hw
    simp only [hfwd, decide_False]
    rw [hw]
    congr 1
    cases hfind : pcs.find? (fun pc => pc.2.contains index) with
    | none =>
      rw [List.find?_eq_none] at hfind ⊢
      intro y hy
      exact hfind y (by
        rw [hLR]
        have : y ∈ L ++ [pc] := List.mem_reverse.1 hy
        rcases List.mem_append.1 this with h | h
        · exact List.mem_append_left _ h
        · exact List.mem_append_right _ (List.mem_cons.2 (Or.inl (List.mem_singleton.1 h))))
    | some x =>
      have hx := List.mem_of_find?_eq_some hfind
      have cx := List.find?_some hfind
      apply find_unique s pcs lo hi index hc x hx cx
      · intro y hy
        rw [hLR]
        have : y ∈ L ++ [pc] := List.mem_reverse.1 hy
        rcases List.mem_append.1 this with h | h
        · exact List.mem_append_left _ h
        · exact List.mem_append_right _ (List.mem_cons.2 (Or.inl (List.mem_singleton.1 h)))
      · rw [hLR] at hx
        apply List.mem_reverse.2
        rcases List.mem_append.1 hx with h | h
        · exact List.mem_append_left _ h
        · rcases List.mem_cons.1 h with h | h
          · exact List.mem_append_right _ (by simp [h])
          · have := hB2 x.2 (List.mem_map_of_mem _ h)
            simp only [chunk.contains, Bool.and_eq_true, decide_eq_true_eq] at cx
            omega

theorem slice_length (s : Str) (a b : Int) (h1 : 0 ≤ a) (h2 : a ≤ b) (h3 : b ≤ s.length) :
    (slice s a b).length = (b - a).toNat := by
  unfold slice
  rw [List.length_drop, List.length_take]
  omega

theorem slice_take (s : Str) (a b m : Int) (h1 : 0 ≤ a) (h2 : a ≤ m) (h3 : m ≤ b) :
    (slice s a b).take (m - a).toNat = slice s a m := by
  unfold slice
  rw [List.take_drop, List.take_take]
  congr 2
  omega

theorem slice_drop (s : Str) (a b m : Int) (h1 : 0 ≤ a) (h2 : a ≤ m) :
    (slice s a b).drop (m - a).toNat = slice s m b := by
  unfold slice
  rw [List.drop_drop]
  congr 1
  omega

theorem slice_append (s : Str) (a b m : Int) (h1 : 0 ≤ a) (h2 : a ≤ m) (h3 : m ≤ b) :
    slice s a m ++ slice s m b = slice s a b := by
  rw [← slice_take s a b m h1 h2 h3, ← slice_drop s a b m h1 h2, List.take_append_drop]

theorem slice_self (s : Str) (a : Int) : slice s a a = [] := by
  unfold slice
  rw [List.drop_take]
  simp

theorem slice_all (s : Str) : slice s 0 s.length = s := by
  simp [slice]

theorem frontHalf_bare (index : Int) (c : chunk) :
    (frontHalf index c).bare = frontHalf index c.bare := by
  unfold frontHalf chunk.bare
  cases c.edited <;> rfl

theorem backHalf_bare (index : Int) (c : chunk) :
    (backHalf index c).bare = backHalf index c.bare := by
  unfold backHalf chunk.bare
  cases c.edited <;> rfl

theorem chunk_split_spec (h : List chunk) (q : Nat) (index : Int) (ch : chunk)
    (hq : h[q]? = some ch) (h1 : 0 ≤ index - ch.start)
    (h2 : index - ch.start ≤ (ch.original.length : Int))
    (hn : ∀ r, ch.next = some r → r ≠ q ∧ r < h.length) :
    ∃ h2, chunk.split h q index = Except.ok (h2, h.length) ∧
      h2[q]? = some { frontHalf index ch with next := some h.length } ∧
      h2[h.length]? = some { backHalf index ch with prev := some q, next := ch.next } ∧
      (∀ r cr, ch.next = some r → h[r]? = some cr →
        h2[r]? = some { cr with prev := some h.length }) ∧
      (∀ x, x ≠ q → x ≠ h.length → ch.next ≠ some x → h2[x]? = h[x]?) := by
  have hql : q < h.length := by
    by_contra hge
    rw [List.getElem?_eq_none (by omega)] at hq
    cases hq
  have hcond : ¬ (index - ch.start < 0 ∨ (ch.original.length : Int) < index - ch.start) := by
    omega
  cases hnext : ch.next with
  | none =>
    refine ⟨h.set q { frontHalf index ch with next := some h.length } ++
      [{ backHalf index ch with next := none, prev := some q }], ?_, ?_, ?_, ?_, ?_⟩
    · unfold chunk.split
      simp only [deref, hq, hcond, if_false]
      cases hed : ch.edited <;> simp [frontHalf, backHalf, hed, hnext, chunk.edit, newChunk]
    · rw [List.getElem?_append_left (by simpa using hql), List.getElem?_set_self hql]
    · rw [List.getElem?_append_right (by simp)]
      simp
    · intro r cr hr
      cases hr
    · intro x hx1 hx2 _
      by_cases hxl : x < h.length
      · rw [List.getElem?_append_left (by simpa using hxl), List.getElem?_set_ne (Ne.symm hx1)]
      · rw [List.getElem?_eq_none (by simp; omega), List.getElem?_eq_none (by omega)]
  | some r =>
    obtain ⟨hrq, hrl⟩ := hn r hnext
    obtain ⟨cr, hcr⟩ : ∃ cr, h[r]? = some cr := ⟨h[r], List.getElem?_eq_getElem hrl⟩
    have hr1 : (h.set q { frontHalf index ch with next := some h.length } ++
        [{ backHalf index ch with next := some r, prev := some q }])[r]? = some cr := by
      rw [List.getElem?_append_left (by simpa using hrl), List.getElem?_set_ne (Ne.symm hrq), hcr]
    refine ⟨(h.set q { frontHalf index ch with next := some h.length } ++
      [{ backHalf index ch with next := some r, prev := some q }]).set r
        { cr with prev := some h.length }, ?_, ?_, ?_, ?_, ?_⟩
    · have hr2 := hr1
      unfold chunk.split
      simp only [deref, hq, hcond, if_false]
      cases hed : ch.edited <;>
        simp [frontHalf, backHalf, hed, hnext, chunk.edit, newChunk] at hr2 ⊢ <;>
        simp [hr2]
    · rw [List.getElem?_set_ne hrq, List.getElem?_append_left (by simpa using hql),
        List.getElem?_set_self hql]
    · rw [List.getElem?_set_ne (by omega), List.getElem?_append_right (by simp)]
      simp
    · intro r2 cr2 hr2 hcr2
      cases hr2
      rw [hcr] at hcr2
      cases hcr2
      rw [List.getElem?_set_self (by simp; omega)]
    · intro x hx1 hx2 hx3
      have hxr : r ≠ x := fun e => hx3 (by rw [e])
      rw [List.getElem?_set_ne hxr]
      by_cases hxl : x < h.length
      · rw [List.getElem?_append_left (by simpa using hxl), List.getElem?_set_ne (Ne.symm hx1)]
      · rw [List.getElem?_eq_none (by simp; omega), List.getElem?_eq_none (by omega)]

theorem bare_original (c : chunk) : c.bare.original = c.original := rfl
theorem bare_content (c : chunk) : c.bare.content = c.content := rfl
theorem bare_edited (c : chunk) : c.bare.edited = c.edited := rfl
theorem bare_intro (c : chunk) : c.bare.intro = c.intro := rfl
theorem bare_outro (c : chunk) : c.bare.outro = c.outro := rfl
theorem bare_bare (c : chunk) : c.bare.bare = c.bare := rfl

theorem findPtr_append_of_some (f : chunk → Bool) (A B : List (Nat × chunk)) (p : Nat)
    (h : findPtr f A = some p) : findPtr f (A ++ B) = some p := by
  induction A with
  | nil => cases h
  | cons pc rest ih =>
    rw [List.cons_append, findPtr_cons]
    rw [findPtr_cons] at h
    by_cases hf : f pc.2 = true
    · rw [if_pos hf] at h ⊢; exact h
    · rw [if_neg hf] at h ⊢; exact ih h

theorem tl_of_ne_nil (B : List (Nat × chunk)) (hB : B ≠ []) (p1 p2 : Ptr) : tl p1 B = tl p2 B := by
  cases B with
  | nil => exact absurd rfl hB
  | cons x rest => rfl

theorem tl_mem (B : List (Nat × chunk)) (hB : B ≠ []) (p1 : Ptr) :
    ∃ pc ∈ B, tl p1 B = some pc.1 := by
  induction B generalizing p1 with
  | nil => exact absurd rfl hB
  | cons x rest ih =>
    cases rest with
    | nil => exact ⟨x, List.mem_cons_self _ _, rfl⟩
    | cons y rest2 =>
      obtain ⟨pc, hpc, he⟩ := ih (by simp) (some x.1)
      exact ⟨pc, List.mem_cons_of_mem _ hpc, by rw [tl_cons]; exact he⟩

theorem frontHalf_start (index : Int) (c : chunk) : (frontHalf index c).start = c.start := by
  unfold frontHalf; cases c.edited <;> rfl

theorem frontHalf_end (index : Int) (c : chunk) : (frontHalf index c).end_ = index := by
  unfold frontHalf; cases c.edited <;> rfl

theorem backHalf_start (index : Int) (c : chunk) : (backHalf index c).start = index := by
  unfold backHalf; cases c.edited <;> rfl

theorem backHalf_end (index : Int) (c : chunk) : (backHalf index c).end_ = c.end_ := by
  unfold backHalf; cases c.edited <;> rfl

theorem frontHalf_prev (index : Int) (c : chunk) : (frontHalf index c).prev = c.prev := by
  unfold frontHalf; cases c.edited <;> rfl

/-- Splitting the chunk that contains `index` puts its two halves in its place. -/
theorem splitChunk_rep (s : Str) (ms : MagicString) (A B : List (Nat × chunk)) (q : Nat)
    (d : chunk) (lo hi : Int) (index : Int)
    (r : Rep ms (A ++ (q, d) :: B))
    (hc : Cover s lo hi ((A ++ (q, d) :: B).map Prod.snd)) (hlo : 0 ≤ lo)
    (hhi : hi ≤ (s.length : Int))
    (hcon : d.contains index = true) (hed : ¬ (d.edited = true ∧ 0 < d.content.length)) :
    ∃ ms2, ms.splitChunk q index = Except.ok (ms2, none) ∧
      Rep ms2 (A ++ (q, frontHalf index d) :: (ms.heap.length, backHalf index d) :: B) ∧
      ms2.intro = ms.intro ∧ ms2.outro = ms.outro ∧ ms2.original = ms.original := by
  have hl := r.lseg
  rw [LSeg_append, LSeg_cons] at hl
  obtain ⟨hlA, ⟨ch, hch, hbare, hprev, hnext⟩, hlB⟩ := hl
  dsimp only at hch hbare hprev hnext hlB
  subst hbare
  have hnd := r.nodup
  rw [List.map_append, List.map_cons, List.nodup_append] at hnd
  obtain ⟨hndA, hndB, hdisj⟩ := hnd
  rw [List.nodup_cons] at hndB
  obtain ⟨hqB, hndB⟩ := hndB
  dsimp only at hqB hdisj
  have hlt := LSeg_lt _ _ _ _ r.lseg
  have hqA : q ∉ A.map Prod.fst := fun hm => hdisj hm (List.mem_cons_self _ _)
  have hAB : ∀ x ∈ A.map Prod.fst, x ∉ B.map Prod.fst :=
    fun x hx hm => hdisj hx (List.mem_cons_of_mem _ hm)
  -- offsets
  have hc2 := hc
  rw [List.map_append, List.map_cons, Cover_append] at hc2
  obtain ⟨mid, hcA, hcB⟩ := hc2
  obtain ⟨hs1, hs2, hs3, hs4, hcB2⟩ := hcB
  dsimp only at hs1 hs2 hs3 hs4 hcB2
  rw [bare_start] at hs1
  rw [bare_end] at hs2 hs3 hcB2
  rw [bare_original] at hs3
  have hle1 := Cover_le s _ _ _ hcA
  have hle2 := Cover_le s _ _ _ hcB2
  simp only [chunk.contains, Bool.and_eq_true, decide_eq_true_eq] at hcon
  rw [bare_start, bare_end] at hcon
  have hlen : ch.original.length = (ch.end_ - mid).toNat := by
    rw [hs3]; exact slice_length s mid ch.end_ (by omega) (by omega) (by omega)
  have hn : ∀ r, ch.next = some r → r ≠ q ∧ r < ms.heap.length := by
    intro r hr
    rw [hnext] at hr
    cases B with
    | nil => cases hr
    | cons x rest =>
      rw [hd_cons] at hr
      cases hr
      refine ⟨fun e => hqB (by rw [← e]; simp), ?_⟩
      exact hlt x (by simp)
  obtain ⟨h2, hsplit, hq2, hp2, hr2, hframe⟩ :=
    chunk_split_spec ms.heap q index ch hch (by omega) (by omega) hn
  have hcond : ¬ (ch.edited = true ∧ 0 < ch.content.length) := hed
  refine ⟨{ ms with
      heap := h2
      byEnd := mapSet (mapSet ms.byEnd index (some q)) ch.end_ (some ms.heap.length)
      byStart := mapSet ms.byStart index (some ms.heap.length)
      lastChunk := if ms.lastChunk = some q then some ms.heap.length else ms.lastChunk
      lastSearchedChunk := some q }, ?_, ?_, rfl, rfl, rfl⟩
  · simp only [MagicString.splitChunk, deref, hch, hcond, if_false, hsplit, hp2, backHalf_end]
  -- frame facts
  have hfA : ∀ pc ∈ A, h2[pc.1]? = ms.heap[pc.1]? := by
    intro pc hpc
    have hm : pc.1 ∈ A.map Prod.fst := List.mem_map_of_mem _ hpc
    apply hframe
    · intro e; exact hqA (e ▸ hm)
    · have := hlt pc (List.mem_append_left _ hpc); omega
    · rw [hnext]
      cases B with
      | nil => simp [hd_nil]
      | cons x rest =>
        rw [hd_cons]
        intro e
        have e2 : x.1 = pc.1 := Option.some.inj e
        exact hAB _ hm (by rw [← e2]; simp)
  constructor
  · -- nodup
    rw [List.map_append, List.map_cons, List.map_cons, List.nodup_append]
    refine ⟨hndA, ?_, ?_⟩
    · rw [List.nodup_cons, List.nodup_cons]
      refine ⟨?_, ?_, hndB⟩
      · intro hm
        rcases List.mem_cons.1 hm with e | hm
        · have := hlt (q, ch.bare) (by simp)
          dsimp only at e this
          omega
        · exact hqB hm
      · intro hm
        obtain ⟨x, hx, he⟩ := List.mem_map.1 hm
        have := hlt x (List.mem_append_right _ (List.mem_cons_of_mem _ hx))
        dsimp only at he
        omega
    · intro x hx hx2
      rcases List.mem_cons.1 hx2 with e | hx2
      · dsimp only at e
        exact hqA (e ▸ hx)
      · rcases List.mem_cons.1 hx2 with e | hx2
        · obtain ⟨y, hy, he⟩ := List.mem_map.1 hx
          have := hlt y (List.mem_append_left _ hy)
          dsimp only at e
          omega
        · exact hAB x hx hx2
  · -- links
    rw [LSeg_append, LSeg_cons, LSeg_cons]
    refine ⟨?_, ?_, ?_, ?_⟩
    · exact LSeg_frame _ _ _ _ _ hfA hlA
    · refine ⟨_, hq2, ?_, ?_, ?_⟩
      · rw [← frontHalf_bare]; rfl
      · show (frontHalf index ch).prev = _
        rw [frontHalf_prev]; exact hprev
      · rfl
    · refine ⟨_, hp2, ?_, rfl, ?_⟩
      · rw [← backHalf_bare]; rfl
      · exact hnext
    · cases B with
      | nil => trivial
      | cons x rest =>
        rw [LSeg_cons] at hlB ⊢
        obtain ⟨⟨cx, hcx, hbx, hpx, hnx⟩, hlrest⟩ := hlB
        have hxq : x.1 ≠ q := fun e => hqB (by rw [← e]; simp)
        refine ⟨⟨_, hr2 x.1 cx (by rw [hnext, hd_cons]) hcx, hbx, rfl, hnx⟩, ?_⟩
        apply LSeg_frame _ _ _ _ _ _ hlrest
        intro pc hpc
        have hm : pc.1 ∈ rest.map Prod.fst := List.mem_map_of_mem _ hpc
        apply hframe
        · intro e; exact hqB (by rw [← e]; exact List.mem_cons_of_mem _ hm)
        · have := hlt pc (List.mem_append_right _ (List.mem_cons_of_mem _
            (List.mem_cons_of_mem _ hpc)))
          omega
        · rw [hnext, hd_cons]
          intro e
          have e2 : x.1 = pc.1 := Option.some.inj e
          rw [List.map_cons, List.nodup_cons] at hndB
          exact hndB.1 (by rw [e2]; exact hm)
  · -- first
    show ms.firstChunk = _
    rw [r.first, hd_append, hd_append, hd_cons, hd_cons]
  · -- last
    show (if ms.lastChunk = some q then some ms.heap.length else ms.lastChunk) = _
    rw [r.last, tl_append, tl_append, tl_cons, tl_cons, tl_cons]
    dsimp only
    cases B with
    | nil => simp [tl_nil]
    | cons x rest =>
      obtain ⟨pc, hpc, he⟩ := tl_mem (x :: rest) (by simp) (some q)
      rw [tl_of_ne_nil (x :: rest) (by simp) (some ms.heap.length) (some q), he]
      have : pc.1 ≠ q := fun e => hqB (by rw [← e]; exact List.mem_map_of_mem _ hpc)
      simp [this]
  · -- searched
    exact ⟨(q, frontHalf index ch.bare), by simp, rfl⟩
  · -- starts
    intro k
    show mapSet ms.byStart index (some ms.heap.length) k = _
    have hAk : ∀ pc ∈ A, pc.2.start < index ∧ pc.2.end_ < index := by
      intro pc hpc
      have := Cover_mem s _ lo mid hcA pc.2 (List.mem_map_of_mem _ hpc)
      omega
    unfold mapSet
    by_cases hk : k = index
    · subst hk
      rw [if_pos rfl, findPtr_append_of_none, findPtr_cons, findPtr_cons]
      · simp only [frontHalf_start, backHalf_start, bare_start, decide_True, if_true]
        have : ¬ ch.start = k := by omega
        simp [this]
      · intro pc hpc
        have := hAk pc hpc
        simp only [decide_eq_false_iff_not]
        omega
    · rw [if_neg hk, r.starts]
      cases hfA2 : findPtr (fun c => decide (c.start = k)) A with
      | some p => rw [findPtr_append_of_some _ _ _ _ hfA2, findPtr_append_of_some _ _ _ _ hfA2]
      | none =>
        rw [findPtr_append_of_none _ _ _ (findPtr_eq_none _ _ hfA2),
          findPtr_append_of_none _ _ _ (findPtr_eq_none _ _ hfA2), findPtr_cons, findPtr_cons,
          findPtr_cons]
        simp only [frontHalf_start, backHalf_start, bare_start]
        have : ¬ index = k := fun e => hk e.symm
        simp [this]
  · -- ends
    intro k
    show mapSet (mapSet ms.byEnd index (some q)) ch.end_ (some ms.heap.length) k = _
    have hAk : ∀ pc ∈ A, pc.2.end_ < index ∧ pc.2.end_ < ch.end_ := by
      intro pc hpc
      have := Cover_mem s _ lo mid hcA pc.2 (List.mem_map_of_mem _ hpc)
      omega
    unfold mapSet
    by_cases hk : k = ch.end_
    · subst hk
      rw [if_pos rfl, findPtr_append_of_none, findPtr_cons, findPtr_cons]
      · simp only [frontHalf_end, backHalf_end, bare_end, decide_True, if_true]
        have : ¬ index = ch.end_ := by omega
        simp [this]
      · intro pc hpc
        have := hAk pc hpc
        simp only [decide_eq_false_iff_not]
        omega
    · rw [if_neg hk]
      by_cases hk2 : k = index
      · subst hk2
        rw [if_pos rfl, findPtr_append_of_none, findPtr_cons]
        · simp only [frontHalf_end, decide_True, if_true]
        · intro pc hpc
          have := hAk pc hpc
          simp only [decide_eq_false_iff_not]
          omega
      · rw [if_neg hk2, r.ends]
        cases hfA2 : findPtr (fun c => decide (c.end_ = k)) A with
        | some p => rw [findPtr_append_of_some _ _ _ _ hfA2, findPtr_append_of_some _ _ _ _ hfA2]
        | none =>
          rw [findPtr_append_of_none _ _ _ (findPtr_eq_none _ _ hfA2),
            findPtr_append_of_none _ _ _ (findPtr_eq_none _ _ hfA2), findPtr_cons, findPtr_cons,
            findPtr_cons]
          simp only [frontHalf_end, backHalf_end, bare_end]
          have h1 : ¬ index = k := fun e => hk2 e.symm
          have h2 : ¬ ch.end_ = k := fun e => hk e.symm
          simp [h1, h2]

theorem splitSeg_of_not_contains (index : Int) (c : chunk) (h : c.contains index = false) :
    splitSeg index c = [c] := by
  unfold splitSeg
  simp [h]

theorem asplit_id (index : Int) (cs : List chunk) (h : ∀ c ∈ cs, c.contains index = false) :
    asplit index cs = cs := by
  induction cs with
  | nil => rfl
  | cons c rest ih =>
    unfold asplit at ih ⊢
    rw [List.flatMap_cons, splitSeg_of_not_contains index c (h c (List.mem_cons_self _ _)),
      ih (fun x hx => h x (List.mem_cons_of_mem _ hx))]
    rfl

theorem asplit_append (index : Int) (A B : List chunk) :
    asplit index (A ++ B) = asplit index A ++ asplit index B := by
  unfold asplit
  rw [List.flatMap_append]

theorem asplit_cons (index : Int) (c : chunk) (B : List chunk) :
    asplit index (c :: B) = splitSeg index c ++ asplit index B := by
  unfold asplit
  rw [List.flatMap_cons]

/-- A tiling away from `index` is left alone by `split`. -/
theorem asplit_outside (s : Str) (index lo hi : Int) (cs : List chunk) (hc : Cover s lo hi cs)
    (h : index ≤ lo ∨ hi ≤ index) : asplit index cs = cs := by
  apply asplit_id
  intro c hc2
  have := Cover_mem s cs lo hi hc c hc2
  simp only [chunk.contains, Bool.and_eq_false_iff, decide_eq_false_iff_not]
  omega

theorem Cover_asplit (s : Str) (index : Int) (cs : List chunk) (lo hi : Int) (hlo : 0 ≤ lo)
    (hc : Cover s lo hi cs) : Cover s lo hi (asplit index cs) := by
  induction cs generalizing lo with
  | nil => exact hc
  | cons c rest ih =>
    obtain ⟨h1, h2, h3, h4, h5⟩ := hc
    have ih2 := ih c.end_ (by omega) h5
    rw [asplit_cons]
    unfold splitSeg
    split
    · rename_i hcond
      obtain ⟨hcon, _⟩ := hcond
      simp only [chunk.contains, Bool.and_eq_true, decide_eq_true_eq] at hcon
      rw [List.cons_append, List.cons_append, List.nil_append, Cover_cons, Cover_cons]
      rw [frontHalf_start, frontHalf_end, backHalf_start, backHalf_end]
      refine ⟨h1, by omega, ?_, ?_, rfl, hcon.2, ?_, ?_, ih2⟩
      · unfold frontHalf
        have := slice_take s lo c.end_ index hlo (by omega) (by omega)
        rw [h1, h3]
        cases c.edited <;> exact this
      · unfold frontHalf
        cases he : c.edited
        · intro _; rfl
        · intro hf; cases hf
      · unfold backHalf
        have := slice_drop s lo c.end_ index hlo (by omega)
        rw [h1, h3]
        cases c.edited <;> exact this
      · unfold backHalf
        cases he : c.edited
        · intro _; rfl
        · intro hf; cases hf
    · exact ⟨h1, h2, h3, h4, ih2⟩

theorem Cover_others (s : Str) (A B : List chunk) (x : chunk) (lo hi : Int) (index : Int)
    (hc : Cover s lo hi (A ++ x :: B)) (cx : x.contains index = true) :
    (∀ a ∈ A, a.contains index = false) ∧ (∀ b ∈ B, b.contains index = false) := by
  obtain ⟨mid, hA, hB⟩ := Cover_sides s _ _ lo hi hc
  have hxm := hB x (List.mem_cons_self _ _)
  rw [← List.singleton_append, ← List.append_assoc] at hc
  obtain ⟨mid2, hA2, hB2⟩ := Cover_sides s _ _ lo hi hc
  have hxm2 := hA2 x (List.mem_append_right _ (List.mem_singleton_self _))
  simp only [chunk.contains, Bool.and_eq_true, decide_eq_true_eq] at cx
  constructor
  · intro a ha
    have := hA a ha
    simp only [chunk.contains, Bool.and_eq_false_iff, decide_eq_false_iff_not]
    omega
  · intro b hb
    have := hB2 b hb
    simp only [chunk.contains, Bool.and_eq_false_iff, decide_eq_false_iff_not]
    omega

/-- `split` on a tiling: the call returns, and the new state is the tiling
`asplit index cs`; the global intro and outro are untouched. -/
theorem split_good (s : Str) (ms : MagicString) (cs : List chunk) (index : Int)
    (g : Good s ms cs) :
    ∃ ms2, ms.split index = Except.ok ms2 ∧ Good s ms2 (asplit index cs) ∧
      ms2.intro = ms.intro ∧ ms2.outro = ms.outro := by
  obtain ⟨horig, hc, pcs, r, rfl⟩ := g
  rw [split_eq s ms pcs 0 s.length index r hc]
  cases hfind : pcs.find? (fun pc => pc.2.contains index) with
  | none =>
    rw [List.find?_eq_none] at hfind
    refine ⟨ms, rfl, ⟨horig, ?_, pcs, r, ?_⟩, rfl, rfl⟩
    · exact Cover_asplit s index _ 0 _ (le_refl _) hc
    · rw [asplit_id]
      intro c hc2
      obtain ⟨pc, hpc, rfl⟩ := List.mem_map.1 hc2
      simpa using hfind pc hpc
  | some x =>
    have hx := List.mem_of_find?_eq_some hfind
    have cx := List.find?_some hfind
    obtain ⟨A, B, rfl⟩ := List.append_of_mem hx
    have hc2 := hc
    rw [List.map_append, List.map_cons] at hc2
    obtain ⟨hoA, hoB⟩ := Cover_others s _ _ _ 0 _ index hc2 cx
    obtain ⟨q, d⟩ := x
    by_cases hed : d.edited = true ∧ 0 < d.content.length
    · obtain ⟨ch, hch, hbare⟩ := LSeg_get _ _ _ _ r.lseg (q, d) hx
      dsimp only at hch hbare cx
      refine ⟨ms, ?_, ⟨horig, ?_, _, r, ?_⟩, rfl, rfl⟩
      · have hed2 : ch.edited = true ∧ 0 < ch.content.length := by
          rw [← hbare] at hed; exact hed
        simp only [splitFound, MagicString.splitChunk, deref, hch, hed2, and_self, if_true]
      · exact Cover_asplit s index _ 0 _ (le_refl _) hc
      · rw [List.map_append, List.map_cons, asplit_append, asplit_cons, asplit_id _ _ hoA,
          asplit_id _ _ hoB]
        unfold splitSeg
        simp [hed]
    · obtain ⟨ms2, hsp, r2, hi, ho, horig2⟩ :=
        splitChunk_rep s ms A B q d 0 s.length index r hc (le_refl _) (le_refl _) cx hed
      refine ⟨ms2, ?_, ⟨horig2.trans horig, ?_, _, r2, ?_⟩, hi, ho⟩
      · simp only [splitFound, hsp]
      · exact Cover_asplit s index _ 0 _ (le_refl _) hc
      · rw [List.map_append, List.map_cons, List.map_cons, List.map_append, List.map_cons,
          asplit_append, asplit_cons, asplit_id _ _ hoA, asplit_id _ _ hoB]
        unfold splitSeg
        dsimp only at cx
        simp [hed, cx]

theorem New_good (s : Str) (hs : 0 < s.length) :
    Good s (New s) [newChunk 0 (s.length : Int) s] := by
  refine ⟨rfl, ?_, [(0, newChunk 0 (s.length : Int) s)], ?_, rfl⟩
  · refine ⟨rfl, by show (0 : Int) < (s.length : Int); omega, ?_, fun _ => rfl, rfl⟩
    show s = slice s 0 s.length
    rw [slice_all]
  · refine ⟨by simp, ?_, rfl, rfl, ⟨_, List.mem_singleton_self _, rfl⟩, ?_, ?_⟩
    · exact ⟨⟨_, rfl, rfl, rfl, rfl⟩, trivial⟩
    · intro k
      show mapSet (fun _ => none) 0 (some 0) k = _
      rw [findPtr_cons, findPtr_nil]
      unfold mapSet
      by_cases hk : k = 0
      · subst hk; rfl
      · have : ¬ (0 : Int) = k := fun e => hk e.symm
        simp [hk, newChunk, this]
    · intro k
      show mapSet (fun _ => none) (s.length : Int) (some 0) k = _
      rw [findPtr_cons, findPtr_nil]
      unfold mapSet
      by_cases hk : k = (s.length : Int)
      · subst hk; simp [newChunk]
      · have : ¬ (s.length : Int) = k := fun e => hk e.symm
        simp [hk, newChunk, this]

theorem hd_map (g : Nat → chunk → chunk) (pcs : List (Nat × chunk)) (nxt : Ptr) :
    hd (pcs.map (fun pc => (pc.1, g pc.1 pc.2))) nxt = hd pcs nxt := by
  cases pcs <;> rfl

theorem tl_map (g : Nat → chunk → chunk) (pcs : List (Nat × chunk)) (prv : Ptr) :
    tl prv (pcs.map (fun pc => (pc.1, g pc.1 pc.2))) = tl prv pcs := by
  induction pcs generalizing prv with
  | nil => rfl
  | cons pc rest ih => rw [List.map_cons, tl_cons, tl_cons]; exact ih _

theorem findPtr_map (f : chunk → Bool) (g : Nat → chunk → chunk) (pcs : List (Nat × chunk))
    (h : ∀ pc ∈ pcs, f (g pc.1 pc.2) = f pc.2) :
    findPtr f (pcs.map (fun pc => (pc.1, g pc.1 pc.2))) = findPtr f pcs := by
  induction pcs with
  | nil => rfl
  | cons pc rest ih =>
    rw [List.map_cons, findPtr_cons, findPtr_cons, h pc (List.mem_cons_self _ _),
      ih (fun x hx => h x (List.mem_cons_of_mem _ hx))]

theorem LSeg_map (h h2 : List chunk) (g : Nat → chunk → chunk) (hg : ∀ p, DataOnly (g p))
    (pcs : List (Nat × chunk)) (prv nxt : Ptr)
    (hh : ∀ pc ∈ pcs, h2[pc.1]? = (h[pc.1]?).map (g pc.1)) (hl : LSeg h prv pcs nxt) :
    LSeg h2 prv (pcs.map (fun pc => (pc.1, g pc.1 pc.2))) nxt := by
  induction pcs generalizing prv with
  | nil => trivial
  | cons pc rest ih =>
    rw [List.map_cons, LSeg_cons]
    rw [LSeg_cons] at hl
    obtain ⟨⟨ch, hch, hbare, hprev, hnext⟩, hrest⟩ := hl
    refine ⟨⟨g pc.1 ch, ?_, ?_, ?_, ?_⟩, ih _ (fun x hx => hh x (List.mem_cons_of_mem _ hx)) hrest⟩
    · rw [hh pc (List.mem_cons_self _ _), hch]; rfl
    · dsimp only; rw [(hg pc.1 ch).1, hbare]
    · rw [(hg pc.1 ch).2.2.2.1]; exact hprev
    · rw [(hg pc.1 ch).2.2.2.2, hd_map]; exact hnext

/-- A change of the data of the chunks carries over to the list of chunks. -/
theorem Rep_map (ms : MagicString) (pcs : List (Nat × chunk)) (r : Rep ms pcs)
    (g : Nat → chunk → chunk) (hg : ∀ p, DataOnly (g p)) (h2 : List chunk)
    (hh : ∀ pc ∈ pcs, h2[pc.1]? = (ms.heap[pc.1]?).map (g pc.1)) :
    Rep { ms with heap := h2 } (pcs.map (fun pc => (pc.1, g pc.1 pc.2))) := by
  refine ⟨?_, ?_, ?_, ?_, ?_, ?_, ?_⟩
  · rw [List.map_map]
    exact r.nodup
  · exact LSeg_map _ _ g hg pcs none none hh r.lseg
  · rw [hd_map]; exact r.first
  · rw [tl_map]; exact r.last
  · obtain ⟨pc, hpc, he⟩ := r.searched
    exact ⟨(pc.1, g pc.1 pc.2), List.mem_map.2 ⟨pc, hpc, rfl⟩, he⟩
  · intro k
    rw [findPtr_map _ g pcs (fun pc _ => by rw [(hg pc.1 pc.2).2.1])]
    exact r.starts k
  · intro k
    rw [findPtr_map _ g pcs (fun pc _ => by rw [(hg pc.1 pc.2).2.2.1])]
    exact r.ends k

theorem Cover_map (s : Str) (g : chunk → chunk) (cs : List chunk) (lo hi : Int)
    (hg : ∀ c ∈ cs, (g c).start = c.start ∧ (g c).end_ = c.end_ ∧ (g c).original = c.original ∧
      ((g c).edited = false → c.edited = false ∧ (g c).content = c.content))
    (hc : Cover s lo hi cs) : Cover s lo hi (cs.map g) := by
  induction cs generalizing lo with
  | nil => exact hc
  | cons c rest ih =>
    obtain ⟨h1, h2, h3, h4, h5⟩ := hc
    obtain ⟨g1, g2, g3, g4⟩ := hg c (List.mem_cons_self _ _)
    rw [List.map_cons, Cover_cons, g1, g2, g3]
    refine ⟨h1, h2, h3, ?_, ih _ (fun x hx => hg x (List.mem_cons_of_mem _ hx)) h5⟩
    intro he
    obtain ⟨e1, e2⟩ := g4 he
    rw [e2]
    exact h4 e1

theorem Rep_intro (ms : MagicString) (pcs : List (Nat × chunk)) (r : Rep ms pcs) (x : Str) :
    Rep { ms with intro := x } pcs :=
  ⟨r.nodup, r.lseg, r.first, r.last, r.searched, r.starts, r.ends⟩

theorem Rep_outro (ms : MagicString) (pcs : List (Nat × chunk)) (r : Rep ms pcs) (x : Str) :
    Rep { ms with outro := x } pcs :=
  ⟨r.nodup, r.lseg, r.first, r.last, r.searched, r.starts, r.ends⟩

/-- Two chunks of a tiling with the same end are one chunk. -/
theorem Cover_unique_end (s : Str) (pcs : List (Nat × chunk)) (lo hi : Int)
    (hc : Cover s lo hi (pcs.map Prod.snd)) (x y : Nat × chunk) (hx : x ∈ pcs) (hy : y ∈ pcs)
    (he : y.2.end_ = x.2.end_) : y = x := by
  obtain ⟨A, B, rfl⟩ := List.append_of_mem hx
  rw [List.map_append, List.map_cons] at hc
  obtain ⟨mid, hA, hB⟩ := Cover_sides s _ _ lo hi hc
  have hxm := hB x.2 (List.mem_cons_self _ _)
  rw [← List.singleton_append, ← List.append_assoc] at hc
  obtain ⟨mid2, hA2, hB2⟩ := Cover_sides s _ _ lo hi hc
  have hxm2 := hA2 x.2 (List.mem_append_right _ (List.mem_singleton_self _))
  rcases List.mem_append.1 hy with h | h
  · have := hA y.2 (List.mem_map_of_mem _ h)
    omega
  · rcases List.mem_cons.1 h with h | h
    · exact h
    · have := hB2 y.2 (List.mem_map_of_mem _ h)
      omega

/-- Two chunks of a tiling with the same start are one chunk. -/
theorem Cover_unique_start (s : Str) (pcs : List (Nat × chunk)) (lo hi : Int)
    (hc : Cover s lo hi (pcs.map Prod.snd)) (x y : Nat × chunk) (hx : x ∈ pcs) (hy : y ∈ pcs)
    (he : y.2.start = x.2.start) : y = x := by
  obtain ⟨A, B, rfl⟩ := List.append_of_mem hx
  rw [List.map_append, List.map_cons] at hc
  obtain ⟨mid, hA, hB⟩ := Cover_sides s _ _ lo hi hc
  have hxm := hB x.2 (List.mem_cons_self _ _)
  rw [← List.singleton_append, ← List.append_assoc] at hc
  obtain ⟨mid2, hA2, hB2⟩ := Cover_sides s _ _ lo hi hc
  have hxm2 := hA2 x.2 (List.mem_append_right _ (List.mem_singleton_self _))
  rcases List.mem_append.1 hy with h | h
  · have := hA y.2 (List.mem_map_of_mem _ h)
    omega
  · rcases List.mem_cons.1 h with h | h
    · exact h
    · have := hB2 y.2 (List.mem_map_of_mem _ h)
      omega

theorem findPtr_some (f : chunk → Bool) (pcs : List (Nat × chunk)) (p : Nat)
    (h : findPtr f pcs = some p) : ∃ x ∈ pcs, x.1 = p ∧ f x.2 = true := by
  unfold findPtr at h
  cases hf : pcs.find? (fun pc => f pc.2) with
  | none => rw [hf] at h; cases h
  | some x =>
    rw [hf] at h
    have h3 := List.find?_some hf
    exact ⟨x, List.mem_of_find?_eq_some hf, Option.some.inj h, h3⟩

theorem findPtr_iff (f : chunk → Bool) (pcs : List (Nat × chunk)) (p : Nat)
    (hnd : (pcs.map Prod.fst).Nodup)
    (huniq : ∀ x ∈ pcs, ∀ y ∈ pcs, f x.2 = true → f y.2 = true → y = x)
    (h : findPtr f pcs = some p) : ∀ pc ∈ pcs, (pc.1 = p ↔ f pc.2 = true) := by
  obtain ⟨x, hx, hx1, hx2⟩ := findPtr_some f pcs p h
  intro pc hpc
  constructor
  · intro e
    have := List.inj_on_of_nodup_map hnd hpc hx (e.trans hx1.symm)
    rw [this]; exact hx2
  · intro hf
    rw [huniq x hx pc hpc hx2 hf]; exact hx1

theorem hasEnd_eq_false (index : Int) (cs : List chunk) (h : ∀ c ∈ cs, c.end_ ≠ index) :
    hasEnd index cs = false := by
  unfold hasEnd
  rw [List.any_eq_false]
  intro c hc
  simpa using h c hc

theorem hasEnd_eq_true (index : Int) (cs : List chunk) (c : chunk) (hc : c ∈ cs)
    (h : c.end_ = index) : hasEnd index cs = true := by
  unfold hasEnd
  rw [List.any_eq_true]
  exact ⟨c, hc, by simpa using h⟩

theorem hasStart_eq_false (index : Int) (cs : List chunk) (h : ∀ c ∈ cs, c.start ≠ index) :
    hasStart index cs = false := by
  unfold hasStart
  rw [List.any_eq_false]
  intro c hc
  simpa using h c hc

theorem hasStart_eq_true (index : Int) (cs : List chunk) (c : chunk) (hc : c ∈ cs)
    (h : c.start = index) : hasStart index cs = true := by
  unfold hasStart
  rw [List.any_eq_true]
  exact ⟨c, hc, by simpa using h⟩

theorem Cover_aappendLeft (s : Str) (index : Int) (x : Str) (cs : List chunk) (lo hi : Int)
    (hc : Cover s lo hi cs) : Cover s lo hi (aappendLeft index x cs) := by
  apply Cover_map s _ cs lo hi _ hc
  intro c _
  dsimp only
  by_cases h : c.end_ = index
  · rw [if_pos h]; exact ⟨rfl, rfl, rfl, fun e => ⟨e, rfl⟩⟩
  · rw [if_neg h]; exact ⟨rfl, rfl, rfl, fun e => ⟨e, rfl⟩⟩

theorem Cover_aappendRight (s : Str) (index : Int) (x : Str) (cs : List chunk) (lo hi : Int)
    (hc : Cover s lo hi cs) : Cover s lo hi (aappendRight index x cs) := by
  apply Cover_map s _ cs lo hi _ hc
  intro c _
  dsimp only
  by_cases h : c.start = index
  · rw [if_pos h]; exact ⟨rfl, rfl, rfl, fun e => ⟨e, rfl⟩⟩
  · rw [if_neg h]; exact ⟨rfl, rfl, rfl, fun e => ⟨e, rfl⟩⟩

theorem set_pointwise (h : List chunk) (p : Nat) (ch : chunk) (g : chunk → chunk)
    (hp : h[p]? = some ch) (q : Nat) :
    (h.set p (g ch))[q]? = (h[q]?).map (fun c => if q = p then g c else c) := by
  have hpl : p < h.length := by
    by_contra hge
    rw [List.getElem?_eq_none (by omega)] at hp
    cases hp
  rw [List.getElem?_set]
  by_cases e : p = q
  · subst e
    simp [hpl, hp]
  · have e2 : ¬ q = p := fun e3 => e e3.symm
    simp [e, e2]

/-- `AppendLeft` on a tiling. -/
theorem appendLeft_good (s : Str) (ms : MagicString) (cs : List chunk) (index : Int) (x : Str)
    (g : Good s ms cs) :
    ∃ ms2, ms.AppendLeft index x = Except.ok ms2 ∧
      Good s ms2 (aappendLeft index x (asplit index cs)) ∧
      ms2.intro = (if hasEnd index (asplit index cs) = true then ms.intro else ms.intro ++ x) ∧
      ms2.outro = ms.outro := by
  obtain ⟨ms1, hsp, g1, hi1, ho1⟩ := split_good s ms cs index g
  obtain ⟨horig, hc, pcs, r, hpcs⟩ := g1
  have hc1 : Cover s 0 (s.length : Int) (pcs.map Prod.snd) := by rw [hpcs]; exact hc
  unfold MagicString.AppendLeft
  rw [hsp]
  dsimp only
  rw [r.ends]
  cases hf : findPtr (fun c => decide (c.end_ = index)) pcs with
  | none =>
    have hne := findPtr_eq_none _ _ hf
    have hne2 : ∀ c ∈ asplit index cs, c.end_ ≠ index := by
      intro c hcm
      rw [← hpcs] at hcm
      obtain ⟨pc, hpc, rfl⟩ := List.mem_map.1 hcm
      simpa using hne pc hpc
    refine ⟨_, rfl, ⟨horig, ?_, pcs, Rep_intro ms1 pcs r _, ?_⟩, ?_, ho1⟩
    · exact Cover_aappendLeft s index x _ _ _ hc
    · rw [hpcs]
      unfold aappendLeft
      symm
      conv_rhs => rw [← List.map_id (asplit index cs)]
      apply List.map_congr_left
      intro c hcm
      simp [hne2 c hcm]
    · rw [hasEnd_eq_false index _ hne2]
      simp [hi1]
  | some p =>
    obtain ⟨pc, hpc, hp1, hp2⟩ := findPtr_some _ _ _ hf
    obtain ⟨ch, hch, hbare⟩ := LSeg_get _ _ _ _ r.lseg pc hpc
    rw [hp1] at hch
    simp only [hch]
    have hiff := findPtr_iff _ pcs p r.nodup (by
      intro a ha b hb h1 h2
      apply Cover_unique_end s pcs 0 _ hc1 a b ha hb
      simp only [decide_eq_true_eq] at h1 h2
      rw [h1, h2]) hf
    have hrep := Rep_map ms1 pcs r (fun q c => if q = p then c.appendLeft x else c)
      (by
        intro q c
        dsimp only
        by_cases e : q = p
        · rw [if_pos e, if_pos e]; exact ⟨rfl, rfl, rfl, rfl, rfl⟩
        · rw [if_neg e, if_neg e]; exact ⟨rfl, rfl, rfl, rfl, rfl⟩)
      (ms1.heap.set p (ch.appendLeft x))
      (fun pc _ => set_pointwise ms1.heap p ch (fun c => c.appendLeft x) hch pc.1)
    refine ⟨_, rfl, ⟨horig, ?_, _, hrep, ?_⟩, ?_, ho1⟩
    · exact Cover_aappendLeft s index x _ _ _ hc
    · rw [← hpcs]
      unfold aappendLeft
      rw [List.map_map, List.map_map]
      apply List.map_congr_left
      intro a ha
      have := hiff a ha
      simp only [decide_eq_true_eq] at this
      simp only [Function.comp]
      by_cases e : a.1 = p
      · simp [e, this.1 e]
      · have e2 : ¬ a.2.end_ = index := fun e3 => e (this.2 e3)
        simp [e, e2]
    · rw [hasEnd_eq_true index _ pc.2 (hpcs ▸ List.mem_map_of_mem _ hpc) (by simpa using hp2)]
      simp [hi1]

/-- `AppendRight` on a tiling. -/
theorem appendRight_good (s : Str) (ms : MagicString) (cs : List chunk) (index : Int) (x : Str)
    (g : Good s ms cs) :
    ∃ ms2, ms.AppendRight index x = Except.ok ms2 ∧
      Good s ms2 (aappendRight index x (asplit index cs)) ∧
      ms2.intro = ms.intro ∧
      ms2.outro = (if hasStart index (asplit index cs) = true then ms.outro else ms.outro ++ x) := by
  obtain ⟨ms1, hsp, g1, hi1, ho1⟩ := split_good s ms cs index g
  obtain ⟨horig, hc, pcs, r, hpcs⟩ := g1
  have hc1 : Cover s 0 (s.length : Int) (pcs.map Prod.snd) := by rw [hpcs]; exact hc
  unfold MagicString.AppendRight
  rw [hsp]
  dsimp only
  rw [r.starts]
  cases hf : findPtr (fun c => decide (c.start = index)) pcs with
  | none =>
    have hne := findPtr_eq_none _ _ hf
    have hne2 : ∀ c ∈ asplit index cs, c.start ≠ index := by
      intro c hcm
      rw [← hpcs] at hcm
      obtain ⟨pc, hpc, rfl⟩ := List.mem_map.1 hcm
      simpa using hne pc hpc
    refine ⟨_, rfl, ⟨horig, ?_, pcs, Rep_outro ms1 pcs r _, ?_⟩, hi1, ?_⟩
    · exact Cover_aappendRight s index x _ _ _ hc
    · rw [hpcs]
      unfold aappendRight
      symm
      conv_rhs => rw [← List.map_id (asplit index cs)]
      apply List.map_congr_left
      intro c hcm
      simp [hne2 c hcm]
    · rw [hasStart_eq_false index _ hne2]
      simp [ho1]
  | some p =>
    obtain ⟨pc, hpc, hp1, hp2⟩ := findPtr_some _ _ _ hf
    obtain ⟨ch, hch, hbare⟩ := LSeg_get _ _ _ _ r.lseg pc hpc
    rw [hp1] at hch
    simp only [hch]
    have hiff := findPtr_iff _ pcs p r.nodup (by
      intro a ha b hb h1 h2
      apply Cover_unique_start s pcs 0 _ hc1 a b ha hb
      simp only [decide_eq_true_eq] at h1 h2
      rw [h1, h2]) hf
    have hrep := Rep_map ms1 pcs r (fun q c => if q = p then c.appendRight x else c)
      (by
        intro q c
        dsimp only
        by_cases e : q = p
        · rw [if_pos e, if_pos e]; exact ⟨rfl, rfl, rfl, rfl, rfl⟩
        · rw [if_neg e, if_neg e]; exact ⟨rfl, rfl, rfl, rfl, rfl⟩)
      (ms1.heap.set p (ch.appendRight x))
      (fun pc _ => set_pointwise ms1.heap p ch (fun c => c.appendRight x) hch pc.1)
    refine ⟨_, rfl, ⟨horig, ?_, _, hrep, ?_⟩, hi1, ?_⟩
    · exact Cover_aappendRight s index x _ _ _ hc
    · rw [← hpcs]
      unfold aappendRight
      rw [List.map_map, List.map_map]
      apply List.map_congr_left
      intro a ha
      have := hiff a ha
      simp only [decide_eq_true_eq] at this
      simp only [Function.comp]
      by_cases e : a.1 = p
      · simp [e, this.1 e]
      · have e2 : ¬ a.2.start = index := fun e3 => e (this.2 e3)
        simp [e, e2]
    · rw [hasStart_eq_true index _ pc.2 (hpcs ▸ List.mem_map_of_mem _ hpc) (by simpa using hp2)]
      simp [ho1]

theorem addLen_nonneg (n : Int) (fuel : Nat) (v : Int) (hv : 0 ≤ v) :
    addLen n fuel v = Except.ok v := by
  have : ¬ v < 0 := by omega
  cases fuel <;> simp [addLen, this]

theorem resolve_nonneg (ms : MagicString) (v : Int) (hv : 0 ≤ v) :
    resolve ms v = Except.ok v := addLen_nonneg _ _ v hv

theorem editRun_spec (lastC : Nat) :
    ∀ (M : List (Nat × chunk)) (h : List chunk) (prv : Ptr) (f : Nat),
      LSeg h prv M (some lastC) → lastC ∉ M.map Prod.fst → (M.map Prod.fst).Nodup →
      ∃ h2, editRun (some lastC) (M.length + f) h (hd M (some lastC)) = Except.ok h2 ∧
        ∀ x, h2[x]? = (h[x]?).map (fun c => if x ∈ M.map Prod.fst then c.edit [] else c) := by
  intro M
  induction M with
  | nil =>
    intro h prv f _ _ _
    refine ⟨h, ?_, ?_⟩
    · rw [hd_nil]
      simp only [List.length_nil, Nat.zero_add]
      cases f <;> simp [editRun]
    · intro x
      simp
  | cons pc M ih =>
    intro h prv f hl hlast hnd
    rw [LSeg_cons] at hl
    obtain ⟨⟨ch, hch, hbare, hprev, hnext⟩, hrest⟩ := hl
    rw [List.map_cons, List.nodup_cons] at hnd
    rw [List.map_cons, List.mem_cons, not_or] at hlast
    have hrest2 : LSeg (h.set pc.1 (ch.edit [])) (some pc.1) M (some lastC) := by
      apply LSeg_frame _ _ _ _ _ _ hrest
      intro x hx
      rw [List.getElem?_set_ne]
      intro e
      exact hnd.1 (by rw [e]; exact List.mem_map_of_mem _ hx)
    obtain ⟨h2, hrun, hpt⟩ := ih (h.set pc.1 (ch.edit [])) (some pc.1) f hrest2 hlast.2 hnd.2
    refine ⟨h2, ?_, ?_⟩
    · have e1 : (pc :: M).length + f = (M.length + f) + 1 := by
        simp only [List.length_cons]; omega
      have hne : ¬ (some pc.1 = some lastC) := fun e => hlast.1 (Option.some.inj e).symm
      rw [e1, hd_cons]
      simp only [editRun, hne, if_false, hch, hnext]
      exact hrun
    · intro x
      rw [hpt x, set_pointwise h pc.1 ch (fun c => c.edit []) hch x, Option.map_map]
      congr 1
      funext c
      simp only [Function.comp, List.map_cons, List.mem_cons]
      by_cases e : x = pc.1
      · subst e
        simp only [hnd.1, if_false, if_true, true_or]
      · simp only [e, if_false, false_or]

theorem edit_clear (c : chunk) :
    ({ c with intro := [], outro := [] } : chunk).edit [] = c.edit [] := rfl

theorem edit_end (c : chunk) (x : Str) : (c.edit x).end_ = c.end_ := rfl

theorem edit_next (c : chunk) (x : Str) : (c.edit x).next = c.next := rfl

theorem removeRun_step (b : Int) (fuel : Nat) (h : List chunk) (p : Nat) (ch : chunk)
    (hch : h[p]? = some ch) :
    removeRun b (fuel + 1) h (some p) =
      removeRun b fuel (h.set p (ch.edit [])) (if b > ch.end_ then ch.next else none) := by
  simp only [removeRun, hch]
  rfl

theorem removeRun_none (b : Int) (fuel : Nat) (h : List chunk) :
    removeRun b fuel h none = Except.ok h := by
  cases fuel <;> rfl

theorem removeRun_spec (s : Str) (b : Int) :
    ∀ (R : List (Nat × chunk)) (pc : Nat × chunk) (h : List chunk) (prv nxt : Ptr) (f : Nat)
      (lo : Int),
      LSeg h prv (pc :: R) nxt → Cover s lo b ((pc :: R).map Prod.snd) →
      ((pc :: R).map Prod.fst).Nodup →
      ∃ h2, removeRun b ((pc :: R).length + f) h (some pc.1) = Except.ok h2 ∧
        ∀ x, h2[x]? =
          (h[x]?).map (fun c => if x ∈ (pc :: R).map Prod.fst then c.edit [] else c) := by
  intro R
  induction R with
  | nil =>
    intro pc h prv nxt f lo hl hc _
    rw [LSeg_cons] at hl
    obtain ⟨⟨ch, hch, hbare, hprev, hnext⟩, _⟩ := hl
    rw [List.map_cons, List.map_nil, Cover_cons, Cover_nil] at hc
    obtain ⟨_, _, _, _, hend⟩ := hc
    rw [← hbare, bare_end] at hend
    refine ⟨h.set pc.1 (ch.edit []), ?_, ?_⟩
    · have e1 : [pc].length + f = (0 + f) + 1 := by simp; omega
      rw [e1, removeRun_step b _ h pc.1 ch hch, hend, if_neg (lt_irrefl _), removeRun_none]
    · intro x
      rw [set_pointwise h pc.1 ch (fun c => c.edit []) hch x]
      simp
  | cons pc2 R ih =>
    intro pc h prv nxt f lo hl hc hnd
    rw [LSeg_cons] at hl
    obtain ⟨⟨ch, hch, hbare, hprev, hnext⟩, hrest⟩ := hl
    rw [List.map_cons, Cover_cons] at hc
    obtain ⟨_, _, _, _, hc2⟩ := hc
    have hlt : pc.2.end_ < b := by
      rw [List.map_cons, Cover_cons] at hc2
      have := Cover_le s _ _ _ hc2.2.2.2.2
      omega
    rw [← hbare, bare_end] at hlt
    rw [List.map_cons, List.nodup_cons] at hnd
    have hrest2 : LSeg (h.set pc.1 (ch.edit [])) (some pc.1) (pc2 :: R) nxt := by
      apply LSeg_frame _ _ _ _ _ _ hrest
      intro x hx
      rw [List.getElem?_set_ne]
      intro e
      exact hnd.1 (by rw [e]; exact List.mem_map_of_mem _ hx)
    obtain ⟨h2, hrun, hpt⟩ := ih pc2 (h.set pc.1 (ch.edit [])) (some pc.1) nxt f pc.2.end_
      hrest2 hc2 hnd.2
    refine ⟨h2, ?_, ?_⟩
    · have e1 : (pc :: pc2 :: R).length + f = ((pc2 :: R).length + f) + 1 := by
        simp only [List.length_cons]; omega
      rw [e1, removeRun_step b _ h pc.1 ch hch, if_pos hlt, hnext, hd_cons]
      exact hrun
    · intro x
      rw [hpt x, set_pointwise h pc.1 ch (fun c => c.edit []) hch x, Option.map_map]
      congr 1
      funext c
      simp only [Function.comp]
      by_cases e : x = pc.1
      · subst e
        rw [if_neg hnd.1]
        simp only [if_true, List.map_cons, List.mem_cons, true_or]
      · have : (x ∈ (pc :: pc2 :: R).map Prod.fst) ↔ (x ∈ (pc2 :: R).map Prod.fst) := by
          simp only [List.map_cons, List.mem_cons]
          constructor
          · rintro (h1 | h1)
            · exact absurd h1 e
            · exact h1
          · intro h1; exact Or.inr h1
        simp only [e, if_false, this]

theorem Cover_aedit (s : Str) (a b : Int) (content : Str) (cs : List chunk) (lo hi : Int)
    (hc : Cover s lo hi cs) : Cover s lo hi (aedit a b content cs) := by
  apply Cover_map s _ cs lo hi _ hc
  intro c _
  dsimp only
  by_cases h : a ≤ c.start ∧ c.end_ ≤ b
  · rw [if_pos h]; exact ⟨rfl, rfl, rfl, fun e => by cases e⟩
  · rw [if_neg h]; exact ⟨rfl, rfl, rfl, fun e => ⟨e, rfl⟩⟩

/-- The run of chunks between `a` and `b` is edited in place: the state stays
a tiling, with the list `aedit a b content`. -/
theorem run_edit_good (s : Str) (ms : MagicString) (X T Y : List (Nat × chunk))
    (pc0 : Nat × chunk) (a b : Int) (content : Str)
    (r : Rep ms (X ++ pc0 :: T ++ Y)) (horig : ms.original = s)
    (hcX : Cover s 0 a (X.map Prod.snd)) (hcR : Cover s a b ((pc0 :: T).map Prod.snd))
    (hcY : Cover s b (s.length : Int) (Y.map Prod.snd)) (h3 : List chunk)
    (hpt : ∀ x, h3[x]? = (ms.heap[x]?).map (fun c =>
      if x = pc0.1 then c.edit content else if x ∈ T.map Prod.fst then c.edit [] else c)) :
    Good s { ms with heap := h3 } (aedit a b content ((X ++ pc0 :: T ++ Y).map Prod.snd)) := by
  have hc : Cover s 0 (s.length : Int) ((X ++ pc0 :: T ++ Y).map Prod.snd) := by
    rw [List.map_append, Cover_append]
    refine ⟨b, ?_, hcY⟩
    rw [List.map_append, Cover_append]
    exact ⟨a, hcX, hcR⟩
  have hrep := Rep_map ms _ r
    (fun x c => if x = pc0.1 then c.edit content else if x ∈ T.map Prod.fst then c.edit [] else c)
    (by
      intro q c
      dsimp only
      by_cases e : q = pc0.1
      · rw [if_pos e, if_pos e]; exact ⟨rfl, rfl, rfl, rfl, rfl⟩
      · rw [if_neg e, if_neg e]
        by_cases e2 : q ∈ T.map Prod.fst
        · rw [if_pos e2, if_pos e2]; exact ⟨rfl, rfl, rfl, rfl, rfl⟩
        · rw [if_neg e2, if_neg e2]; exact ⟨rfl, rfl, rfl, rfl, rfl⟩)
    h3 (fun pc _ => hpt pc.1)
  refine ⟨horig, Cover_aedit s a b content _ _ _ hc, _, hrep, ?_⟩
  have hnd := r.nodup
  rw [List.map_append, List.nodup_append] at hnd
  obtain ⟨hnd1, _, hdisjY⟩ := hnd
  rw [List.map_append, List.nodup_append] at hnd1
  obtain ⟨_, hnd2, hdisjX⟩ := hnd1
  rw [List.map_cons, List.nodup_cons] at hnd2
  obtain ⟨hp0, _⟩ := hnd2
  have hmX := Cover_mem s _ _ _ hcX
  have hmR := Cover_mem s _ _ _ hcR
  have hmY := Cover_mem s _ _ _ hcY
  obtain ⟨hR1, hR2, _, _, hcT⟩ := hcR
  have hmT := Cover_mem s _ _ _ hcT
  unfold aedit
  rw [List.map_map, List.map_map]
  apply List.map_congr_left
  intro pc hpc
  simp only [Function.comp]
  rcases List.mem_append.1 hpc with hx | hx
  · rcases List.mem_append.1 hx with hx | hx
    · have h1 : pc.1 ≠ pc0.1 := fun e =>
        hdisjX (List.mem_map_of_mem _ hx) (by rw [e]; exact List.mem_cons_self _ _)
      have h2 : pc.1 ∉ T.map Prod.fst := fun e =>
        hdisjX (List.mem_map_of_mem _ hx) (List.mem_cons_of_mem _ e)
      have h3 := hmX pc.2 (List.mem_map_of_mem _ hx)
      have h4 : ¬ (a ≤ pc.2.start ∧ pc.2.end_ ≤ b) := by omega
      rw [if_neg h1, if_neg h2, if_neg h4]
    · rcases List.mem_cons.1 hx with hx | hx
      · subst hx
        have h3 := hmR pc.2 (List.mem_cons_self _ _)
        have h4 : a ≤ pc.2.start ∧ pc.2.end_ ≤ b := by omega
        rw [if_pos rfl, if_pos h4, if_pos hR1]
      · have h1 : pc.1 ≠ pc0.1 := fun e => hp0 (by rw [← e]; exact List.mem_map_of_mem _ hx)
        have h2 : pc.1 ∈ T.map Prod.fst := List.mem_map_of_mem _ hx
        have h3 := hmT pc.2 (List.mem_map_of_mem _ hx)
        have h4 : a ≤ pc.2.start ∧ pc.2.end_ ≤ b := by omega
        have h5 : ¬ pc.2.start = a := by omega
        rw [if_neg h1, if_pos h2, if_pos h4, if_neg h5]
  · have h1 : pc.1 ≠ pc0.1 := fun e =>
      hdisjY (by rw [e]; exact List.mem_map_of_mem _ (by simp))
        (List.mem_map_of_mem _ hx)
    have h2 : pc.1 ∉ T.map Prod.fst := fun e =>
      hdisjY (by rw [List.map_append, List.map_cons]
                 exact List.mem_append_right _ (List.mem_cons_of_mem _ e))
        (List.mem_map_of_mem _ hx)
    have h3 := hmY pc.2 (List.mem_map_of_mem _ hx)
    have h4 : ¬ (a ≤ pc.2.start ∧ pc.2.end_ ≤ b) := by omega
    rw [if_neg h1, if_neg h2, if_neg h4]

/-- A tiling with a chunk starting at `a` and a chunk ending at `b` splits into
the chunks before `a`, the run from `a` to `b`, and the chunks from `b` on. -/
theorem run_decomp (s : Str) (pcs : List (Nat × chunk)) (lo hi a b : Int) (hab : a < b)
    (hc : Cover s lo hi (pcs.map Prod.snd))
    (hs : hasStart a (pcs.map Prod.snd) = true) (he : hasEnd b (pcs.map Prod.snd) = true) :
    ∃ X pc0 T Y, pcs = X ++ pc0 :: T ++ Y ∧ Cover s lo a (X.map Prod.snd) ∧
      Cover s a b ((pc0 :: T).map Prod.snd) ∧ Cover s b hi (Y.map Prod.snd) := by
  unfold hasEnd at he
  unfold hasStart at hs
  rw [List.any_eq_true] at he hs
  obtain ⟨l, hl, hlb⟩ := he
  obtain ⟨f, hf, hfa⟩ := hs
  simp only [decide_eq_true_eq] at hlb hfa
  obtain ⟨pl, hpl, rfl⟩ := List.mem_map.1 hl
  obtain ⟨pf, hpf, rfl⟩ := List.mem_map.1 hf
  obtain ⟨U, Y, rfl⟩ := List.append_of_mem hpl
  have hc2 := hc
  rw [List.map_append, List.map_cons, Cover_append] at hc2
  obtain ⟨mid, hcU, hcl⟩ := hc2
  obtain ⟨hl1, hl2, hl3, hl4, hcY⟩ := hcl
  rw [hlb] at hcY
  have hcR : Cover s lo b ((U ++ [pl]).map Prod.snd) := by
    rw [List.map_append, Cover_append]
    exact ⟨mid, hcU, hl1, hl2, hl3, hl4, hlb⟩
  have hpf2 : pf ∈ U ++ [pl] := by
    rcases List.mem_append.1 hpf with h | h
    · exact List.mem_append_left _ h
    · rcases List.mem_cons.1 h with h | h
      · rw [h]; simp
      · have := Cover_mem s _ _ _ hcY pf.2 (List.mem_map_of_mem _ h)
        omega
  obtain ⟨X, T, hXT⟩ := List.append_of_mem hpf2
  rw [hXT, List.map_append, Cover_append] at hcR
  obtain ⟨m2, hcX, hcT⟩ := hcR
  have hm2 : m2 = a := by
    obtain ⟨h1, _⟩ := hcT
    rw [← h1]; exact hfa
  subst hm2
  refine ⟨X, pf, T, Y, ?_, hcX, hcT, hcY⟩
  have : U ++ pl :: Y = (U ++ [pl]) ++ Y := by simp
  rw [this, hXT]

theorem findPtr_end_run (s : Str) (b : Int) (Y : List (Nat × chunk)) :
    ∀ (R : List (Nat × chunk)) (pc : Nat × chunk) (lo : Int) (prv : Ptr),
      Cover s lo b ((pc :: R).map Prod.snd) →
      findPtr (fun c => decide (c.end_ = b)) ((pc :: R) ++ Y) = tl prv (pc :: R) := by
  intro R
  induction R with
  | nil =>
    intro pc lo prv hc
    obtain ⟨_, _, _, _, he⟩ := hc
    have he : pc.2.end_ = b := he
    rw [List.cons_append, findPtr_cons]
    simp [he, tl_cons, tl_nil]
  | cons pc2 R ih =>
    intro pc lo prv hc
    obtain ⟨_, _, _, _, hc2⟩ := hc
    have hlt : pc.2.end_ < b := by
      have hc3 := hc2
      rw [List.map_cons, Cover_cons] at hc3
      have := Cover_le s _ _ _ hc3.2.2.2.2
      omega
    have hne : ¬ pc.2.end_ = b := by omega
    rw [List.cons_append, findPtr_cons]
    simp only [hne, decide_False, Bool.false_eq_true, if_false]
    rw [tl_cons]
    exact ih pc2 pc.2.end_ (some pc.1) hc2

/-- `Overwrite` on a tiling in which both ends of the range can be cut. -/
theorem overwrite_good (s : Str) (ms : MagicString) (cs : List chunk) (a b : Int) (content : Str)
    (g : Good s ms cs) (ha : 0 ≤ a) (hab : a < b) (hb : b ≤ (s.length : Int))
    (hs : hasStart a (asplit b (asplit a cs)) = true)
    (he : hasEnd b (asplit b (asplit a cs)) = true) :
    ∃ ms2, ms.Overwrite a b content = Except.ok (ms2, true, none) ∧
      Good s ms2 (aedit a b content (asplit b (asplit a cs))) ∧
      ms2.intro = ms.intro ∧ ms2.outro = ms.outro := by
  have horig0 := g.1
  obtain ⟨ms1, hsp1, g1, hi1, ho1⟩ := split_good s ms cs a g
  obtain ⟨ms2, hsp2, g2, hi2, ho2⟩ := split_good s ms1 _ b g1
  obtain ⟨horig, hc, pcs, r, hpcs⟩ := g2
  rw [← hpcs] at hs he hc ⊢
  obtain ⟨X, pc0, T, Y, hdec, hcX, hcR, hcY⟩ := run_decomp s pcs 0 _ a b hab hc hs he
  subst hdec
  have hmX := Cover_mem s _ _ _ hcX
  have hR := hcR
  obtain ⟨hR1, hR2, _, _, hcT⟩ := hR
  -- the two pointers
  have hfirst : ms2.byStart a = some pc0.1 := by
    rw [r.starts]
    apply findPtr_append_of_some
    rw [findPtr_append_of_none, findPtr_cons]
    · simp [hR1]
    · intro pc hpc
      have := hmX pc.2 (List.mem_map_of_mem _ hpc)
      simp only [decide_eq_false_iff_not]
      omega
  have hlast : ms2.byEnd b = tl (some pc0.1) T := by
    rw [r.ends, List.append_assoc, findPtr_append_of_none,
      findPtr_end_run s b Y T pc0 a none hcR, tl_cons]
    intro pc hpc
    have := hmX pc.2 (List.mem_map_of_mem _ hpc)
    simp only [decide_eq_false_iff_not]
    omega
  -- the first chunk
  have hl := r.lseg
  rw [List.append_assoc, List.cons_append, LSeg_append, LSeg_cons] at hl
  obtain ⟨_, ⟨cf, hcf, hbare, _, hnext⟩, hlTY⟩ := hl
  have hnextmap : ms2.byStart cf.end_ = hd (T ++ Y) none := by
    rw [r.starts, ← bare_end, hbare, List.append_assoc, List.cons_append]
    apply findPtr_start_end s X (T ++ Y) pc0 0 s.length
    rw [← List.cons_append, ← List.append_assoc]
    exact hc
  have hnd := r.nodup
  rw [List.map_append, List.nodup_append] at hnd
  obtain ⟨hnd1, _, _⟩ := hnd
  rw [List.map_append, List.nodup_append] at hnd1
  obtain ⟨_, hnd2, _⟩ := hnd1
  rw [List.map_cons, List.nodup_cons] at hnd2
  obtain ⟨hp0, hndT⟩ := hnd2
  have hlen := r.length_le
  have hres : ∃ h3, (∀ x, h3[x]? = (ms2.heap[x]?).map (fun c =>
        if x = pc0.1 then c.edit content else if x ∈ T.map Prod.fst then c.edit [] else c)) ∧
      ms.Overwrite a b content = Except.ok ({ ms2 with heap := h3 }, true, none) := by
    have hnb : ¬ (b > (ms.original.length : Int)) := by rw [horig0]; omega
    have hne : ¬ a = b := by omega
    have hcond : ¬ (b > cf.end_ ∧ cf.next ≠ ms2.byStart cf.end_) := by
      rw [hnextmap, hnext]
      simp
    rcases List.eq_nil_or_concat T with hT | ⟨M, l, hT⟩
    · subst hT
      refine ⟨ms2.heap.set pc0.1 (cf.edit content), ?_, ?_⟩
      · intro x
        rw [set_pointwise ms2.heap pc0.1 cf (fun c => c.edit content) hcf x]
        simp
      · rw [tl_nil] at hlast
        simp only [MagicString.Overwrite, resolve_nonneg ms a ha, resolve_nonneg ms b (by omega),
          hnb, hne, if_false, hsp1, hsp2, hfirst, hcf, hcond, hlast, ne_eq, not_true_eq_false]
    · rw [List.concat_eq_append] at hT
      subst hT
      rw [tl_snoc] at hlast
      rw [List.map_append, List.nodup_append] at hndT
      obtain ⟨hndM, _, hdisjM⟩ := hndT
      have hlM : l.1 ∉ M.map Prod.fst := fun e => hdisjM e (by simp)
      rw [List.map_append, List.mem_append, not_or] at hp0
      have hl0 : l.1 ≠ pc0.1 := fun e => hp0.2 (by rw [← e]; simp)
      rw [LSeg_append, LSeg_append] at hlTY
      obtain ⟨⟨hlM2, hll⟩, _⟩ := hlTY
      rw [hd_cons] at hlM2
      rw [LSeg_cons] at hll
      obtain ⟨⟨cl, hcl, _⟩, _⟩ := hll
      have hlM3 : LSeg (ms2.heap.set pc0.1 (cf.edit content)) (some pc0.1) M (some l.1) := by
        apply LSeg_frame _ _ _ _ _ _ hlM2
        intro x hx
        rw [List.getElem?_set_ne]
        intro e
        exact hp0.1 (by rw [e]; exact List.mem_map_of_mem _ hx)
      have hMlen : M.length ≤ ms2.heap.length := by
        have : M.length ≤ (X ++ pc0 :: (M ++ [l]) ++ Y).length := by simp; omega
        omega
      obtain ⟨h2, hrun, hpt2⟩ := editRun_spec l.1 M (ms2.heap.set pc0.1 (cf.edit content))
        (some pc0.1) (ms2.heap.length + 1 - M.length) hlM3 hlM hndM
      have e1 : M.length + (ms2.heap.length + 1 - M.length) = ms2.heap.length + 1 := by omega
      rw [e1] at hrun
      have hnext2 : cf.next = hd M (some l.1) := by
        rw [hnext, hd_append, hd_append, hd_cons]
      have hh2l : h2[l.1]? = some cl := by
        rw [hpt2, List.getElem?_set_ne (Ne.symm hl0), hcl]
        simp [hlM]
      refine ⟨h2.set l.1 (cl.edit []), ?_, ?_⟩
      · intro x
        rw [set_pointwise h2 l.1 cl (fun c => c.edit []) hh2l x, hpt2,
          set_pointwise ms2.heap pc0.1 cf (fun c => c.edit content) hcf x, Option.map_map,
          Option.map_map]
        congr 1
        funext c
        simp only [Function.comp, List.map_append, List.mem_append, List.map_cons, List.map_nil,
          List.mem_singleton]
        by_cases e : x = pc0.1
        · subst e
          have h1 : ¬ pc0.1 = l.1 := fun e => hl0 e.symm
          simp only [hp0.1, h1, if_true, if_false]
        · by_cases e2 : x = l.1
          · subst e2
            simp only [e, hlM, if_true, if_false, or_true]
          · simp only [e, e2, if_false, or_false]
      · have hfl : ¬ (some pc0.1 = some l.1) := fun e => hl0 (Option.some.inj e).symm
        have hcond2 : ¬ (b > cf.end_ ∧ ¬ hd M (some l.1) = ms2.byStart cf.end_) := by
          rw [← hnext2]; exact hcond
        simp only [MagicString.Overwrite, resolve_nonneg ms a ha, resolve_nonneg ms b (by omega),
          hnb, hne, if_false, hsp1, hsp2, hfirst, hcf, hcond, hlast, ne_eq, hfl,
          not_false_eq_true, if_true, List.length_set, hnext2, hrun, deref, hh2l, hcond2]
  obtain ⟨h3, hpt, hov⟩ := hres
  refine ⟨_, hov, ?_, hi2.trans hi1, ho2.trans ho1⟩
  exact run_edit_good s ms2 X T Y pc0 a b content r horig hcX hcR hcY h3 hpt

/-- `Remove` on a tiling in which both ends of the range can be cut. -/
theorem remove_good (s : Str) (ms : MagicString) (cs : List chunk) (a b : Int)
    (g : Good s ms cs) (ha : 0 ≤ a) (hab : a < b) (hb : b ≤ (s.length : Int))
    (hs : hasStart a (asplit b (asplit a cs)) = true)
    (he : hasEnd b (asplit b (asplit a cs)) = true) :
    ∃ ms2, ms.Remove a b = Except.ok (ms2, none) ∧
      Good s ms2 (aedit a b [] (asplit b (asplit a cs))) ∧
      ms2.intro = ms.intro ∧ ms2.outro = ms.outro := by
  have horig0 := g.1
  obtain ⟨ms1, hsp1, g1, hi1, ho1⟩ := split_good s ms cs a g
  obtain ⟨ms2, hsp2, g2, hi2, ho2⟩ := split_good s ms1 _ b g1
  obtain ⟨horig, hc, pcs, r, hpcs⟩ := g2
  rw [← hpcs] at hs he hc ⊢
  obtain ⟨X, pc0, T, Y, hdec, hcX, hcR, hcY⟩ := run_decomp s pcs 0 _ a b hab hc hs he
  subst hdec
  have hmX := Cover_mem s _ _ _ hcX
  have hR := hcR
  obtain ⟨hR1, hR2, _, _, hcT⟩ := hR
  have hfirst : ms2.byStart a = some pc0.1 := by
    rw [r.starts]
    apply findPtr_append_of_some
    rw [findPtr_append_of_none, findPtr_cons]
    · simp [hR1]
    · intro pc hpc
      have := hmX pc.2 (List.mem_map_of_mem _ hpc)
      simp only [decide_eq_false_iff_not]
      omega
  have hl := r.lseg
  rw [LSeg_append, LSeg_append] at hl
  obtain ⟨⟨_, hlR⟩, _⟩ := hl
  have hnd := r.nodup
  rw [List.map_append, List.nodup_append] at hnd
  obtain ⟨hnd1, _, _⟩ := hnd
  rw [List.map_append, List.nodup_append] at hnd1
  obtain ⟨_, hnd2, _⟩ := hnd1
  have hlen := r.length_le
  have hRlen : (pc0 :: T).length ≤ ms2.heap.length := by
    have : (pc0 :: T).length ≤ (X ++ pc0 :: T ++ Y).length := by simp; omega
    omega
  obtain ⟨h2, hrun, hpt⟩ := removeRun_spec s b T pc0 ms2.heap _ _
    (ms2.heap.length + 1 - (pc0 :: T).length) a hlR hcR hnd2
  have e1 : (pc0 :: T).length + (ms2.heap.length + 1 - (pc0 :: T).length) =
      ms2.heap.length + 1 := by omega
  rw [e1] at hrun
  have hnb : ¬ (b > (ms.original.length : Int)) := by rw [horig0]; omega
  have hne : ¬ a = b := by omega
  have hgt : ¬ a > b := by omega
  refine ⟨{ ms2 with heap := h2 }, ?_, ?_, hi2.trans hi1, ho2.trans ho1⟩
  · simp only [MagicString.Remove, resolve_nonneg ms a ha, resolve_nonneg ms b (by omega),
      hnb, hne, hgt, if_false, hsp1, hsp2, hfirst, hrun]
  · apply run_edit_good s ms2 X T Y pc0 a b [] r horig hcX hcR hcY h2
    intro x
    rw [hpt x]
    congr 1
    funext c
    simp only [List.map_cons, List.mem_cons]
    by_cases e : x = pc0.1
    · simp only [e, true_or, if_true]
    · simp only [e, false_or, if_false]

/-- C9: for every state and non-negative `start`, `end_`, when `end_` exceeds the
length of the original or `start = end_`, `Overwrite` returns a nil `*MagicString`
together with an error, and the state after the call is the state before it. -/
theorem C9_overwrite_rejects (ms : MagicString) (start end_ : Int) (content : Str)
    (h0 : 0 ≤ start) (h1 : 0 ≤ end_)
    (h : end_ > (ms.original.length : Int) ∨ start = end_) :
    ∃ e, ms.Overwrite start end_ content = Except.ok (ms, false, some e) := by
  unfold MagicString.Overwrite
  rw [resolve_nonneg ms start h0, resolve_nonneg ms end_ h1]
  dsimp only
  by_cases hb : end_ > (ms.original.length : Int)
  · exact ⟨Err.endOutOfBounds, by rw [if_pos hb]⟩
  · rcases h with h | h
    · exact absurd h hb
    · exact ⟨Err.zeroLength, by rw [if_neg hb, if_pos h]⟩

theorem C9_overwrite_rejects_witness :
    ∃ e, (New "abc".toList).Overwrite 1 1 "x".toList =
      Except.ok (New "abc".toList, false, some e) :=
  C9_overwrite_rejects (New "abc".toList) 1 1 "x".toList (by decide) (by decide)
    (Or.inr rfl)

/-- C10: for every state and non-negative `start`, `end_`, `Remove` returns an
error exactly when `start ≠ end_` and (`end_` exceeds the length of the original
or `start > end_`); when `start = end_` it returns nil and the state is the one
before the call; and whenever it returns an error the state is the one before
the call. -/
theorem C10_remove_errors (ms : MagicString) (start end_ : Int)
    (h0 : 0 ≤ start) (h1 : 0 ≤ end_) :
    ((∃ ms2 e, ms.Remove start end_ = Except.ok (ms2, some e)) ↔
        (start ≠ end_ ∧ (end_ > (ms.original.length : Int) ∨ start > end_))) ∧
      (start = end_ → ms.Remove start end_ = Except.ok (ms, none)) ∧
      (∀ ms2 e, ms.Remove start end_ = Except.ok (ms2, some e) → ms2 = ms) := by
  unfold MagicString.Remove
  rw [resolve_nonneg ms start h0, resolve_nonneg ms end_ h1]
  dsimp only
  by_cases he : start = end_
  · rw [if_pos he]
    refine ⟨⟨?_, fun h => absurd he h.1⟩, fun _ => rfl, ?_⟩
    · rintro ⟨ms2, e, h⟩; cases h
    · intro ms2 e h; cases h
  · rw [if_neg he]
    by_cases hb : end_ > (ms.original.length : Int)
    · rw [if_pos hb]
      refine ⟨⟨fun _ => ⟨he, Or.inl hb⟩, fun _ => ⟨ms, _, rfl⟩⟩, fun h => absurd h he, ?_⟩
      intro ms2 e h
      cases h; rfl
    · rw [if_neg hb]
      by_cases hg : start > end_
      · rw [if_pos hg]
        refine ⟨⟨fun _ => ⟨he, Or.inr hg⟩, fun _ => ⟨ms, _, rfl⟩⟩, fun h => absurd h he, ?_⟩
        intro ms2 e h
        cases h; rfl
      · rw [if_neg hg]
        have hno : ∀ ms2 e, ¬ ((match ms.split start with
            | Except.error f => Except.error f
            | Except.ok ms1 =>
              match ms1.split end_ with
              | Except.error f => Except.error f
              | Except.ok ms2 =>
                match removeRun end_ (ms2.heap.length + 1) ms2.heap (ms2.byStart start) with
                | Except.error f => Except.error f
                | Except.ok h => Except.ok ({ ms2 with heap := h }, none)) =
              (Except.ok (ms2, some e) : Except Fault (MagicString × Option Err))) := by
          intro ms2 e
          cases ms.split start with
          | error f => intro h; cases h
          | ok ms1 =>
            dsimp only
            cases ms1.split end_ with
            | error f => intro h; cases h
            | ok ms3 =>
              dsimp only
              cases removeRun end_ (ms3.heap.length + 1) ms3.heap (ms3.byStart start) with
              | error f => intro h; cases h
              | ok h => intro h2; cases h2
        refine ⟨⟨fun ⟨ms2, e, h⟩ => absurd h (hno ms2 e), ?_⟩, fun h => absurd h he, ?_⟩
        · rintro ⟨_, h | h⟩
          · exact absurd h hb
          · exact absurd h hg
        · intro ms2 e h
          exact absurd h (hno ms2 e)

theorem C10_remove_errors_witness :
    ((∃ ms2 e, (New "abc".toList).Remove 2 1 = Except.ok (ms2, some e)) ↔
        ((2 : Int) ≠ 1 ∧ ((1 : Int) > ((New "abc".toList).original.length : Int) ∨
          (2 : Int) > 1))) ∧
      ((2 : Int) = 1 → (New "abc".toList).Remove 2 1 = Except.ok (New "abc".toList, none)) ∧
      (∀ ms2 e, (New "abc".toList).Remove 2 1 = Except.ok (ms2, some e) →
        ms2 = New "abc".toList) :=
  C10_remove_errors (New "abc".toList) 2 1 (by decide) (by decide)

/-- C2 (the code loses text): on `New("abcdef")`, `Move(0, 2, 4)` returns nil and
`String()` is then `"abef"`; the text `"cd"` between the moved range and the
target is no longer rendered, where the claim has `"cdabef"`. -/
theorem C2_move_of_head_drops_text :
    ∃ ms1, (New "abcdef".toList).Move 0 2 4 = Except.ok (ms1, none) ∧
      ms1.String = Except.ok "abef".toList ∧ "abef".toList ≠ "cdabef".toList :=
  ⟨_, rfl, rfl, by decide⟩

/-- C3 (the conflict is not reported): on `New("abcdefghij")` after
`Overwrite(0, 6, "XYZ")`, the call `Overwrite(3, 8, "Q")`, whose range cuts into
the overwritten one, returns the receiver and a nil error, and `String()` is then
`"XYZgh"`; the call `Overwrite(3, 5, "Q")` aborts on a nil pointer. -/
theorem C3_overlapping_overwrite_returns_nil :
    ∃ ms1 ms2, (New "abcdefghij".toList).Overwrite 0 6 "XYZ".toList =
        Except.ok (ms1, true, none) ∧
      ms1.Overwrite 3 8 "Q".toList = Except.ok (ms2, true, none) ∧
      ms2.String = Except.ok "XYZgh".toList ∧
      ms1.Overwrite 3 5 "Q".toList = Except.error Fault.panic :=
  ⟨_, _, rfl, rfl, rfl, rfl⟩

/-- C8 (the Prepend family does nothing): on `New("abcdef")`, `AppendLeft(3, "a")`
followed by `PrependLeft(3, "b")` renders `"abcadef"`, `AppendRight(3, "a")`
followed by `PrependRight(3, "b")` renders `"abcadef"`, and `Prepend("p")`
renders `"abcdef"`: in each case the prepended text is missing. -/
theorem C8_prepend_is_noop :
    (∃ ms1, (New "abcdef".toList).AppendLeft 3 "a".toList = Except.ok ms1 ∧
        (ms1.PrependLeft 3 "b".toList).String = Except.ok "abcadef".toList) ∧
      (∃ ms1, (New "abcdef".toList).AppendRight 3 "a".toList = Except.ok ms1 ∧
        (ms1.PrependRight 3 "b".toList).String = Except.ok "abcadef".toList) ∧
      ((New "abcdef".toList).Prepend "p".toList).String = Except.ok "abcdef".toList :=
  ⟨⟨_, rfl, rfl⟩, ⟨_, rfl, rfl⟩, rfl⟩

theorem render_nil : render [] = [] := rfl

theorem render_cons (c : chunk) (cs : List chunk) : render (c :: cs) = c.String ++ render cs := by
  unfold render
  rw [List.flatMap_cons]

theorem render_append (A B : List chunk) : render (A ++ B) = render A ++ render B := by
  unfold render
  rw [List.flatMap_append]

theorem render_pure (s : Str) (cs : List chunk) (lo hi : Int) (hlo : 0 ≤ lo)
    (hp : Pure s lo hi cs) : render cs = slice s lo hi := by
  induction cs generalizing lo with
  | nil =>
    have : lo = hi := hp.1
    rw [this, slice_self, render_nil]
  | cons c rest ih =>
    obtain ⟨⟨h1, h2, h3, h4, h5⟩, hpl⟩ := hp
    obtain ⟨e1, e2, e3⟩ := hpl c (List.mem_cons_self _ _)
    have hle := Cover_le s _ _ _ h5
    rw [render_cons, ih c.end_ (by omega) ⟨h5, fun x hx => hpl x (List.mem_cons_of_mem _ hx)⟩]
    unfold chunk.String
    rw [e2, e3, h4 e1, h3, List.nil_append, List.append_nil]
    exact slice_append s lo hi c.end_ hlo (by omega) hle

theorem Cut_of_forall (cs : List chunk) (index : Int)
    (h : ∀ c ∈ cs, ¬ (c.edited = true ∧ 0 < c.content.length)) : Cut cs index :=
  fun c hc _ => h c hc

theorem Plain_not_edit (c : chunk) (h : Plain c) : ¬ (c.edited = true ∧ 0 < c.content.length) := by
  intro h2
  rw [h.1] at h2
  exact absurd h2.1 (by decide)

theorem Cut_of_pure (s : Str) (cs : List chunk) (lo hi index : Int) (h : Pure s lo hi cs) :
    Cut cs index :=
  Cut_of_forall cs index (fun c hc => Plain_not_edit c (h.2 c hc))

theorem Cut_cons (c : chunk) (cs : List chunk) (index : Int) (h : Cut (c :: cs) index) :
    Cut cs index :=
  fun x hx => h x (List.mem_cons_of_mem _ hx)

theorem Cut_append (A B : List chunk) (index : Int) :
    Cut (A ++ B) index ↔ Cut A index ∧ Cut B index := by
  unfold Cut
  constructor
  · intro h
    exact ⟨fun c hc => h c (List.mem_append_left _ hc), fun c hc => h c (List.mem_append_right _ hc)⟩
  · rintro ⟨h1, h2⟩ c hc
    rcases List.mem_append.1 hc with h | h
    · exact h1 c h
    · exact h2 c h

/-- A tiling that can be cut at `index` is, after `split`, a tiling up to
`index` followed by a tiling from `index`. -/
theorem asplit_cut (s : Str) (index : Int) (cs : List chunk) (lo hi : Int) (hlo : 0 ≤ lo)
    (h1 : lo ≤ index) (h2 : index ≤ hi) (hc : Cover s lo hi cs) (hcut : Cut cs index) :
    ∃ P1 P2, asplit index cs = P1 ++ P2 ∧ Cover s lo index P1 ∧ Cover s index hi P2 := by
  induction cs generalizing lo with
  | nil =>
    have : lo = hi := hc
    refine ⟨[], [], rfl, ?_, ?_⟩
    · show lo = index; omega
    · show index = hi; omega
  | cons c rest ih =>
    have hc0 := hc
    obtain ⟨c1, c2, c3, c4, c5⟩ := hc
    by_cases hi1 : index ≤ lo
    · refine ⟨[], c :: rest, ?_, ?_, ?_⟩
      · rw [asplit_outside s index lo hi _ hc0 (Or.inl hi1)]; rfl
      · show lo = index; omega
      · have : index = lo := by omega
        rw [this]; exact hc0
    · by_cases hi2 : c.end_ ≤ index
      · obtain ⟨P1, P2, e, hP1, hP2⟩ := ih c.end_ (by omega) hi2 c5 (Cut_cons _ _ _ hcut)
        refine ⟨c :: P1, P2, ?_, ⟨c1, c2, c3, c4, hP1⟩, hP2⟩
        rw [asplit_cons, e, splitSeg_of_not_contains]
        · rfl
        · simp only [chunk.contains, Bool.and_eq_false_iff, decide_eq_false_iff_not]
          omega
      · have hcon : c.contains index = true := by
          simp only [chunk.contains, Bool.and_eq_true, decide_eq_true_eq]
          omega
        have hne := hcut c (List.mem_cons_self _ _) hcon
        have hca := Cover_asplit s index _ lo hi hlo hc0
        have e : asplit index (c :: rest) = [frontHalf index c] ++ (backHalf index c :: rest) := by
          rw [asplit_cons, asplit_outside s index c.end_ hi rest c5 (Or.inl (by omega))]
          unfold splitSeg
          simp [hcon, hne]
        rw [e] at hca
        obtain ⟨d1, d2, d3, d4, d5⟩ := hca
        refine ⟨_, _, e, ⟨d1, d2, d3, d4, ?_⟩, ?_⟩
        · exact frontHalf_end index c
        · rw [frontHalf_end] at d5; exact d5

theorem frontHalf_plain (index : Int) (c : chunk) (h : Plain c) : Plain (frontHalf index c) := by
  obtain ⟨h1, h2, h3⟩ := h
  unfold frontHalf Plain
  rw [h1]
  exact ⟨rfl, h2, rfl⟩

theorem backHalf_plain (index : Int) (c : chunk) (h : Plain c) : Plain (backHalf index c) := by
  obtain ⟨h1, h2, h3⟩ := h
  unfold backHalf Plain
  rw [h1]
  exact ⟨rfl, rfl, h3⟩

/-- A property of chunks that passes to the two halves of a split passes to
the list after `split`. -/
theorem asplit_forall (Q : chunk → Prop) (index : Int)
    (hQ : ∀ c, Q c → c.contains index = true → ¬ (c.edited = true ∧ 0 < c.content.length) →
      Q (frontHalf index c) ∧ Q (backHalf index c))
    (cs : List chunk) (h : ∀ c ∈ cs, Q c) : ∀ c ∈ asplit index cs, Q c := by
  induction cs with
  | nil => intro c hc; cases hc
  | cons x rest ih =>
    intro c hc
    rw [asplit_cons] at hc
    rcases List.mem_append.1 hc with hc | hc
    · unfold splitSeg at hc
      split at hc
      · rename_i hcond
        have := hQ x (h x (List.mem_cons_self _ _)) hcond.1 hcond.2
        rcases List.mem_cons.1 hc with e | hc
        · rw [e]; exact this.1
        · rw [List.mem_singleton.1 hc]; exact this.2
      · rw [List.mem_singleton.1 hc]; exact h x (List.mem_cons_self _ _)
    · exact ih (fun y hy => h y (List.mem_cons_of_mem _ hy)) c hc

theorem asplit_plain (index : Int) (cs : List chunk) (h : ∀ c ∈ cs, Plain c) :
    ∀ c ∈ asplit index cs, Plain c :=
  asplit_forall Plain index
    (fun c hc _ _ => ⟨frontHalf_plain index c hc, backHalf_plain index c hc⟩) cs h

/-- A plain tiling, after `split`, is a plain tiling up to `index` followed by
a plain tiling from `index`. -/
theorem asplit_pure (s : Str) (index : Int) (cs : List chunk) (lo hi : Int) (hlo : 0 ≤ lo)
    (h1 : lo ≤ index) (h2 : index ≤ hi) (hp : Pure s lo hi cs) :
    ∃ P1 P2, asplit index cs = P1 ++ P2 ∧ Pure s lo index P1 ∧ Pure s index hi P2 := by
  obtain ⟨P1, P2, e, hP1, hP2⟩ :=
    asplit_cut s index cs lo hi hlo h1 h2 hp.1 (Cut_of_pure s cs lo hi index hp)
  have hpl := asplit_plain index cs hp.2
  rw [e] at hpl
  exact ⟨P1, P2, e, ⟨hP1, fun c hc => hpl c (List.mem_append_left _ hc)⟩,
    ⟨hP2, fun c hc => hpl c (List.mem_append_right _ hc)⟩⟩

theorem New_pure (s : Str) (hs : 0 < s.length) :
    Pure s 0 (s.length : Int) [newChunk 0 (s.length : Int) s] := by
  refine ⟨(New_good s hs).2.1, ?_⟩
  intro c hc
  rw [List.mem_singleton.1 hc]
  exact ⟨rfl, rfl, rfl⟩

theorem Good_String {s : Str} {ms : MagicString} {cs : List chunk} (g : Good s ms cs) :
    ms.String = Except.ok (ms.intro ++ render cs ++ ms.outro) := by
  obtain ⟨_, _, pcs, r, rfl⟩ := g
  exact Rep_String r

theorem aappendLeft_id (i : Int) (x : Str) (cs : List chunk) (h : ∀ c ∈ cs, c.end_ ≠ i) :
    aappendLeft i x cs = cs := by
  unfold aappendLeft
  conv_rhs => rw [← List.map_id cs]
  apply List.map_congr_left
  intro c hc
  simp [h c hc]

theorem aappendRight_id (i : Int) (x : Str) (cs : List chunk) (h : ∀ c ∈ cs, c.start ≠ i) :
    aappendRight i x cs = cs := by
  unfold aappendRight
  conv_rhs => rw [← List.map_id cs]
  apply List.map_congr_left
  intro c hc
  simp [h c hc]

theorem aedit_id (a b : Int) (content : Str) (cs : List chunk)
    (h : ∀ c ∈ cs, ¬ (a ≤ c.start ∧ c.end_ ≤ b)) : aedit a b content cs = cs := by
  unfold aedit
  conv_rhs => rw [← List.map_id cs]
  apply List.map_congr_left
  intro c hc
  simp only [id]
  rw [if_neg (h c hc)]

theorem aappendLeft_append (i : Int) (x : Str) (A B : List chunk) :
    aappendLeft i x (A ++ B) = aappendLeft i x A ++ aappendLeft i x B := by
  unfold aappendLeft
  rw [List.map_append]

theorem aappendRight_append (i : Int) (x : Str) (A B : List chunk) :
    aappendRight i x (A ++ B) = aappendRight i x A ++ aappendRight i x B := by
  unfold aappendRight
  rw [List.map_append]

theorem aedit_append (a b : Int) (content : Str) (A B : List chunk) :
    aedit a b content (A ++ B) = aedit a b content A ++ aedit a b content B := by
  unfold aedit
  rw [List.map_append]

theorem aappendLeft_outside (s : Str) (i : Int) (x : Str) (cs : List chunk) (lo hi : Int)
    (hc : Cover s lo hi cs) (h : i ≤ lo ∨ hi < i) : aappendLeft i x cs = cs := by
  apply aappendLeft_id
  intro c hcm
  have := Cover_mem s cs lo hi hc c hcm
  omega

theorem aappendRight_outside (s : Str) (i : Int) (x : Str) (cs : List chunk) (lo hi : Int)
    (hc : Cover s lo hi cs) (h : hi ≤ i ∨ i < lo) : aappendRight i x cs = cs := by
  apply aappendRight_id
  intro c hcm
  have := Cover_mem s cs lo hi hc c hcm
  omega

theorem aedit_outside (s : Str) (a b : Int) (content : Str) (cs : List chunk) (lo hi : Int)
    (hc : Cover s lo hi cs) (h : hi ≤ a ∨ b ≤ lo) : aedit a b content cs = cs := by
  apply aedit_id
  intro c hcm
  have := Cover_mem s cs lo hi hc c hcm
  omega

theorem ends_ne_of_cover (s : Str) (i : Int) (cs : List chunk) (lo hi : Int)
    (hc : Cover s lo hi cs) (h : i ≤ lo ∨ hi < i) : ∀ c ∈ cs, c.end_ ≠ i := by
  intro c hcm
  have := Cover_mem s cs lo hi hc c hcm
  omega

theorem starts_ne_of_cover (s : Str) (i : Int) (cs : List chunk) (lo hi : Int)
    (hc : Cover s lo hi cs) (h : hi ≤ i ∨ i < lo) : ∀ c ∈ cs, c.start ≠ i := by
  intro c hcm
  have := Cover_mem s cs lo hi hc c hcm
  omega

theorem hasEnd_append (i : Int) (A B : List chunk) :
    hasEnd i (A ++ B) = (hasEnd i A || hasEnd i B) := by
  unfold hasEnd
  rw [List.any_append]

theorem hasStart_append (i : Int) (A B : List chunk) :
    hasStart i (A ++ B) = (hasStart i A || hasStart i B) := by
  unfold hasStart
  rw [List.any_append]

/-- The last chunk of a tiling that ends at `i` takes the text appended on the
left of `i`. -/
theorem aappendLeft_last (s : Str) (i : Int) (x : Str) (cs : List chunk) (lo : Int)
    (hc : Cover s lo i cs) (hne : cs ≠ []) :
    render (aappendLeft i x cs) = render cs ++ x ∧ hasEnd i cs = true := by
  induction cs generalizing lo with
  | nil => exact absurd rfl hne
  | cons c rest ih =>
    obtain ⟨c1, c2, c3, c4, c5⟩ := hc
    cases rest with
    | nil =>
      have he : c.end_ = i := c5
      constructor
      · unfold aappendLeft
        simp only [List.map_cons, List.map_nil, he, if_true, render_cons, render_nil,
          List.append_nil]
        simp [chunk.String, chunk.appendLeft]
      · exact hasEnd_eq_true i _ c (List.mem_cons_self _ _) he
    | cons c2 rest2 =>
      obtain ⟨h1, h2⟩ := ih c.end_ c5 (by simp)
      have hlt : c.end_ < i := by
        obtain ⟨_, d2, _, _, d5⟩ := c5
        have := Cover_le s _ _ _ d5
        omega
      have hne2 : ¬ c.end_ = i := by omega
      constructor
      · have e : aappendLeft i x (c :: c2 :: rest2) = c :: aappendLeft i x (c2 :: rest2) := by
          unfold aappendLeft
          rw [List.map_cons, if_neg hne2]
        rw [e, render_cons, h1, render_cons c, List.append_assoc]
      · rw [← List.singleton_append, hasEnd_append, h2, Bool.or_true]

/-- The first chunk of a tiling that starts at `i` takes the text appended on
the right of `i`. -/
theorem aappendRight_head (s : Str) (i : Int) (x : Str) (c : chunk) (rest : List chunk) (hi : Int)
    (hc : Cover s i hi (c :: rest)) :
    aappendRight i x (c :: rest) = c.appendRight x :: rest ∧ hasStart i (c :: rest) = true := by
  obtain ⟨c1, c2, c3, c4, c5⟩ := hc
  constructor
  · unfold aappendRight
    rw [List.map_cons, if_pos c1]
    congr 1
    exact aappendRight_outside s i x rest c.end_ hi c5 (Or.inr c2)
  · exact hasStart_eq_true i _ c (List.mem_cons_self _ _) c1

theorem appendRight_String (c : chunk) (x : Str) (h : c.intro = []) :
    (c.appendRight x).String = x ++ c.String := by
  simp [chunk.String, chunk.appendRight, h]

/-- Rendering after `AppendLeft(i, x)`: `x` follows the chunks before `i`. -/
theorem al_render (s : Str) (i : Int) (x i0 : Str) (X Z : List chunk) (lo : Int)
    (hX : Cover s lo i X) (hZ : ∀ c ∈ Z, c.end_ ≠ i) :
    (if hasEnd i (X ++ Z) = true then i0 else i0 ++ x) ++ render (aappendLeft i x (X ++ Z)) =
      i0 ++ render X ++ x ++ render Z := by
  rw [aappendLeft_append, aappendLeft_id i x Z hZ, render_append, hasEnd_append,
    hasEnd_eq_false i Z hZ, Bool.or_false]
  by_cases hne : X = []
  · subst hne
    have : hasEnd i [] = false := rfl
    rw [this]
    simp [aappendLeft, render_nil]
  · obtain ⟨h1, h2⟩ := aappendLeft_last s i x X lo hX hne
    rw [h1, h2]
    simp

/-- Rendering after `AppendRight(i, x)` with an empty global outro: `x` precedes
the chunks from `i`. -/
theorem ar_render (s : Str) (i : Int) (x : Str) (Z Y : List chunk) (hi : Int)
    (hY : Cover s i hi Y) (hZ : ∀ c ∈ Z, c.start ≠ i) (hin : ∀ c ∈ Y, c.intro = []) :
    render (aappendRight i x (Z ++ Y)) ++ (if hasStart i (Z ++ Y) = true then [] else x) =
      render Z ++ x ++ render Y := by
  rw [aappendRight_append, aappendRight_id i x Z hZ, render_append, hasStart_append,
    hasStart_eq_false i Z hZ, Bool.false_or]
  cases Y with
  | nil =>
    have : hasStart i [] = false := rfl
    rw [this]
    simp [aappendRight, render_nil]
  | cons c rest =>
    obtain ⟨h1, h2⟩ := aappendRight_head s i x c rest hi hY
    rw [h1, h2, render_cons, render_cons, appendRight_String c x (hin c (List.mem_cons_self _ _))]
    simp

theorem aedit_blank (s : Str) (a b : Int) (content : Str) (cs : List chunk) (lo : Int)
    (h : a < lo) (hc : Cover s lo b cs) : render (aedit a b content cs) = [] := by
  induction cs generalizing lo with
  | nil => rfl
  | cons c rest ih =>
    have hm := Cover_mem s _ _ _ hc c (List.mem_cons_self _ _)
    obtain ⟨c1, c2, c3, c4, c5⟩ := hc
    have e : aedit a b content (c :: rest) = c.edit [] :: aedit a b content rest := by
      unfold aedit
      rw [List.map_cons, if_pos (by omega), if_neg (by omega)]
    rw [e, render_cons, ih c.end_ (by omega) c5]
    rfl

/-- The run from `a` to `b` renders as the content once it is overwritten. -/
theorem aedit_run (s : Str) (a b : Int) (content : Str) (cs : List chunk)
    (hc : Cover s a b cs) (hne : cs ≠ []) : render (aedit a b content cs) = content := by
  cases cs with
  | nil => exact absurd rfl hne
  | cons c rest =>
    have hm := Cover_mem s _ _ _ hc c (List.mem_cons_self _ _)
    obtain ⟨c1, c2, c3, c4, c5⟩ := hc
    have e : aedit a b content (c :: rest) = c.edit content :: aedit a b content rest := by
      unfold aedit
      rw [List.map_cons, if_pos (by omega), if_pos c1]
    rw [e, render_cons, aedit_blank s a b content rest c.end_ c2 c5]
    simp [chunk.String, chunk.edit]

theorem aappendLeft_twice (i : Int) (x y : Str) (cs : List chunk) :
    aappendLeft i y (aappendLeft i x cs) = aappendLeft i (x ++ y) cs := by
  unfold aappendLeft
  rw [List.map_map]
  apply List.map_congr_left
  intro c _
  simp only [Function.comp]
  by_cases h : c.end_ = i
  · have : (c.appendLeft x).end_ = i := h
    simp only [if_pos h, if_pos this]
    simp [chunk.appendLeft]
  · simp only [if_neg h]

theorem aappendRight_twice (i : Int) (x y : Str) (cs : List chunk) :
    aappendRight i y (aappendRight i x cs) = aappendRight i (x ++ y) cs := by
  unfold aappendRight
  rw [List.map_map]
  apply List.map_congr_left
  intro c _
  simp only [Function.comp]
  by_cases h : c.start = i
  · have : (c.appendRight x).start = i := h
    simp only [if_pos h, if_pos this]
    simp [chunk.appendRight]
  · simp only [if_neg h]

theorem hasEnd_aappendLeft (i j : Int) (x : Str) (cs : List chunk) :
    hasEnd i (aappendLeft j x cs) = hasEnd i cs := by
  unfold hasEnd aappendLeft
  rw [List.any_map]
  congr 1
  funext c
  simp only [Function.comp]
  have e : (if c.end_ = j then c.appendLeft x else c).end_ = c.end_ := by
    by_cases h : c.end_ = j
    · rw [if_pos h]; rfl
    · rw [if_neg h]
  simp only [e]

theorem hasStart_aappendRight (i j : Int) (x : Str) (cs : List chunk) :
    hasStart i (aappendRight j x cs) = hasStart i cs := by
  unfold hasStart aappendRight
  rw [List.any_map]
  congr 1
  funext c
  simp only [Function.comp]
  have e : (if c.start = j then c.appendRight x else c).start = c.start := by
    by_cases h : c.start = j
    · rw [if_pos h]; rfl
    · rw [if_neg h]
  simp only [e]

/-- `split` at an offset where two tilings meet changes nothing. -/
theorem asplit_boundary (s : Str) (i : Int) (A B : List chunk) (lo hi : Int)
    (hA : Cover s lo i A) (hB : Cover s i hi B) : asplit i (A ++ B) = A ++ B := by
  rw [asplit_append, asplit_outside s i lo i A hA (Or.inr (le_refl _)),
    asplit_outside s i i hi B hB (Or.inl (le_refl _))]

theorem New_intro (s : Str) : (New s).intro = [] := rfl

theorem New_outro (s : Str) : (New s).outro = [] := rfl

/-- C6: on `New(s)`, for `0 ≤ i ≤ len(s)`, `AppendRight(i, x)` then
`AppendRight(i, y)` renders `s[:i] + x + y + s[i:]`, and `AppendLeft(i, x)` then
`AppendLeft(i, y)` renders `s[:i] + x + y + s[i:]`: insertions at one index
accumulate in call order. -/
theorem C6_repeated_insertions_accumulate (s : Str) (i : Int) (x y : Str)
    (h0 : 0 ≤ i) (h1 : i ≤ (s.length : Int)) :
    (∃ ms1 ms2, (New s).AppendRight i x = Except.ok ms1 ∧ ms1.AppendRight i y = Except.ok ms2 ∧
        ms2.String = Except.ok (slice s 0 i ++ x ++ y ++ slice s i (s.length : Int))) ∧
    (∃ ms1 ms2, (New s).AppendLeft i x = Except.ok ms1 ∧ ms1.AppendLeft i y = Except.ok ms2 ∧
        ms2.String = Except.ok (slice s 0 i ++ x ++ y ++ slice s i (s.length : Int))) := by
  by_cases hs : s.length = 0
  · have hs2 : s = [] := List.length_eq_zero.1 hs
    subst hs2
    have hi : i = 0 := by simp at h1; omega
    subst hi
    refine ⟨⟨_, _, rfl, rfl, ?_⟩, ⟨_, _, rfl, rfl, ?_⟩⟩
    · simp [New, MagicString.String, walkString, chunk.String, newChunk, slice, chunk.appendRight,
        chunk.appendLeft]
    · simp [New, MagicString.String, walkString, chunk.String, newChunk, slice, chunk.appendRight,
        chunk.appendLeft]
  have hpos : 0 < s.length := Nat.pos_of_ne_zero hs
  have g0 := New_good s hpos
  obtain ⟨P1, P2, hsp, hP1, hP2⟩ :=
    asplit_pure s i _ 0 (s.length : Int) (le_refl _) h0 h1 (New_pure s hpos)
  have r1 := render_pure s P1 0 i (le_refl _) hP1
  have r2 := render_pure s P2 i (s.length : Int) h0 hP2
  constructor
  · obtain ⟨ms1, e1, g1, hi1, ho1⟩ := appendRight_good s (New s) _ i x g0
    obtain ⟨ms2, e2, g2, hi2, ho2⟩ := appendRight_good s ms1 _ i y g1
    refine ⟨ms1, ms2, e1, e2, ?_⟩
    rw [Good_String g2, hi2, hi1, New_intro, ho2, ho1, New_outro, hsp]
    have hb : asplit i (aappendRight i x (P1 ++ P2)) = aappendRight i x (P1 ++ P2) := by
      rw [aappendRight_append]
      exact asplit_boundary s i _ _ 0 (s.length : Int)
        (Cover_aappendRight s i x P1 0 i hP1.1) (Cover_aappendRight s i x P2 _ _ hP2.1)
    rw [hb, aappendRight_twice, hasStart_aappendRight]
    have hr := ar_render s i (x ++ y) P1 P2 (s.length : Int) hP2.1
      (starts_ne_of_cover s i P1 0 i hP1.1 (Or.inl (le_refl _))) (fun c hc => (hP2.2 c hc).2.1)
    have ho : (if hasStart i (P1 ++ P2) = true then
          (if hasStart i (P1 ++ P2) = true then ([] : Str) else [] ++ x)
        else (if hasStart i (P1 ++ P2) = true then ([] : Str) else [] ++ x) ++ y) =
        (if hasStart i (P1 ++ P2) = true then [] else x ++ y) := by
      cases hasStart i (P1 ++ P2) <;> simp
    rw [ho, List.nil_append, hr, r1, r2]
    simp
  · obtain ⟨ms1, e1, g1, hi1, ho1⟩ := appendLeft_good s (New s) _ i x g0
    obtain ⟨ms2, e2, g2, hi2, ho2⟩ := appendLeft_good s ms1 _ i y g1
    refine ⟨ms1, ms2, e1, e2, ?_⟩
    rw [Good_String g2, hi2, hi1, New_intro, ho2, ho1, New_outro, hsp]
    have hb : asplit i (aappendLeft i x (P1 ++ P2)) = aappendLeft i x (P1 ++ P2) := by
      rw [aappendLeft_append]
      exact asplit_boundary s i _ _ 0 (s.length : Int)
        (Cover_aappendLeft s i x P1 0 i hP1.1) (Cover_aappendLeft s i x P2 _ _ hP2.1)
    rw [hb, aappendLeft_twice, hasEnd_aappendLeft]
    have hr := al_render s i (x ++ y) [] P1 P2 0 hP1.1
      (ends_ne_of_cover s i P2 i (s.length : Int) hP2.1 (Or.inl (le_refl _)))
    have hin : (if hasEnd i (P1 ++ P2) = true then
          (if hasEnd i (P1 ++ P2) = true then ([] : Str) else [] ++ x)
        else (if hasEnd i (P1 ++ P2) = true then ([] : Str) else [] ++ x) ++ y) =
        (if hasEnd i (P1 ++ P2) = true then [] else [] ++ (x ++ y)) := by
      cases hasEnd i (P1 ++ P2) <;> simp
    rw [hin, hr, r1, r2]
    simp

theorem C6_repeated_insertions_accumulate_witness :
    (∃ ms1 ms2, (New "abcd".toList).AppendRight 2 "x".toList = Except.ok ms1 ∧
        ms1.AppendRight 2 "y".toList = Except.ok ms2 ∧
        ms2.String = Except.ok (slice "abcd".toList 0 2 ++ "x".toList ++ "y".toList ++
          slice "abcd".toList 2 ("abcd".toList.length : Int))) ∧
    (∃ ms1 ms2, (New "abcd".toList).AppendLeft 2 "x".toList = Except.ok ms1 ∧
        ms1.AppendLeft 2 "y".toList = Except.ok ms2 ∧
        ms2.String = Except.ok (slice "abcd".toList 0 2 ++ "x".toList ++ "y".toList ++
          slice "abcd".toList 2 ("abcd".toList.length : Int))) :=
  C6_repeated_insertions_accumulate "abcd".toList 2 "x".toList "y".toList (by decide) (by decide)

theorem frontHalf_no_content (index : Int) (c : chunk) :
    ¬ ((frontHalf index c).edited = true ∧ 0 < (frontHalf index c).content.length) := by
  unfold frontHalf
  cases he : c.edited
  · simp
  · simp

theorem backHalf_no_content (index : Int) (c : chunk) :
    ¬ ((backHalf index c).edited = true ∧ 0 < (backHalf index c).content.length) := by
  unfold backHalf
  cases he : c.edited
  · simp [newChunk]
  · simp [chunk.edit]

theorem Cut_asplit (cs : List chunk) (a b : Int) (h : Cut cs b) : Cut (asplit a cs) b := by
  apply asplit_forall (fun c => c.contains b = true → ¬ (c.edited = true ∧ 0 < c.content.length)) a
    _ cs h
  intro c _ _ _
  exact ⟨fun _ => frontHalf_no_content a c, fun _ => backHalf_no_content a c⟩

theorem hasStart_of_cover (s : Str) (a b : Int) (cs : List chunk) (hab : a < b)
    (hc : Cover s a b cs) : hasStart a cs = true ∧ hasEnd b cs = true ∧ cs ≠ [] := by
  cases cs with
  | nil => exact absurd hc (by show ¬ a = b; omega)
  | cons c rest =>
    refine ⟨hasStart_eq_true a _ c (List.mem_cons_self _ _) hc.1, ?_, by simp⟩
    exact (aappendLeft_last s b [] (c :: rest) a hc (by simp)).2

/-- After the two splits of `Overwrite(a, b, _)` or `Remove(a, b)` the tiling is
made of the chunks before `a`, the run from `a` to `b`, and the chunks from `b`. -/
theorem splits_decomp (s : Str) (cs : List chunk) (a b : Int) (ha : 0 ≤ a) (hab : a < b)
    (hb : b ≤ (s.length : Int)) (hc : Cover s 0 (s.length : Int) cs)
    (hca : Cut cs a) (hcb : Cut cs b) :
    ∃ X R Y, asplit b (asplit a cs) = X ++ R ++ Y ∧ Cover s 0 a X ∧ Cover s a b R ∧
      Cover s b (s.length : Int) Y ∧ R ≠ [] ∧
      hasStart a (asplit b (asplit a cs)) = true ∧ hasEnd b (asplit b (asplit a cs)) = true := by
  obtain ⟨X, Z, e1, hX, hZ⟩ := asplit_cut s a cs 0 _ (le_refl _) ha (by omega) hc hca
  have hcb2 := Cut_asplit cs a b hcb
  rw [e1, Cut_append] at hcb2
  obtain ⟨R, Y, e2, hR, hY⟩ := asplit_cut s b Z a _ ha (by omega) hb hZ hcb2.2
  have e3 : asplit b (asplit a cs) = X ++ R ++ Y := by
    rw [e1, asplit_append, asplit_outside s b 0 a X hX (Or.inr (by omega)), e2, List.append_assoc]
  obtain ⟨h1, h2, h3⟩ := hasStart_of_cover s a b R hab hR
  refine ⟨X, R, Y, e3, hX, hR, hY, h3, ?_, ?_⟩
  · rw [e3, hasStart_append, hasStart_append, h1]; simp
  · rw [e3, hasEnd_append, hasEnd_append, h2]; simp

/-- C4: on `New(s)`, for `0 ≤ a < b ≤ len(s)` and `0 ≤ i ≤ a` or `b ≤ i ≤ len(s)`,
`Overwrite(a, b, c)` returns the receiver and a nil error, and after
`AppendLeft(i, x)` the render is `s[:i] + x + s[i:a] + c + s[b:]` when `i ≤ a` and
`s[:a] + c + s[b:i] + x + s[i:]` when `b ≤ i`. -/
theorem C4_overwrite_then_appendLeft (s : Str) (a b i : Int) (c x : Str)
    (ha : 0 ≤ a) (hab : a < b) (hb : b ≤ (s.length : Int))
    (hi : (0 ≤ i ∧ i ≤ a) ∨ (b ≤ i ∧ i ≤ (s.length : Int))) :
    ∃ ms1 ms2, (New s).Overwrite a b c = Except.ok (ms1, true, none) ∧
      ms1.AppendLeft i x = Except.ok ms2 ∧
      (i ≤ a → ms2.String =
        Except.ok (slice s 0 i ++ x ++ slice s i a ++ c ++ slice s b (s.length : Int))) ∧
      (b ≤ i → ms2.String =
        Except.ok (slice s 0 a ++ c ++ slice s b i ++ x ++ slice s i (s.length : Int))) := by
  have hpos : 0 < s.length := by omega
  have g0 := New_good s hpos
  have hp0 := New_pure s hpos
  obtain ⟨X, R, Y, e, hX, hR, hY, hRne, hst, hen⟩ := splits_decomp s _ a b ha hab hb hp0.1
    (Cut_of_pure s _ _ _ a hp0) (Cut_of_pure s _ _ _ b hp0)
  have hpl := asplit_plain b _ (asplit_plain a _ hp0.2)
  rw [e] at hpl
  have hpX : Pure s 0 a X :=
    ⟨hX, fun c hc => hpl c (List.mem_append_left _ (List.mem_append_left _ hc))⟩
  have hpY : Pure s b (s.length : Int) Y := ⟨hY, fun c hc => hpl c (List.mem_append_right _ hc)⟩
  obtain ⟨ms1, e1, g1, hi1, ho1⟩ := overwrite_good s (New s) _ a b c g0 ha hab hb hst hen
  obtain ⟨ms2, e2, g2, hi2, ho2⟩ := appendLeft_good s ms1 _ i x g1
  refine ⟨ms1, ms2, e1, e2, ?_⟩
  have hE : Cover s a b (aedit a b c R) := Cover_aedit s a b c R a b hR
  have hrE : render (aedit a b c R) = c := aedit_run s a b c R hR hRne
  have e3 : aedit a b c (asplit b (asplit a [newChunk 0 (s.length : Int) s])) =
      X ++ aedit a b c R ++ Y := by
    rw [e, aedit_append, aedit_append, aedit_outside s a b c X 0 a hX (Or.inl (le_refl _)),
      aedit_outside s a b c Y b _ hY (Or.inr (le_refl _))]
  rw [Good_String g2, hi2, hi1, New_intro, ho2, ho1, New_outro, e3, List.append_nil]
  constructor
  · intro hia
    have h0i : 0 ≤ i := by omega
    obtain ⟨X1, X2, eX, hX1, hX2⟩ := asplit_pure s i X 0 a (le_refl _) h0i hia hpX
    have e4 : asplit i (X ++ aedit a b c R ++ Y) = X1 ++ (X2 ++ aedit a b c R ++ Y) := by
      rw [asplit_append, asplit_append, eX, asplit_outside s i a b _ hE (Or.inl hia),
        asplit_outside s i b _ Y hY (Or.inl (by omega))]
      simp
    have hZ : ∀ z ∈ X2 ++ aedit a b c R ++ Y, z.end_ ≠ i := by
      intro z hz
      rcases List.mem_append.1 hz with hz | hz
      · rcases List.mem_append.1 hz with hz | hz
        · exact ends_ne_of_cover s i X2 i a hX2.1 (Or.inl (le_refl _)) z hz
        · exact ends_ne_of_cover s i _ a b hE (Or.inl hia) z hz
      · exact ends_ne_of_cover s i Y b _ hY (Or.inl (by omega)) z hz
    have hr := al_render s i x [] X1 _ 0 hX1.1 hZ
    rw [e4, hr, render_append, render_append, hrE, render_pure s X1 0 i (le_refl _) hX1,
      render_pure s X2 i a h0i hX2, render_pure s Y b _ (by omega) hpY]
    simp
  · intro hbi
    have hin : i ≤ (s.length : Int) := by omega
    obtain ⟨Y1, Y2, eY, hY1, hY2⟩ := asplit_pure s i Y b _ (by omega) hbi hin hpY
    have e4 : asplit i (X ++ aedit a b c R ++ Y) = (X ++ aedit a b c R ++ Y1) ++ Y2 := by
      rw [asplit_append, asplit_append, eY, asplit_outside s i 0 a X hX (Or.inr (by omega)),
        asplit_outside s i a b _ hE (Or.inr hbi)]
      simp
    have hW : Cover s 0 i (X ++ aedit a b c R ++ Y1) := by
      rw [Cover_append]
      refine ⟨b, ?_, hY1.1⟩
      rw [Cover_append]
      exact ⟨a, hX, hE⟩
    have hZ := ends_ne_of_cover s i Y2 i _ hY2.1 (Or.inl (le_refl _))
    have hr := al_render s i x [] _ Y2 0 hW hZ
    rw [e4, hr, render_append, render_append, hrE, render_pure s X 0 a (le_refl _) hpX,
      render_pure s Y1 b i (by omega) hY1, render_pure s Y2 i _ (by omega) hY2]
    simp

theorem C4_overwrite_then_appendLeft_witness :
    ∃ ms1 ms2, (New "abcdefghijkl".toList).Overwrite 3 6 "XYZ".toList =
        Except.ok (ms1, true, none) ∧
      ms1.AppendLeft 9 "!".toList = Except.ok ms2 ∧
      ((9 : Int) ≤ 3 → ms2.String =
        Except.ok (slice "abcdefghijkl".toList 0 9 ++ "!".toList ++
          slice "abcdefghijkl".toList 9 3 ++ "XYZ".toList ++
          slice "abcdefghijkl".toList 6 ("abcdefghijkl".toList.length : Int))) ∧
      ((6 : Int) ≤ 9 → ms2.String =
        Except.ok (slice "abcdefghijkl".toList 0 3 ++ "XYZ".toList ++
          slice "abcdefghijkl".toList 6 9 ++ "!".toList ++
          slice "abcdefghijkl".toList 9 ("abcdefghijkl".toList.length : Int))) :=
  C4_overwrite_then_appendLeft "abcdefghijkl".toList 3 6 9 "XYZ".toList "!".toList
    (by decide) (by decide) (by decide) (Or.inr ⟨by decide, by decide⟩)

theorem hasEnd_left (i : Int) (A B : List chunk) (h : ∀ c ∈ B, c.end_ ≠ i) :
    hasEnd i (A ++ B) = hasEnd i A := by
  rw [hasEnd_append, hasEnd_eq_false i B h, Bool.or_false]

theorem hasStart_right (i : Int) (A B : List chunk) (h : ∀ c ∈ A, c.start ≠ i) :
    hasStart i (A ++ B) = hasStart i B := by
  rw [hasStart_append, hasStart_eq_false i A h, Bool.false_or]

/-- The text appended on the left of `i` follows the render of a tiling that
ends at `i`, whether it went to its last chunk or to the global intro. -/
theorem al_piece (s : Str) (i : Int) (x i0 : Str) (X : List chunk) (lo : Int)
    (hX : Cover s lo i X) :
    (if hasEnd i X = true then i0 else i0 ++ x) ++ render (aappendLeft i x X) =
      i0 ++ render X ++ x := by
  have h := al_render s i x i0 X [] lo hX (fun c hc => by cases hc)
  rw [List.append_nil, render_nil, List.append_nil] at h
  exact h

/-- The text appended on the right of `i` precedes the render of a tiling that
starts at `i`, whether it went to its first chunk or to the global outro. -/
theorem ar_piece (s : Str) (i : Int) (x : Str) (Y : List chunk) (hi : Int)
    (hY : Cover s i hi Y) (hin : ∀ c ∈ Y, c.intro = []) :
    render (aappendRight i x Y) ++ (if hasStart i Y = true then [] else x) = x ++ render Y := by
  have h := ar_render s i x [] Y hi hY (fun c hc => by cases hc) hin
  rw [List.nil_append, render_nil, List.nil_append] at h
  exact h

/-- C5: on `New(s)`, for `0 ≤ a < b ≤ len(s)`, after `AppendLeft(a, x)`,
`AppendRight(b, y)` and `Remove(a, b)`, with the two insertions made before or
after the `Remove`, the render is `s[:a] + x + y + s[b:]`. -/
theorem C5_remove_keeps_boundary_insertions (s : Str) (a b : Int) (x y : Str)
    (ha : 0 ≤ a) (hab : a < b) (hb : b ≤ (s.length : Int)) :
    (∃ ms1 ms2 ms3, (New s).AppendLeft a x = Except.ok ms1 ∧
        ms1.AppendRight b y = Except.ok ms2 ∧ ms2.Remove a b = Except.ok (ms3, none) ∧
        ms3.String = Except.ok (slice s 0 a ++ x ++ y ++ slice s b (s.length : Int))) ∧
    (∃ ms1 ms2 ms3, (New s).Remove a b = Except.ok (ms1, none) ∧
        ms1.AppendLeft a x = Except.ok ms2 ∧ ms2.AppendRight b y = Except.ok ms3 ∧
        ms3.String = Except.ok (slice s 0 a ++ x ++ y ++ slice s b (s.length : Int))) := by
  have hpos : 0 < s.length := by omega
  have g0 := New_good s hpos
  have hp0 := New_pure s hpos
  constructor
  · -- insertions first
    obtain ⟨X, Z, eXZ, hX, hZ⟩ := asplit_pure s a _ 0 _ (le_refl _) ha (by omega) hp0
    obtain ⟨Z1, Z2, eZ, hZ1, hZ2⟩ := asplit_pure s b Z a _ ha (by omega) hb hZ
    obtain ⟨ms1, e1, g1, hi1, ho1⟩ := appendLeft_good s (New s) _ a x g0
    have hX2 : Cover s 0 a (aappendLeft a x X) := Cover_aappendLeft s a x X 0 a hX.1
    have c1 : aappendLeft a x (asplit a [newChunk 0 (s.length : Int) s]) =
        aappendLeft a x X ++ Z := by
      rw [eXZ, aappendLeft_append, aappendLeft_outside s a x Z a _ hZ.1 (Or.inl (le_refl _))]
    rw [c1] at g1
    obtain ⟨ms2, e2, g2, hi2, ho2⟩ := appendRight_good s ms1 _ b y g1
    have hZ2b : Cover s b (s.length : Int) (aappendRight b y Z2) :=
      Cover_aappendRight s b y Z2 b _ hZ2.1
    have c2a : asplit b (aappendLeft a x X ++ Z) = aappendLeft a x X ++ Z1 ++ Z2 := by
      rw [asplit_append, asplit_outside s b 0 a _ hX2 (Or.inr (by omega)), eZ, List.append_assoc]
    have c2 : aappendRight b y (asplit b (aappendLeft a x X ++ Z)) =
        aappendLeft a x X ++ Z1 ++ aappendRight b y Z2 := by
      rw [c2a, aappendRight_append, aappendRight_append,
        aappendRight_outside s b y _ 0 a hX2 (Or.inl (by omega)),
        aappendRight_outside s b y Z1 a b hZ1.1 (Or.inl (le_refl _))]
    rw [c2] at g2
    have hXZ1 : Cover s 0 b (aappendLeft a x X ++ Z1) := by
      rw [Cover_append]; exact ⟨a, hX2, hZ1.1⟩
    have hZ12 : Cover s a (s.length : Int) (Z1 ++ aappendRight b y Z2) := by
      rw [Cover_append]; exact ⟨b, hZ1.1, hZ2b⟩
    have c3a : asplit b (asplit a (aappendLeft a x X ++ Z1 ++ aappendRight b y Z2)) =
        aappendLeft a x X ++ Z1 ++ aappendRight b y Z2 := by
      rw [List.append_assoc, asplit_boundary s a _ _ 0 _ hX2 hZ12, ← List.append_assoc,
        asplit_boundary s b _ _ 0 _ hXZ1 hZ2b]
    obtain ⟨hs1, hs2, hs3⟩ := hasStart_of_cover s a b Z1 hab hZ1.1
    obtain ⟨ms3, e3, g3, hi3, ho3⟩ := remove_good s ms2 _ a b g2 ha hab hb
      (by rw [c3a, hasStart_append, hasStart_append, hs1]; simp)
      (by rw [c3a, hasEnd_append, hasEnd_append, hs2]; simp)
    refine ⟨ms1, ms2, ms3, e1, e2, e3, ?_⟩
    have c3 : aedit a b [] (aappendLeft a x X ++ Z1 ++ aappendRight b y Z2) =
        aappendLeft a x X ++ aedit a b [] Z1 ++ aappendRight b y Z2 := by
      rw [aedit_append, aedit_append, aedit_outside s a b [] _ 0 a hX2 (Or.inl (le_refl _)),
        aedit_outside s a b [] _ b _ hZ2b (Or.inr (le_refl _))]
    rw [Good_String g3, c3a, c3, hi3, hi2, hi1, ho3, ho2, ho1, New_intro, New_outro, eXZ, c2a,
      render_append, render_append, aedit_run s a b [] Z1 hZ1.1 hs3]
    rw [hasEnd_left a X Z (ends_ne_of_cover s a Z a _ hZ.1 (Or.inl (le_refl _)))]
    rw [hasStart_right b (aappendLeft a x X ++ Z1) Z2
      (starts_ne_of_cover s b _ 0 b hXZ1 (Or.inl (le_refl _)))]
    have k1 := al_piece s a x [] X 0 hX.1
    have k2 := ar_piece s b y Z2 _ hZ2.1 (fun c hc => (hZ2.2 c hc).2.1)
    rw [render_pure s X 0 a (le_refl _) hX] at k1
    rw [render_pure s Z2 b _ (by omega) hZ2] at k2
    simp only [List.nil_append, List.append_nil] at k1 k2 ⊢
    have key : ∀ (I RX RZ O : Str), I ++ (RX ++ RZ) ++ O = (I ++ RX) ++ (RZ ++ O) := by
      intros; simp only [List.append_assoc]
    rw [key, k1, k2]
    simp only [List.append_assoc]
  · -- removal first
    obtain ⟨X, R, Y, e, hX, hR, hY, hRne, hst, hen⟩ := splits_decomp s _ a b ha hab hb hp0.1
      (Cut_of_pure s _ _ _ a hp0) (Cut_of_pure s _ _ _ b hp0)
    have hpl := asplit_plain b _ (asplit_plain a _ hp0.2)
    rw [e] at hpl
    have hpX : Pure s 0 a X :=
      ⟨hX, fun c hc => hpl c (List.mem_append_left _ (List.mem_append_left _ hc))⟩
    have hpY : Pure s b (s.length : Int) Y :=
      ⟨hY, fun c hc => hpl c (List.mem_append_right _ hc)⟩
    obtain ⟨ms1, e1, g1, hi1, ho1⟩ := remove_good s (New s) _ a b g0 ha hab hb hst hen
    have hE : Cover s a b (aedit a b [] R) := Cover_aedit s a b [] R a b hR
    have c1 : aedit a b [] (asplit b (asplit a [newChunk 0 (s.length : Int) s])) =
        X ++ aedit a b [] R ++ Y := by
      rw [e, aedit_append, aedit_append, aedit_outside s a b [] X 0 a hX (Or.inl (le_refl _)),
        aedit_outside s a b [] Y b _ hY (Or.inr (le_refl _))]
    rw [c1] at g1
    obtain ⟨ms2, e2, g2, hi2, ho2⟩ := appendLeft_good s ms1 _ a x g1
    have hEY : Cover s a (s.length : Int) (aedit a b [] R ++ Y) := by
      rw [Cover_append]; exact ⟨b, hE, hY⟩
    have c2a : asplit a (X ++ aedit a b [] R ++ Y) = X ++ aedit a b [] R ++ Y := by
      rw [List.append_assoc, asplit_boundary s a _ _ 0 _ hX hEY]
    have hX2 : Cover s 0 a (aappendLeft a x X) := Cover_aappendLeft s a x X 0 a hX
    have c2 : aappendLeft a x (asplit a (X ++ aedit a b [] R ++ Y)) =
        aappendLeft a x X ++ aedit a b [] R ++ Y := by
      rw [c2a, aappendLeft_append, aappendLeft_append,
        aappendLeft_outside s a x _ a b hE (Or.inl (le_refl _)),
        aappendLeft_outside s a x Y b _ hY (Or.inl (by omega))]
    rw [c2] at g2
    obtain ⟨ms3, e3, g3, hi3, ho3⟩ := appendRight_good s ms2 _ b y g2
    refine ⟨ms1, ms2, ms3, e1, e2, e3, ?_⟩
    have hXE : Cover s 0 b (aappendLeft a x X ++ aedit a b [] R) := by
      rw [Cover_append]; exact ⟨a, hX2, hE⟩
    have c3a : asplit b (aappendLeft a x X ++ aedit a b [] R ++ Y) =
        aappendLeft a x X ++ aedit a b [] R ++ Y := asplit_boundary s b _ _ 0 _ hXE hY
    have c3 : aappendRight b y (aappendLeft a x X ++ aedit a b [] R ++ Y) =
        aappendLeft a x X ++ aedit a b [] R ++ aappendRight b y Y := by
      rw [aappendRight_append, aappendRight_append,
        aappendRight_outside s b y _ 0 a hX2 (Or.inl (by omega)),
        aappendRight_outside s b y _ a b hE (Or.inl (le_refl _))]
    rw [Good_String g3, c3a, c3, hi3, hi2, hi1, ho3, ho2, ho1, New_intro, New_outro, c2a, c3a,
      render_append, render_append, aedit_run s a b [] R hR hRne]
    rw [List.append_assoc X, hasEnd_left a X _ (ends_ne_of_cover s a _ a _ hEY (Or.inl (le_refl _)))]
    rw [hasStart_right b (aappendLeft a x X ++ aedit a b [] R) Y
      (starts_ne_of_cover s b _ 0 b hXE (Or.inl (le_refl _)))]
    have k1 := al_piece s a x [] X 0 hX
    have k2 := ar_piece s b y Y _ hY (fun c hc => (hpY.2 c hc).2.1)
    rw [render_pure s X 0 a (le_refl _) hpX] at k1
    rw [render_pure s Y b _ (by omega) hpY] at k2
    simp only [List.nil_append, List.append_nil] at k1 k2 ⊢
    have key : ∀ (I RX RZ O : Str), I ++ (RX ++ RZ) ++ O = (I ++ RX) ++ (RZ ++ O) := by
      intros; simp only [List.append_assoc]
    rw [key, k1, k2]
    simp only [List.append_assoc]

theorem C5_remove_keeps_boundary_insertions_witness :
    (∃ ms1 ms2 ms3, (New "abcdef".toList).AppendLeft 2 "x".toList = Except.ok ms1 ∧
        ms1.AppendRight 4 "y".toList = Except.ok ms2 ∧ ms2.Remove 2 4 = Except.ok (ms3, none) ∧
        ms3.String = Except.ok (slice "abcdef".toList 0 2 ++ "x".toList ++ "y".toList ++
          slice "abcdef".toList 4 ("abcdef".toList.length : Int))) ∧
    (∃ ms1 ms2 ms3, (New "abcdef".toList).Remove 2 4 = Except.ok (ms1, none) ∧
        ms1.AppendLeft 2 "x".toList = Except.ok ms2 ∧
        ms2.AppendRight 4 "y".toList = Except.ok ms3 ∧
        ms3.String = Except.ok (slice "abcdef".toList 0 2 ++ "x".toList ++ "y".toList ++
          slice "abcdef".toList 4 ("abcdef".toList.length : Int))) :=
  C5_remove_keeps_boundary_insertions "abcdef".toList 2 4 "x".toList "y".toList
    (by decide) (by decide) (by decide)

theorem Tagged_cut (D : Edit → Prop) (cs : List chunk) (e : Edit)
    (hvalid : e.a < e.b) (ht : ∀ c ∈ cs, Tagged D c) (hd : ∀ f, D f → Apart e f) :
    Cut cs e.a ∧ Cut cs e.b := by
  constructor
  · intro c hc hcon hed
    simp only [chunk.contains, Bool.and_eq_true, decide_eq_true_eq] at hcon
    obtain ⟨_, _, h | h⟩ := ht c hc
    · rw [h.1] at hed; exact absurd hed.1 (by decide)
    · obtain ⟨_, f, hf, h1, h2, _⟩ := h
      rcases hd f hf with h3 | h3 <;> omega
  · intro c hc hcon hed
    simp only [chunk.contains, Bool.and_eq_true, decide_eq_true_eq] at hcon
    obtain ⟨_, _, h | h⟩ := ht c hc
    · rw [h.1] at hed; exact absurd hed.1 (by decide)
    · obtain ⟨_, f, hf, h1, h2, _⟩ := h
      rcases hd f hf with h3 | h3 <;> omega

theorem Tagged_halves (D : Edit → Prop) (index : Int) (c : chunk) (ht : Tagged D c)
    (hcon : c.contains index = true) (hne : ¬ (c.edited = true ∧ 0 < c.content.length)) :
    Tagged D (frontHalf index c) ∧ Tagged D (backHalf index c) := by
  simp only [chunk.contains, Bool.and_eq_true, decide_eq_true_eq] at hcon
  obtain ⟨hi, ho, h | h⟩ := ht
  · obtain ⟨he, hd⟩ := h
    constructor
    · refine ⟨?_, ?_, Or.inl ⟨?_, ?_⟩⟩
      · unfold frontHalf; rw [he]; exact hi
      · unfold frontHalf; rw [he]; rfl
      · unfold frontHalf; rw [he]; rfl
      · intro f hf
        rw [frontHalf_start, frontHalf_end]
        have := hd f hf
        omega
    · refine ⟨?_, ?_, Or.inl ⟨?_, ?_⟩⟩
      · unfold backHalf; rw [he]; rfl
      · unfold backHalf; rw [he]; exact ho
      · unfold backHalf; rw [he]; rfl
      · intro f hf
        rw [backHalf_start, backHalf_end]
        have := hd f hf
        omega
  · obtain ⟨he, f, hf, h1, h2, h3⟩ := h
    have hlen : c.content = [] := by
      cases hcc : c.content with
      | nil => rfl
      | cons x xs => exact absurd ⟨he, by rw [hcc]; simp⟩ hne
    constructor
    · refine ⟨?_, ?_, Or.inr ⟨?_, f, hf, ?_, ?_, ?_⟩⟩
      · unfold frontHalf; rw [he]; exact hi
      · unfold frontHalf; rw [he]; rfl
      · unfold frontHalf; rw [he]; rfl
      · rw [frontHalf_start]; exact h1
      · rw [frontHalf_end]; omega
      · rw [frontHalf_start, ← h3, hlen]
        unfold frontHalf; rw [he]; rfl
    · refine ⟨?_, ?_, Or.inr ⟨?_, f, hf, ?_, ?_, ?_⟩⟩
      · unfold backHalf; rw [he]; rfl
      · unfold backHalf; rw [he]; rfl
      · unfold backHalf; rw [he]; rfl
      · rw [backHalf_start]; omega
      · rw [backHalf_end]; exact h2
      · rw [backHalf_start, if_neg (by omega)]
        unfold backHalf; rw [he]; rfl

theorem Tagged_mono (D D2 : Edit → Prop) (c : chunk) (e : Edit) (hD : ∀ f, D2 f ↔ (D f ∨ f = e))
    (ht : Tagged D c) (hout : e.b ≤ c.start ∨ c.end_ ≤ e.a) : Tagged D2 c := by
  obtain ⟨hi, ho, h | h⟩ := ht
  · refine ⟨hi, ho, Or.inl ⟨h.1, ?_⟩⟩
    intro f hf
    rcases (hD f).1 hf with h2 | h2
    · exact h.2 f h2
    · rw [h2]; exact hout
  · obtain ⟨he, f, hf, h1⟩ := h
    exact ⟨hi, ho, Or.inr ⟨he, f, (hD f).2 (Or.inl hf), h1⟩⟩

/-- One more disjoint edit keeps the invariant, and its call returns nil. -/
theorem edit_step (s : Str) (D D2 : Edit → Prop) (ms : MagicString) (e : Edit)
    (hinv : Inv s D ms) (h0 : 0 ≤ e.a) (hab : e.a < e.b) (hb : e.b ≤ (s.length : Int))
    (hd : ∀ f, D f → Apart e f) (hD : ∀ f, D2 f ↔ (D f ∨ f = e)) :
    ∃ ms1, applyEdit ms e = some ms1 ∧ Inv s D2 ms1 := by
  obtain ⟨cs, g, hi, ho, ht⟩ := hinv
  obtain ⟨hca, hcb⟩ := Tagged_cut D cs e hab ht hd
  obtain ⟨X, R, Y, edec, hX, hR, hY, hRne, hst, hen⟩ :=
    splits_decomp s cs e.a e.b h0 hab hb g.2.1 hca hcb
  have ht2 : ∀ c ∈ asplit e.b (asplit e.a cs), Tagged D c :=
    asplit_forall (Tagged D) e.b (fun c hc => Tagged_halves D e.b c hc) _
      (asplit_forall (Tagged D) e.a (fun c hc => Tagged_halves D e.a c hc) cs ht)
  have hres : ∃ ms1, applyEdit ms e = some ms1 ∧
      Good s ms1 (aedit e.a e.b e.text (asplit e.b (asplit e.a cs))) ∧
      ms1.intro = ms.intro ∧ ms1.outro = ms.outro := by
    cases e with
    | overwrite a b c =>
      obtain ⟨ms1, e1, g1, hi1, ho1⟩ := overwrite_good s ms cs a b c g h0 hab hb hst hen
      exact ⟨ms1, by simp only [applyEdit, e1], g1, hi1, ho1⟩
    | remove a b =>
      obtain ⟨ms1, e1, g1, hi1, ho1⟩ := remove_good s ms cs a b g h0 hab hb hst hen
      exact ⟨ms1, by simp only [applyEdit, e1], g1, hi1, ho1⟩
  obtain ⟨ms1, e1, g1, hi1, ho1⟩ := hres
  refine ⟨ms1, e1, _, g1, hi1.trans hi, ho1.trans ho, ?_⟩
  intro c2 hc2
  unfold aedit at hc2
  obtain ⟨c, hc, rfl⟩ := List.mem_map.1 hc2
  have htc := ht2 c hc
  by_cases hin : e.a ≤ c.start ∧ c.end_ ≤ e.b
  · rw [if_pos hin]
    exact ⟨rfl, rfl, Or.inr ⟨rfl, e, (hD e).2 (Or.inr rfl), hin.1, hin.2, rfl⟩⟩
  · rw [if_neg hin]
    apply Tagged_mono D D2 c e hD htc
    rw [edec] at hc
    rcases List.mem_append.1 hc with hc | hc
    · rcases List.mem_append.1 hc with hc | hc
      · have := Cover_mem s X _ _ hX c hc
        omega
      · have := Cover_mem s R _ _ hR c hc
        omega
    · have := Cover_mem s Y _ _ hY c hc
      omega

theorem spliced_eq (s : Str) (es : List Edit) :
    spliced s es = (List.range' 0 s.length).flatMap (splicedAt s es) := by
  unfold spliced
  rw [List.range_eq_range']
  rfl

theorem flatMap_slices (s : Str) (k : Nat) :
    ∀ a : Nat, (List.range' a k).flatMap (fun j => slice s (j : Int) ((j : Int) + 1)) =
      slice s (a : Int) ((a : Int) + (k : Int)) := by
  induction k with
  | zero =>
    intro a
    simp only [List.range'_zero, List.flatMap_nil, Nat.cast_zero, add_zero, slice_self]
  | succ k ih =>
    intro a
    rw [List.range'_succ, List.flatMap_cons, ih (a + 1)]
    have e1 : ((a + 1 : Nat) : Int) = (a : Int) + 1 := by omega
    have e2 : ((a + 1 : Nat) : Int) + (k : Int) = (a : Int) + ((k + 1 : Nat) : Int) := by omega
    rw [e2, e1]
    exact slice_append s a _ _ (by omega) (by omega) (by omega)

theorem Apart_symm : Symmetric Apart := by
  intro e f h
  unfold Apart at h ⊢
  omega

/-- With disjoint ranges, the edit found at an offset of a range is the edit of
that range. -/
theorem find_covering (es : List Edit) (hpair : es.Pairwise Apart)
    (e : Edit) (he : e ∈ es) (j : Nat)
    (h1 : e.a ≤ (j : Int)) (h2 : (j : Int) < e.b) :
    es.find? (fun e => decide (e.a ≤ (j : Int) ∧ (j : Int) < e.b)) = some e := by
  cases hf : es.find? (fun e => decide (e.a ≤ (j : Int) ∧ (j : Int) < e.b)) with
  | none =>
    rw [List.find?_eq_none] at hf
    exact absurd (by simpa using ⟨h1, h2⟩) (hf e he)
  | some f =>
    have hfm := List.mem_of_find?_eq_some hf
    have hfc := List.find?_some hf
    simp only [decide_eq_true_eq] at hfc
    by_cases hfe : f = e
    · rw [hfe]
    · have := hpair.forall Apart_symm hfm he hfe
      unfold Apart at this
      omega

theorem chunk_render (s : Str) (es : List Edit) (hpair : es.Pairwise Apart)
    (c : chunk) (hs : 0 ≤ c.start) (hlt : c.start < c.end_)
    (ho : c.original = slice s c.start c.end_)
    (hcon : c.edited = false → c.content = c.original)
    (ht : Tagged (fun e => e ∈ es) c) :
    c.String = (List.range' c.start.toNat (c.end_ - c.start).toNat).flatMap (splicedAt s es) := by
  obtain ⟨hi, hou, h | h⟩ := ht
  · obtain ⟨he, hd⟩ := h
    have e1 : (List.range' c.start.toNat (c.end_ - c.start).toNat).flatMap (splicedAt s es) =
        (List.range' c.start.toNat (c.end_ - c.start).toNat).flatMap
          (fun j => slice s (j : Int) ((j : Int) + 1)) := by
      apply List.flatMap_congr
      intro j hj
      rw [List.mem_range'_1] at hj
      unfold splicedAt
      have : es.find? (fun e => decide (e.a ≤ (j : Int) ∧ (j : Int) < e.b)) = none := by
        rw [List.find?_eq_none]
        intro f hf
        have := hd f hf
        simp only [decide_eq_true_eq]
        omega
      rw [this]
    rw [e1, flatMap_slices]
    unfold chunk.String
    rw [hi, hou, hcon he, ho, List.nil_append, List.append_nil]
    congr 1 <;> omega
  · obtain ⟨he, e, hem, h1, h2, h3⟩ := h
    have hF : ∀ j ∈ List.range' c.start.toNat (c.end_ - c.start).toNat,
        splicedAt s es j = if e.a = (j : Int) then e.text else [] := by
      intro j hj
      rw [List.mem_range'_1] at hj
      unfold splicedAt
      rw [find_covering es hpair e hem j (by omega) (by omega)]
    rw [List.flatMap_congr hF]
    unfold chunk.String
    rw [hi, hou, h3, List.nil_append, List.append_nil]
    obtain ⟨k, hk⟩ : ∃ k, (c.end_ - c.start).toNat = k + 1 := ⟨(c.end_ - c.start).toNat - 1, by omega⟩
    rw [hk, List.range'_succ, List.flatMap_cons]
    have hrest : (List.range' (c.start.toNat + 1) k).flatMap
        (fun j => if e.a = (j : Int) then e.text else []) = [] := by
      rw [List.flatMap_eq_nil_iff]
      intro j hj
      rw [List.mem_range'_1] at hj
      rw [if_neg (by omega)]
    rw [hrest, List.append_nil]
    by_cases hst : c.start = e.a
    · rw [if_pos hst, if_pos (by omega)]
    · rw [if_neg hst, if_neg (by omega)]

/-- A tiling by tagged chunks renders as the string of the claim. -/
theorem render_tagged (s : Str) (es : List Edit) (hpair : es.Pairwise Apart)
    (cs : List chunk) (lo hi : Int) (hlo : 0 ≤ lo)
    (hc : Cover s lo hi cs) (ht : ∀ c ∈ cs, Tagged (fun e => e ∈ es) c) :
    render cs = (List.range' lo.toNat (hi - lo).toNat).flatMap (splicedAt s es) := by
  induction cs generalizing lo with
  | nil =>
    have : lo = hi := hc
    rw [this]
    simp [render_nil]
  | cons c rest ih =>
    obtain ⟨c1, c2, c3, c4, c5⟩ := hc
    have hle := Cover_le s _ _ _ c5
    have e : List.range' lo.toNat (hi - lo).toNat =
        List.range' c.start.toNat (c.end_ - c.start).toNat ++
          List.range' c.end_.toNat (hi - c.end_).toNat := by
      have e2 : c.end_.toNat = c.start.toNat + (c.end_ - c.start).toNat := by omega
      rw [e2, List.range'_append_1, c1]
      congr 1
      omega
    rw [e, List.flatMap_append, render_cons,
      ih c.end_ (by omega) c5 (fun x hx => ht x (List.mem_cons_of_mem _ hx)),
      chunk_render s es hpair c (by omega) (by omega) (by rw [c1]; exact c3) c4
        (ht c (List.mem_cons_self _ _))]

theorem Inv_new (s : Str) (hs : 0 < s.length) : Inv s (fun _ => False) (New s) := by
  refine ⟨_, New_good s hs, rfl, rfl, ?_⟩
  intro c hc
  rw [List.mem_singleton.1 hc]
  exact ⟨rfl, rfl, Or.inl ⟨rfl, fun e he => absurd he id⟩⟩

/-- A sequence of disjoint edits: every call returns nil and the invariant holds
at the end for all the edits made. -/
theorem run_inv (s : Str) :
    ∀ (todo : List Edit) (D : Edit → Prop) (ms : MagicString),
      Inv s D ms →
      (∀ e ∈ todo, 0 ≤ e.a ∧ e.a < e.b ∧ e.b ≤ (s.length : Int)) →
      (∀ e ∈ todo, ∀ f, D f → Apart e f) → todo.Pairwise Apart →
      ∃ ms1, runEdits ms todo = some ms1 ∧ Inv s (fun f => D f ∨ f ∈ todo) ms1 := by
  intro todo
  induction todo with
  | nil =>
    intro D ms hinv _ _ _
    refine ⟨ms, rfl, ?_⟩
    have : (fun f => D f ∨ f ∈ ([] : List Edit)) = D := by
      funext f
      simp
    rw [this]
    exact hinv
  | cons e rest ih =>
    intro D ms hinv hvalid hd hpair
    obtain ⟨h0, hab, hb⟩ := hvalid e (List.mem_cons_self _ _)
    rw [List.pairwise_cons] at hpair
    obtain ⟨ms1, e1, hinv1⟩ := edit_step s D (fun f => D f ∨ f = e) ms e hinv h0 hab hb
      (hd e (List.mem_cons_self _ _)) (fun f => Iff.rfl)
    obtain ⟨ms2, e2, hinv2⟩ := ih (fun f => D f ∨ f = e) ms1 hinv1
      (fun x hx => hvalid x (List.mem_cons_of_mem _ hx))
      (by
        intro x hx f hf
        rcases hf with hf | hf
        · exact hd x (List.mem_cons_of_mem _ hx) f hf
        · rw [hf]; exact Apart_symm (hpair.1 x hx))
      hpair.2
    refine ⟨ms2, ?_, ?_⟩
    · simp only [runEdits, e1, e2]
    · have : (fun f => D f ∨ f ∈ e :: rest) = (fun f => (D f ∨ f = e) ∨ f ∈ rest) := by
        funext f
        simp only [List.mem_cons, or_assoc]
      rw [this]
      exact hinv2

/-- C1: for every `s` and every list of `Overwrite(a, b, c)` and `Remove(a, b)`
calls with `0 ≤ a < b ≤ len(s)` and pairwise disjoint ranges, made in the order
of the list on `New(s)`, every call returns a nil error and `String()` is `s`
with each range replaced by its text (nothing for a `Remove`) and every other
character in place; in particular `New(s).String()` is `s`. -/
theorem C1_disjoint_edits_render (s : Str) (es : List Edit)
    (hrange : ∀ e ∈ es, 0 ≤ e.a ∧ e.a < e.b ∧ e.b ≤ (s.length : Int))
    (hdisj : es.Pairwise Apart) :
    (∃ ms, runEdits (New s) es = some ms ∧ ms.String = Except.ok (spliced s es)) ∧
      (New s).String = Except.ok s := by
  have hnew : (New s).String = Except.ok s := by
    simp [MagicString.String, New, walkString, chunk.String, newChunk]
  refine ⟨?_, hnew⟩
  by_cases hs : s.length = 0
  · cases es with
    | nil =>
      refine ⟨New s, rfl, ?_⟩
      rw [hnew]
      have hs2 : s = [] := List.length_eq_zero.1 hs
      rw [hs2]
      rfl
    | cons e rest =>
      have := hrange e (List.mem_cons_self _ _)
      omega
  · have hpos : 0 < s.length := Nat.pos_of_ne_zero hs
    obtain ⟨ms, e1, cs, g, hi, ho, ht⟩ := run_inv s es (fun _ => False) (New s) (Inv_new s hpos)
      hrange (fun e _ f hf => absurd hf id) hdisj
    refine ⟨ms, e1, ?_⟩
    have ht2 : ∀ c ∈ cs, Tagged (fun e => e ∈ es) c := by
      have : (fun f => False ∨ f ∈ es) = (fun e => e ∈ es) := by
        funext f
        simp
      rw [← this]
      exact ht
    rw [Good_String g, hi, ho, List.nil_append, List.append_nil, spliced_eq,
      render_tagged s es hdisj cs 0 _ (le_refl _) g.2.1 ht2]
    simp

theorem C1_disjoint_edits_render_witness :
    ((∃ ms, runEdits (New "0123456789".toList) [Edit.remove 2 5] = some ms ∧
        ms.String = Except.ok (spliced "0123456789".toList [Edit.remove 2 5])) ∧
      (New "0123456789".toList).String = Except.ok "0123456789".toList) ∧
    spliced "0123456789".toList [Edit.remove 2 5] = "0156789".toList :=
  ⟨C1_disjoint_edits_render "0123456789".toList [Edit.remove 2 5]
    (by
      intro e he
      rw [List.mem_singleton.1 he]
      exact ⟨by decide, by decide, by decide⟩)
    (List.pairwise_singleton _ _), by decide⟩

theorem NSeg_cons (h : List chunk) (pc : Nat × chunk) (rest : List (Nat × chunk)) (nxt : Ptr) :
    NSeg h (pc :: rest) nxt ↔ cv h pc.1 = some (pc.2, hd rest nxt) ∧ NSeg h rest nxt := Iff.rfl

theorem NSeg_append (h : List chunk) (A B : List (Nat × chunk)) (nxt : Ptr) :
    NSeg h (A ++ B) nxt ↔ NSeg h A (hd B nxt) ∧ NSeg h B nxt := by
  induction A with
  | nil => simp only [List.nil_append, NSeg, true_and]
  | cons pc rest ih => simp only [List.cons_append, NSeg_cons, ih, hd_append, and_assoc]

theorem cv_some (h : List chunk) (p : Nat) (b : chunk) (n : Ptr) (hc : cv h p = some (b, n)) :
    ∃ c, h[p]? = some c ∧ c.bare = b ∧ c.next = n := by
  unfold cv at hc
  cases hp : h[p]? with
  | none => rw [hp] at hc; cases hc
  | some c =>
    rw [hp] at hc
    simp only [Option.map_some', Option.some.injEq, Prod.mk.injEq] at hc
    exact ⟨c, rfl, hc.1, hc.2⟩

theorem walkString_nseg (h : List chunk) (f : Nat) :
    ∀ (pcs : List (Nat × chunk)), NSeg h pcs none →
      walkString h (pcs.length + f) (hd pcs none) = Except.ok (render (pcs.map Prod.snd)) := by
  intro pcs
  induction pcs with
  | nil =>
    intro _
    rw [hd_nil, walkString_none]
    rfl
  | cons pc rest ih =>
    intro hl
    obtain ⟨hc, hrest⟩ := hl
    obtain ⟨ch, hch, hbare, hnext⟩ := cv_some h pc.1 _ _ hc
    have e1 : (pc :: rest).length + f = (rest.length + f) + 1 := by
      simp only [List.length_cons]; omega
    rw [e1, hd_cons]
    simp only [walkString, hch, hnext]
    rw [ih hrest]
    simp only [List.map_cons, render_cons]
    rw [← hbare, bare_String]

/-- Retargeting the exit of a run: when only the `next` of its last cell
changes, the run is still a chain, now left towards the new exit. -/
theorem NSeg_exit (h h6 : List chunk) (e2 : Ptr) :
    ∀ (P : List (Nat × chunk)) (prv e : Ptr), (P.map Prod.fst).Nodup → LSeg h prv P e →
      (∀ pc ∈ P, cv h6 pc.1 =
        (cv h pc.1).map (fun t => (t.1, if some pc.1 = tl none P then e2 else t.2))) →
      NSeg h6 P e2 := by
  intro P
  induction P with
  | nil => intro _ _ _ _ _; trivial
  | cons pc rest ih =>
    intro prv e hnd hl hcv
    rw [LSeg_cons] at hl
    obtain ⟨⟨ch, hch, hbare, _, hnext⟩, hrest⟩ := hl
    rw [List.map_cons, List.nodup_cons] at hnd
    have hpc := hcv pc (List.mem_cons_self _ _)
    have hcvh : cv h pc.1 = some (pc.2, ch.next) := by
      unfold cv; rw [hch]; simp [hbare]
    rw [hcvh] at hpc
    cases rest with
    | nil =>
      refine ⟨?_, trivial⟩
      rw [hpc]
      simp [tl_cons, tl_nil, hd_nil]
    | cons x rest2 =>
      obtain ⟨q, hq, he⟩ := tl_mem (x :: rest2) (by simp) (some pc.1)
      have hne : ¬ (some pc.1 = tl none (pc :: x :: rest2)) := by
        rw [tl_cons, he]
        intro e3
        exact hnd.1 (by rw [Option.some.inj e3]; exact List.mem_map_of_mem _ hq)
      refine ⟨?_, ?_⟩
      · rw [hpc]
        simp only [Option.map_some', hne, if_false, hnext, hd_cons]
      · apply ih (some pc.1) e hnd.2 hrest
        intro y hy
        rw [hcv y (List.mem_cons_of_mem _ hy), tl_cons,
          tl_of_ne_nil (x :: rest2) (by simp) (some pc.1) none]

theorem tl_none_mem (P : List (Nat × chunk)) (p : Nat) (h : some p = tl none P) :
    p ∈ P.map Prod.fst := by
  cases P with
  | nil => cases h
  | cons x rest =>
    obtain ⟨q, hq, he⟩ := tl_mem (x :: rest) (by simp) none
    rw [he] at h
    rw [Option.some.inj h]
    exact List.mem_map_of_mem _ hq

/-- Swapping two adjacent runs of the list: with the three `next` links at the
ends of the runs redirected, the chain runs through the new order. -/
theorem swap_nseg (h h6 : List chunk) (P1 P2 P3 P4 : List (Nat × chunk))
    (hnd : ((P1 ++ P2 ++ P3 ++ P4).map Prod.fst).Nodup)
    (hl : LSeg h none (P1 ++ P2 ++ P3 ++ P4) none)
    (hcv : ∀ pc ∈ P1 ++ P2 ++ P3 ++ P4, cv h6 pc.1 = (cv h pc.1).map (fun t =>
      (t.1, if some pc.1 = tl none P1 then hd P3 (hd P2 (hd P4 none))
            else if some pc.1 = tl none P3 then hd P2 (hd P4 none)
            else if some pc.1 = tl none P2 then hd P4 none else t.2))) :
    NSeg h6 (P1 ++ P3 ++ P2 ++ P4) none := by
  simp only [List.map_append, List.nodup_append] at hnd
  obtain ⟨⟨⟨n1, n2, d12⟩, n3, d123⟩, n4, d1234⟩ := hnd
  rw [LSeg_append, LSeg_append, LSeg_append] at hl
  obtain ⟨⟨⟨l1, l2⟩, l3⟩, l4⟩ := hl
  rw [NSeg_append, NSeg_append, NSeg_append]
  try rw [hd_append, hd_append]
  have d12p : ∀ x, x ∈ P1.map Prod.fst → x ∉ P2.map Prod.fst := fun x hx hx2 => d12 hx hx2
  have d13 : ∀ x, x ∈ P1.map Prod.fst → x ∉ P3.map Prod.fst :=
    fun x hx hx2 => d123 (List.mem_append_left _ hx) hx2
  have d23 : ∀ x, x ∈ P2.map Prod.fst → x ∉ P3.map Prod.fst :=
    fun x hx hx2 => d123 (List.mem_append_right _ hx) hx2
  have d14 : ∀ x, x ∈ P1.map Prod.fst → x ∉ P4.map Prod.fst :=
    fun x hx hx2 => d1234 (List.mem_append_left _ (List.mem_append_left _ hx)) hx2
  have d24 : ∀ x, x ∈ P2.map Prod.fst → x ∉ P4.map Prod.fst :=
    fun x hx hx2 => d1234 (List.mem_append_left _ (List.mem_append_right _ hx)) hx2
  have d34 : ∀ x, x ∈ P3.map Prod.fst → x ∉ P4.map Prod.fst :=
    fun x hx hx2 => d1234 (List.mem_append_right _ hx) hx2
  refine ⟨⟨⟨?_, ?_⟩, ?_⟩, ?_⟩
  · apply NSeg_exit h h6 _ P1 _ _ n1 l1
    intro pc hpc
    rw [hcv pc (List.mem_append_left _ (List.mem_append_left _ (List.mem_append_left _ hpc)))]
    have hm := List.mem_map_of_mem Prod.fst hpc
    by_cases e1 : some pc.1 = tl none P1
    · simp only [if_pos e1]
    · have e3 : ¬ (some pc.1 = tl none P3) := fun e => d13 _ hm (tl_none_mem P3 _ e)
      have e2 : ¬ (some pc.1 = tl none P2) := fun e => d12p _ hm (tl_none_mem P2 _ e)
      simp only [if_neg e1, if_neg e2, if_neg e3]
  · apply NSeg_exit h h6 _ P3 _ _ n3 l3
    intro pc hpc
    rw [hcv pc (List.mem_append_left _ (List.mem_append_right _ hpc))]
    have hm := List.mem_map_of_mem Prod.fst hpc
    have e1 : ¬ (some pc.1 = tl none P1) := fun e => d13 _ (tl_none_mem P1 _ e) hm
    by_cases e3 : some pc.1 = tl none P3
    · simp only [if_neg e1, if_pos e3]
    · have e2 : ¬ (some pc.1 = tl none P2) := fun e => d23 _ (tl_none_mem P2 _ e) hm
      simp only [if_neg e1, if_neg e2, if_neg e3]
  · apply NSeg_exit h h6 _ P2 _ _ n2 l2
    intro pc hpc
    rw [hcv pc (List.mem_append_left _ (List.mem_append_left _ (List.mem_append_right _ hpc)))]
    have hm := List.mem_map_of_mem Prod.fst hpc
    have e1 : ¬ (some pc.1 = tl none P1) := fun e => d12p _ (tl_none_mem P1 _ e) hm
    have e3 : ¬ (some pc.1 = tl none P3) := fun e => d23 _ hm (tl_none_mem P3 _ e)
    by_cases e2 : some pc.1 = tl none P2
    · simp only [if_neg e1, if_pos e2, if_neg e3]
    · simp only [if_neg e1, if_neg e2, if_neg e3]
  · apply NSeg_exit h h6 _ P4 _ _ n4 l4
    intro pc hpc
    rw [hcv pc (List.mem_append_right _ hpc)]
    have hm := List.mem_map_of_mem Prod.fst hpc
    have e1 : ¬ (some pc.1 = tl none P1) := fun e => d14 _ (tl_none_mem P1 _ e) hm
    have e3 : ¬ (some pc.1 = tl none P3) := fun e => d34 _ (tl_none_mem P3 _ e) hm
    have e2 : ¬ (some pc.1 = tl none P2) := fun e => d24 _ (tl_none_mem P2 _ e) hm
    obtain ⟨ch, hch, _⟩ := LSeg_get _ _ _ _ l4 pc hpc
    by_cases e4 : some pc.1 = tl none P4
    · -- the last cell keeps its nil `next`
      simp only [if_neg e1, if_neg e2, if_neg e3, if_pos e4]
      have hlast : ch.next = none := by
        obtain ⟨A, B, hAB⟩ := List.append_of_mem hpc
        subst hAB
        rw [LSeg_append, LSeg_cons] at l4
        obtain ⟨_, ⟨c2, hc2, _, _, hn2⟩, _⟩ := l4
        rw [hch] at hc2
        cases hc2
        cases B with
        | nil => exact hn2
        | cons y rest =>
          exfalso
          rw [tl_append, tl_cons] at e4
          obtain ⟨q, hq, he⟩ := tl_mem (y :: rest) (by simp) (some pc.1)
          rw [he] at e4
          rw [List.map_append, List.map_cons, List.nodup_append] at n4
          have := n4.2.1
          rw [List.nodup_cons] at this
          exact this.1 (by rw [Option.some.inj e4]; exact List.mem_map_of_mem _ hq)
      unfold cv
      rw [hch]
      simp [hlast]
    · simp only [if_neg e1, if_neg e2, if_neg e3, if_neg e4]

theorem setNext_ok (h : List chunk) (q : Nat) (v : Ptr) (hq : q < h.length) :
    ∃ h2, setNext h q v = Except.ok h2 ∧ h2.length = h.length ∧
      ∀ p, cv h2 p = if p = q then (cv h p).map (fun t => (t.1, v)) else cv h p := by
  obtain ⟨c, hc⟩ : ∃ c, h[q]? = some c := ⟨h[q], List.getElem?_eq_getElem hq⟩
  refine ⟨h.set q { c with next := v }, ?_, by simp, ?_⟩
  · simp only [setNext, hc]
  · intro p
    unfold cv
    by_cases e : p = q
    · subst e
      rw [if_pos rfl, List.getElem?_set_self hq, hc]
      rfl
    · rw [if_neg e, List.getElem?_set_ne (fun e2 => e e2.symm)]

theorem setPrev_ok (h : List chunk) (q : Nat) (v : Ptr) (hq : q < h.length) :
    ∃ h2, setPrev h q v = Except.ok h2 ∧ h2.length = h.length ∧ ∀ p, cv h2 p = cv h p := by
  obtain ⟨c, hc⟩ : ∃ c, h[q]? = some c := ⟨h[q], List.getElem?_eq_getElem hq⟩
  refine ⟨h.set q { c with prev := v }, ?_, by simp, ?_⟩
  · simp only [setPrev, hc]
  · intro p
    unfold cv
    by_cases e : p = q
    · subst e
      rw [List.getElem?_set_self hq, hc]
      rfl
    · rw [List.getElem?_set_ne (fun e2 => e e2.symm)]

theorem setNextOpt_ok (h : List chunk) (o : Ptr) (v : Ptr) (ho : ∀ q, o = some q → q < h.length) :
    ∃ h2, setNextOpt h o v = Except.ok h2 ∧ h2.length = h.length ∧
      ∀ p, cv h2 p = if some p = o then (cv h p).map (fun t => (t.1, v)) else cv h p := by
  cases o with
  | none =>
    refine ⟨h, rfl, rfl, ?_⟩
    intro p
    rw [if_neg (by simp)]
  | some q =>
    obtain ⟨h2, e1, e2, e3⟩ := setNext_ok h q v (ho q rfl)
    refine ⟨h2, e1, e2, ?_⟩
    intro p
    rw [e3 p]
    by_cases e : p = q
    · rw [if_pos e, if_pos (by rw [e])]
    · rw [if_neg e, if_neg (fun e4 => e (Option.some.inj e4))]

theorem setPrevOpt_ok (h : List chunk) (o : Ptr) (v : Ptr) (ho : ∀ q, o = some q → q < h.length) :
    ∃ h2, setPrevOpt h o v = Except.ok h2 ∧ h2.length = h.length ∧ ∀ p, cv h2 p = cv h p := by
  cases o with
  | none => exact ⟨h, rfl, rfl, fun _ => rfl⟩
  | some q => exact setPrev_ok h q v (ho q rfl)

theorem LSeg_last (h : List chunk) (P : List (Nat × chunk)) (prv e : Ptr) (pl : Nat)
    (hl : LSeg h prv P e) (ht : tl none P = some pl) :
    ∃ cl, h[pl]? = some cl ∧ cl.next = e := by
  rcases List.eq_nil_or_concat P with hP | ⟨A, x, hP⟩
  · subst hP; cases ht
  · rw [List.concat_eq_append] at hP
    subst hP
    rw [tl_snoc] at ht
    rw [LSeg_append, LSeg_cons] at hl
    obtain ⟨_, ⟨c, hc, _, _, hn⟩, _⟩ := hl
    rw [← Option.some.inj ht]
    exact ⟨c, hc, hn⟩

theorem hd_lt (h : List chunk) (P : List (Nat × chunk)) (prv e : Ptr) (hl : LSeg h prv P e)
    (q : Nat) (hq : hd P none = some q) : q < h.length := by
  cases P with
  | nil => cases hq
  | cons x rest =>
    rw [hd_cons] at hq
    rw [← Option.some.inj hq]
    exact LSeg_lt h _ prv e hl x (List.mem_cons_self _ _)

theorem tl_lt (h : List chunk) (P : List (Nat × chunk)) (prv e : Ptr) (hl : LSeg h prv P e)
    (q : Nat) (hq : tl none P = some q) : q < h.length := by
  have hm := tl_none_mem P q hq.symm
  obtain ⟨pc, hpc, rfl⟩ := List.mem_map.1 hm
  exact LSeg_lt h _ prv e hl pc hpc

theorem hd_none_mem (P : List (Nat × chunk)) (p : Nat) (h : hd P none = some p) :
    p ∈ P.map Prod.fst := by
  cases P with
  | nil => cases h
  | cons x rest =>
    rw [hd_cons] at h
    rw [← Option.some.inj h]
    simp

theorem hd_of_ne_nil (P : List (Nat × chunk)) (hP : P ≠ []) (a b : Ptr) : hd P a = hd P b := by
  cases P with
  | nil => exact absurd rfl hP
  | cons x rest => rfl

/-- The render of a state in which two adjacent runs of the list were swapped. -/
theorem swap_String (ms : MagicString) (P1 P2 P3 P4 : List (Nat × chunk))
    (r : Rep ms (P1 ++ P2 ++ P3 ++ P4)) (h6 : List chunk) (first last : Ptr)
    (hlen : h6.length = ms.heap.length) (hfirst : first = hd (P1 ++ P3 ++ P2 ++ P4) none)
    (hcv : ∀ pc ∈ P1 ++ P2 ++ P3 ++ P4, cv h6 pc.1 = (cv ms.heap pc.1).map (fun t =>
      (t.1, if some pc.1 = tl none P1 then hd P3 (hd P2 (hd P4 none))
            else if some pc.1 = tl none P3 then hd P2 (hd P4 none)
            else if some pc.1 = tl none P2 then hd P4 none else t.2))) :
    MagicString.String { ms with heap := h6, firstChunk := first, lastChunk := last } =
      Except.ok (ms.intro ++ render ((P1 ++ P3 ++ P2 ++ P4).map Prod.snd) ++ ms.outro) := by
  have hn := swap_nseg ms.heap h6 P1 P2 P3 P4 r.nodup r.lseg hcv
  have hle := r.length_le
  have hl2 : (P1 ++ P3 ++ P2 ++ P4).length = (P1 ++ P2 ++ P3 ++ P4).length := by
    simp only [List.length_append]; omega
  have hw := walkString_nseg h6 (h6.length + 1 - (P1 ++ P3 ++ P2 ++ P4).length) _ hn
  have e : (P1 ++ P3 ++ P2 ++ P4).length + (h6.length + 1 - (P1 ++ P3 ++ P2 ++ P4).length) =
      h6.length + 1 := by omega
  rw [e] at hw
  simp only [MagicString.String, hfirst, hw]

/-- `relink` when the moved run `P3` goes in front of the run `P2` before it. -/
theorem relink_left (ms : MagicString) (P1 P2 P3 P4 : List (Nat × chunk)) (st en i : Int)
    (r : Rep ms (P1 ++ P2 ++ P3 ++ P4)) (h2 : P2 ≠ []) (h3 : P3 ≠ [])
    (hf : ms.byStart st = hd P3 none) (hl : ms.byEnd en = tl none P3)
    (hr : ms.byStart i = hd P2 none) :
    ∃ ms2, ms.relink st en i = Except.ok (ms2, none) ∧
      ms2.String =
        Except.ok (ms.intro ++ render ((P1 ++ P3 ++ P2 ++ P4).map Prod.snd) ++ ms.outro) := by
  have hnd := r.nodup
  simp only [List.map_append, List.nodup_append] at hnd
  obtain ⟨⟨⟨n1, n2, d12⟩, n3, d123⟩, n4, d1234⟩ := hnd
  have hls := r.lseg
  rw [LSeg_append, LSeg_append, LSeg_append] at hls
  obtain ⟨⟨⟨l1, l2⟩, l3⟩, l4⟩ := hls
  obtain ⟨m0, T3, rfl⟩ := List.exists_cons_of_ne_nil h3
  obtain ⟨b0, T2, rfl⟩ := List.exists_cons_of_ne_nil h2
  obtain ⟨xl, hxl, hpl⟩ := tl_mem (m0 :: T3) (by simp) none
  obtain ⟨xq, hxq, hq2⟩ := tl_mem (b0 :: T2) (by simp) none
  -- the cells read
  have l3' := l3
  rw [LSeg_cons] at l3'
  obtain ⟨⟨cf, hcf, _, hcfp, _⟩, _⟩ := l3'
  obtain ⟨cl, hcl, hcln⟩ := LSeg_last _ _ _ _ xl.1 l3 hpl
  have l2' := l2
  rw [LSeg_cons] at l2'
  obtain ⟨⟨cr, hcr, _, hcrp, _⟩, _⟩ := l2'
  have holdLeft : cf.prev = some xq.1 := by
    rw [hcfp, tl_append, tl_of_ne_nil (b0 :: T2) (by simp) _ none, hq2]
  -- distinctness
  have hmq : xq.1 ∈ (b0 :: T2).map Prod.fst := List.mem_map_of_mem _ hxq
  have hml : xl.1 ∈ (m0 :: T3).map Prod.fst := List.mem_map_of_mem _ hxl
  have hql : xq.1 ≠ xl.1 := fun e => d123 (List.mem_append_right _ hmq) (e ▸ hml)
  have h1q : ∀ p, some p = tl none P1 → p ≠ xq.1 ∧ p ≠ xl.1 := by
    intro p hp
    have := tl_none_mem P1 p hp
    exact ⟨fun e => d12 this (e ▸ hmq), fun e => d123 (List.mem_append_left _ this) (e ▸ hml)⟩
  -- lengths
  have hltq : xq.1 < ms.heap.length := LSeg_lt _ _ _ _ l2 xq hxq
  have hltl : xl.1 < ms.heap.length := LSeg_lt _ _ _ _ l3 xl hxl
  have hltf : m0.1 < ms.heap.length := LSeg_lt _ _ _ _ l3 m0 (List.mem_cons_self _ _)
  have hltr : b0.1 < ms.heap.length := LSeg_lt _ _ _ _ l2 b0 (List.mem_cons_self _ _)
  -- the six writes
  obtain ⟨g1, w1, k1, v1⟩ := setNextOpt_ok ms.heap (some xq.1) (hd P4 none)
    (fun q hq => by rw [← Option.some.inj hq]; exact hltq)
  obtain ⟨g2, w2, k2, v2⟩ := setPrevOpt_ok g1 (hd P4 none) (some xq.1)
    (fun q hq => by rw [k1]; exact hd_lt _ _ _ _ l4 q hq)
  obtain ⟨g3, w3, k3, v3⟩ := setPrev_ok g2 m0.1 (tl none P1) (by rw [k2, k1]; exact hltf)
  obtain ⟨g4, w4, k4, v4⟩ := setNextOpt_ok g3 (tl none P1) (some m0.1)
    (fun q hq => by rw [k3, k2, k1]; exact tl_lt _ _ _ _ l1 q hq)
  obtain ⟨g5, w5, k5, v5⟩ := setNext_ok g4 xl.1 (some b0.1) (by rw [k4, k3, k2, k1]; exact hltl)
  obtain ⟨g6, w6, k6, v6⟩ := setPrevOpt_ok g5 (some b0.1) (some xl.1)
    (fun q hq => by rw [k5, k4, k3, k2, k1, ← Option.some.inj hq]; exact hltr)
  refine ⟨{ ms with heap := g6, firstChunk := if tl none P1 = none then some m0.1 else ms.firstChunk,
                    lastChunk := if (some b0.1 : Ptr) = none then some xl.1 else ms.lastChunk },
    ?_, ?_⟩
  · rw [hd_cons] at hf hr
    rw [hpl] at hl
    have hcond : ¬ ((some b0.1 : Ptr) = none ∧ some xl.1 = ms.lastChunk) := by simp
    simp only [MagicString.relink, hf, hl, hr, hcf, hcl, hcond, if_false, newLeftOf, hcr, hcrp,
      holdLeft, hcln, w1, w2, w3, w4, w5, w6]
  · apply swap_String ms P1 (b0 :: T2) (m0 :: T3) P4 r g6
    · rw [k6, k5, k4, k3, k2, k1]
    · rw [hd_append, hd_append, hd_append, hd_cons]
      cases P1 with
      | nil => simp [tl_nil, hd_nil]
      | cons x rest =>
        obtain ⟨y, _, hy⟩ := tl_mem (x :: rest) (by simp) none
        rw [hy, r.first]
        simp [hd_cons]
    · intro pc _
      rw [v6, v5, v4, v3, v2, v1, hpl, hq2, hd_cons, hd_cons]
      by_cases c1 : some pc.1 = tl none P1
      · obtain ⟨a1, a2⟩ := h1q pc.1 c1
        have a3 : ¬ (some pc.1 = some xq.1) := fun e => a1 (Option.some.inj e)
        simp only [if_neg a2, if_pos c1, if_neg a3, Option.map_map]
      · by_cases c3 : pc.1 = xl.1
        · have a3 : ¬ (some pc.1 = some xq.1) := fun e => hql ((Option.some.inj e).symm.trans c3)
          have a4 : some pc.1 = some xl.1 := by rw [c3]
          simp only [if_pos c3, if_neg c1, if_neg a3, if_pos a4, Option.map_map]
        · have a4 : ¬ (some pc.1 = some xl.1) := fun e => c3 (Option.some.inj e)
          by_cases c2 : some pc.1 = some xq.1
          · simp only [if_neg c3, if_neg c1, if_pos c2, if_neg a4, Option.map_map]
          · simp only [if_neg c3, if_neg c1, if_neg c2, if_neg a4]
            cases cv ms.heap pc.1 <;> rfl

/-- `relink` when the moved run `P2` goes behind the run `P3` after it; the run
`P1` before the moved one is not empty. -/
theorem relink_right (ms : MagicString) (P1 P2 P3 P4 : List (Nat × chunk)) (st en i : Int)
    (r : Rep ms (P1 ++ P2 ++ P3 ++ P4)) (h1 : P1 ≠ []) (h2 : P2 ≠ []) (h3 : P3 ≠ [])
    (hf : ms.byStart st = hd P2 none) (hl : ms.byEnd en = tl none P2)
    (hr : ms.byStart i = hd P4 none) :
    ∃ ms2, ms.relink st en i = Except.ok (ms2, none) ∧
      ms2.String =
        Except.ok (ms.intro ++ render ((P1 ++ P3 ++ P2 ++ P4).map Prod.snd) ++ ms.outro) := by
  have hnd := r.nodup
  simp only [List.map_append, List.nodup_append] at hnd
  obtain ⟨⟨⟨n1, n2, d12⟩, n3, d123⟩, n4, d1234⟩ := hnd
  have hls := r.lseg
  rw [LSeg_append, LSeg_append, LSeg_append] at hls
  obtain ⟨⟨⟨l1, l2⟩, l3⟩, l4⟩ := hls
  obtain ⟨m0, T2, rfl⟩ := List.exists_cons_of_ne_nil h2
  obtain ⟨b0, T3, rfl⟩ := List.exists_cons_of_ne_nil h3
  obtain ⟨xl, hxl, hpl⟩ := tl_mem (m0 :: T2) (by simp) none
  obtain ⟨x3, hx3, hq3⟩ := tl_mem (b0 :: T3) (by simp) none
  obtain ⟨x1, hx1, hq1⟩ := tl_mem P1 h1 none
  -- the cells read
  have l2' := l2
  rw [LSeg_cons] at l2'
  obtain ⟨⟨cf, hcf, _, hcfp, _⟩, _⟩ := l2'
  obtain ⟨cl, hcl, hcln⟩ := LSeg_last _ _ _ _ xl.1 l2 hpl
  rw [hd_cons] at hcln
  rw [hq1] at hcfp
  have hlast3 : tl none (P1 ++ m0 :: T2 ++ b0 :: T3) = some x3.1 := by
    rw [tl_append, tl_of_ne_nil (b0 :: T3) (by simp) _ none, hq3]
  -- distinctness
  have hm1 : x1.1 ∈ P1.map Prod.fst := List.mem_map_of_mem _ hx1
  have hml : xl.1 ∈ (m0 :: T2).map Prod.fst := List.mem_map_of_mem _ hxl
  have hm3 : x3.1 ∈ (b0 :: T3).map Prod.fst := List.mem_map_of_mem _ hx3
  have h1l : x1.1 ≠ xl.1 := fun e => d12 hm1 (e ▸ hml)
  have h13 : x1.1 ≠ x3.1 := fun e => d123 (List.mem_append_left _ hm1) (e ▸ hm3)
  have hl3 : xl.1 ≠ x3.1 := fun e => d123 (List.mem_append_right _ hml) (e ▸ hm3)
  -- lengths
  have hlt1 : x1.1 < ms.heap.length := LSeg_lt _ _ _ _ l1 x1 hx1
  have hltl : xl.1 < ms.heap.length := LSeg_lt _ _ _ _ l2 xl hxl
  have hlt3 : x3.1 < ms.heap.length := LSeg_lt _ _ _ _ l3 x3 hx3
  have hltf : m0.1 < ms.heap.length := LSeg_lt _ _ _ _ l2 m0 (List.mem_cons_self _ _)
  have hltb : b0.1 < ms.heap.length := LSeg_lt _ _ _ _ l3 b0 (List.mem_cons_self _ _)
  -- the value of newLeft
  have hnl : newLeftOf ms (hd P4 none) = Except.ok (some x3.1) := by
    cases P4 with
    | nil =>
      rw [hd_nil]
      simp only [newLeftOf]
      rw [r.last, List.append_nil, hlast3]
    | cons c0 T4 =>
      rw [LSeg_cons] at l4
      obtain ⟨⟨cc, hcc, _, hccp, _⟩, _⟩ := l4
      rw [hd_cons]
      simp only [newLeftOf, hcc, hccp, hlast3]
  have hcond : ¬ (hd P4 none = none ∧ some xl.1 = ms.lastChunk) := by
    rintro ⟨e1, e2⟩
    cases P4 with
    | nil =>
      rw [r.last, List.append_nil, hlast3] at e2
      exact hl3 (Option.some.inj e2)
    | cons c0 T4 => rw [hd_cons] at e1; cases e1
  -- the six writes
  obtain ⟨g1, w1, k1, v1⟩ := setNextOpt_ok ms.heap (some x1.1) (some b0.1)
    (fun q hq => by rw [← Option.some.inj hq]; exact hlt1)
  obtain ⟨g2, w2, k2, v2⟩ := setPrevOpt_ok g1 (some b0.1) (some x1.1)
    (fun q hq => by rw [k1, ← Option.some.inj hq]; exact hltb)
  obtain ⟨g3, w3, k3, v3⟩ := setPrev_ok g2 m0.1 (some x3.1) (by rw [k2, k1]; exact hltf)
  obtain ⟨g4, w4, k4, v4⟩ := setNextOpt_ok g3 (some x3.1) (some m0.1)
    (fun q hq => by rw [k3, k2, k1, ← Option.some.inj hq]; exact hlt3)
  obtain ⟨g5, w5, k5, v5⟩ := setNext_ok g4 xl.1 (hd P4 none) (by rw [k4, k3, k2, k1]; exact hltl)
  obtain ⟨g6, w6, k6, v6⟩ := setPrevOpt_ok g5 (hd P4 none) (some xl.1)
    (fun q hq => by rw [k5, k4, k3, k2, k1]; exact hd_lt _ _ _ _ l4 q hq)
  refine ⟨{ ms with heap := g6,
                    firstChunk := if (some x3.1 : Ptr) = none then some m0.1 else ms.firstChunk,
                    lastChunk := if hd P4 none = none then some xl.1 else ms.lastChunk },
    ?_, ?_⟩
  · rw [hd_cons] at hf
    rw [hpl] at hl
    simp only [MagicString.relink, hf, hl, hcf, hcl, hcond, if_false, hnl, hcfp, hcln, w1, w2,
      w3, w4, w5, w6, hr]
  · apply swap_String ms P1 (m0 :: T2) (b0 :: T3) P4 r g6
    · rw [k6, k5, k4, k3, k2, k1]
    · rw [hd_append, hd_append, hd_append, r.first, hd_append, hd_append, hd_append,
        hd_of_ne_nil P1 h1 _ (hd (b0 :: T3) (hd (m0 :: T2) (hd P4 none)))]
      simp
    · intro pc _
      rw [v6, v5, v4, v3, v2, v1, hpl, hq1, hq3, hd_cons, hd_cons]
      by_cases c1 : some pc.1 = some x1.1
      · have e1 : pc.1 = x1.1 := Option.some.inj c1
        have a2 : ¬ pc.1 = xl.1 := fun e => h1l (e1.symm.trans e)
        have a3 : ¬ (some pc.1 = some x3.1) := fun e => h13 (e1.symm.trans (Option.some.inj e))
        simp only [if_neg a2, if_pos c1, if_neg a3, Option.map_map]
      · by_cases c3 : some pc.1 = some x3.1
        · have e3 : pc.1 = x3.1 := Option.some.inj c3
          have a2 : ¬ pc.1 = xl.1 := fun e => hl3 (e.symm.trans e3)
          simp only [if_neg a2, if_neg c1, if_pos c3, Option.map_map]
        · by_cases c2 : pc.1 = xl.1
          · have a4 : some pc.1 = some xl.1 := by rw [c2]
            simp only [if_pos c2, if_neg c1, if_neg c3, if_pos a4, Option.map_map]
          · have a4 : ¬ (some pc.1 = some xl.1) := fun e => c2 (Option.some.inj e)
            simp only [if_neg c2, if_neg c1, if_neg c3, if_neg a4]
            cases cv ms.heap pc.1 <;> rfl

--THEOREMS

theorem findPtr_start_hd (s : Str) (P Q Y : List (Nat × chunk)) (lo k hi : Int)
    (hP : Cover s lo k (P.map Prod.snd)) (hQ : Cover s k hi (Q.map Prod.snd)) (hne : Q ≠ []) :
    findPtr (fun c => decide (c.start = k)) (P ++ Q ++ Y) = hd Q none := by
  rw [List.append_assoc, findPtr_append_of_none]
  · cases Q with
    | nil => exact absurd rfl hne
    | cons q T =>
      obtain ⟨q1, _⟩ := hQ
      have q1 : q.2.start = k := q1
      rw [List.cons_append, findPtr_cons]
      simp [q1, hd]
  · intro pc hpc
    have h := Cover_mem s _ lo k hP pc.2 (List.mem_map_of_mem _ hpc)
    simp only [decide_eq_false_iff_not]
    omega

theorem findPtr_end_tl (s : Str) (P R Y : List (Nat × chunk)) (lo m k : Int)
    (hP : Cover s lo m (P.map Prod.snd)) (hR : Cover s m k (R.map Prod.snd)) (hmk : m < k) :
    findPtr (fun c => decide (c.end_ = k)) (P ++ R ++ Y) = tl none R := by
  rw [List.append_assoc, findPtr_append_of_none]
  · cases R with
    | nil => exact absurd hR (by show ¬ m = k; omega)
    | cons q T => exact findPtr_end_run s k Y T q m none hR
  · intro pc hpc
    have h := Cover_mem s _ lo m hP pc.2 (List.mem_map_of_mem _ hpc)
    simp only [decide_eq_false_iff_not]
    omega

theorem ne_nil_of_cover (s : Str) (lo hi : Int) (cs : List chunk) (h : lo < hi)
    (hc : Cover s lo hi cs) : cs ≠ [] := by
  rintro rfl
  exact absurd hc (by show ¬ lo = hi; omega)

theorem Move_eq (ms : MagicString) (st en i : Int) (h : i < st ∨ en < i) :
    ms.Move st en i =
      (match ms.split st with
      | Except.error f => Except.error f
      | Except.ok ms1 =>
      match ms1.split en with
      | Except.error f => Except.error f
      | Except.ok ms2 =>
      match ms2.split i with
      | Except.error f => Except.error f
      | Except.ok ms3 => ms3.relink st en i) := by
  unfold MagicString.Move
  exact (if_neg (by omega : ¬ (i ≥ st ∧ i ≤ en))).trans rfl

theorem move_left (s : Str) (ms : MagicString) (cs : List chunk) (st en i : Int)
    (g : Good s ms cs) (A B M C : List chunk)
    (hdec : asplit i (asplit en (asplit st cs)) = A ++ B ++ M ++ C)
    (hA : Cover s 0 i A) (hB : Cover s i st B) (hM : Cover s st en M)
    (his : i < st) (hse : st < en) :
    ∃ ms2, ms.Move st en i = Except.ok (ms2, none) ∧
      ms2.String = Except.ok (ms.intro ++ render (A ++ M ++ B ++ C) ++ ms.outro) := by
  obtain ⟨ms1, e1, g1, i1, o1⟩ := split_good s ms cs st g
  obtain ⟨ms2, e2, g2, i2, o2⟩ := split_good s ms1 _ en g1
  obtain ⟨ms3, e3, g3, i3, o3⟩ := split_good s ms2 _ i g2
  rw [Move_eq ms st en i (Or.inl his), e1]
  dsimp only
  rw [e2]
  dsimp only
  rw [e3]
  dsimp only
  obtain ⟨_, _, pcs, r, hpcs⟩ := g3
  rw [hdec] at hpcs
  obtain ⟨P123, P4, rfl, hp123, rfl⟩ := List.map_eq_append_iff.mp hpcs
  obtain ⟨P12, P3, rfl, hp12, rfl⟩ := List.map_eq_append_iff.mp hp123
  obtain ⟨P1, P2, rfl, rfl, rfl⟩ := List.map_eq_append_iff.mp hp12
  have h2 : P2 ≠ [] := by
    intro h; rw [h] at hB; exact ne_nil_of_cover s i st _ his hB rfl
  have h3 : P3 ≠ [] := by
    intro h; rw [h] at hM; exact ne_nil_of_cover s st en _ hse hM rfl
  have hAB : Cover s 0 st ((P1 ++ P2).map Prod.snd) := by
    rw [List.map_append]; exact (Cover_append s _ _ 0 st).mpr ⟨i, hA, hB⟩
  have hf : ms3.byStart st = hd P3 none := by
    rw [r.starts]
    exact findPtr_start_hd s (P1 ++ P2) P3 P4 0 st en hAB hM h3
  have hl : ms3.byEnd en = tl none P3 := by
    rw [r.ends]
    exact findPtr_end_tl s (P1 ++ P2) P3 P4 0 st en hAB hM hse
  have hr : ms3.byStart i = hd P2 none := by
    rw [r.starts, List.append_assoc (P1 ++ P2)]
    exact findPtr_start_hd s P1 P2 (P3 ++ P4) 0 i st hA hB h2
  obtain ⟨ms4, e4, hs4⟩ := relink_left ms3 P1 P2 P3 P4 st en i r h2 h3 hf hl hr
  refine ⟨ms4, e4, ?_⟩
  rw [hs4, i3, i2, i1, o3, o2, o1]
  simp only [List.map_append]

theorem move_right (s : Str) (ms : MagicString) (cs : List chunk) (st en i : Int)
    (g : Good s ms cs) (A M B C : List chunk)
    (hdec : asplit i (asplit en (asplit st cs)) = A ++ M ++ B ++ C)
    (hA : Cover s 0 st A) (hM : Cover s st en M) (hB : Cover s en i B)
    (hC : Cover s i (s.length : Int) C)
    (h0 : 0 < st) (hse : st < en) (hei : en < i) :
    ∃ ms2, ms.Move st en i = Except.ok (ms2, none) ∧
      ms2.String = Except.ok (ms.intro ++ render (A ++ B ++ M ++ C) ++ ms.outro) := by
  obtain ⟨ms1, e1, g1, i1, o1⟩ := split_good s ms cs st g
  obtain ⟨ms2, e2, g2, i2, o2⟩ := split_good s ms1 _ en g1
  obtain ⟨ms3, e3, g3, i3, o3⟩ := split_good s ms2 _ i g2
  rw [Move_eq ms st en i (Or.inr hei), e1]
  dsimp only
  rw [e2]
  dsimp only
  rw [e3]
  dsimp only
  obtain ⟨_, _, pcs, r, hpcs⟩ := g3
  rw [hdec] at hpcs
  obtain ⟨P123, P4, rfl, hp123, rfl⟩ := List.map_eq_append_iff.mp hpcs
  obtain ⟨P12, P3, rfl, hp12, rfl⟩ := List.map_eq_append_iff.mp hp123
  obtain ⟨P1, P2, rfl, rfl, rfl⟩ := List.map_eq_append_iff.mp hp12
  have h1 : P1 ≠ [] := by
    intro h; rw [h] at hA; exact ne_nil_of_cover s 0 st _ h0 hA rfl
  have h2 : P2 ≠ [] := by
    intro h; rw [h] at hM; exact ne_nil_of_cover s st en _ hse hM rfl
  have h3 : P3 ≠ [] := by
    intro h; rw [h] at hB; exact ne_nil_of_cover s en i _ hei hB rfl
  have hAM : Cover s 0 en ((P1 ++ P2).map Prod.snd) := by
    rw [List.map_append]; exact (Cover_append s _ _ 0 en).mpr ⟨st, hA, hM⟩
  have hAMB : Cover s 0 i ((P1 ++ P2 ++ P3).map Prod.snd) := by
    rw [List.map_append]; exact (Cover_append s _ _ 0 i).mpr ⟨en, hAM, hB⟩
  have hf : ms3.byStart st = hd P2 none := by
    rw [r.starts, List.append_assoc (P1 ++ P2)]
    exact findPtr_start_hd s P1 P2 (P3 ++ P4) 0 st en hA hM h2
  have hl : ms3.byEnd en = tl none P2 := by
    rw [r.ends, List.append_assoc (P1 ++ P2)]
    exact findPtr_end_tl s P1 P2 (P3 ++ P4) 0 st en hA hM hse
  have hr : ms3.byStart i = hd P4 none := by
    rw [r.starts]
    by_cases h4 : P4 = []
    · subst h4
      rw [List.append_nil]
      apply findPtr_none
      intro pc hpc
      have h := Cover_mem s _ 0 i hAMB pc.2 (List.mem_map_of_mem _ hpc)
      simp only [decide_eq_false_iff_not]
      omega
    · have h := findPtr_start_hd s (P1 ++ P2 ++ P3) P4 [] 0 i _ hAMB hC h4
      rw [List.append_nil] at h
      exact h
  obtain ⟨ms4, e4, hs4⟩ := relink_right ms3 P1 P2 P3 P4 st en i r h1 h2 h3 hf hl hr
  refine ⟨ms4, e4, ?_⟩
  rw [hs4, i3, i2, i1, o3, o2, o1]
  simp only [List.map_append]

--THEOREMS

theorem splitSeg_appendRight (idx j : Int) (y : Str) (c : chunk) (h : idx ≠ j) :
    splitSeg idx (if c.start = j then c.appendRight y else c) =
      (splitSeg idx c).map (fun c => if c.start = j then c.appendRight y else c) := by
  by_cases hj : c.start = j
  · rw [if_pos hj]
    by_cases hc : c.contains idx = true ∧ ¬ (c.edited = true ∧ 0 < c.content.length)
    · have hc2 : (c.appendRight y).contains idx = true ∧
          ¬ ((c.appendRight y).edited = true ∧ 0 < (c.appendRight y).content.length) := hc
      unfold splitSeg
      rw [if_pos hc, if_pos hc2]
      simp only [List.map_cons, List.map_nil]
      have f1 : (frontHalf idx c).start = j := by
        unfold frontHalf; split <;> exact hj
      have b1 : ¬ (backHalf idx c).start = j := by
        unfold backHalf; split <;> exact h
      rw [if_pos f1, if_neg b1]
      have q1 : frontHalf idx (c.appendRight y) = (frontHalf idx c).appendRight y := by
        unfold frontHalf chunk.appendRight
        cases he : c.edited <;> simp
      have q2 : backHalf idx (c.appendRight y) = backHalf idx c := by
        unfold backHalf chunk.appendRight
        cases he : c.edited <;> simp
      rw [q1, q2]
    · have hc2 : ¬ ((c.appendRight y).contains idx = true ∧
          ¬ ((c.appendRight y).edited = true ∧ 0 < (c.appendRight y).content.length)) := hc
      unfold splitSeg
      rw [if_neg hc, if_neg hc2]
      simp only [List.map_cons, List.map_nil, if_pos hj]
  · rw [if_neg hj]
    unfold splitSeg
    split
    · simp only [List.map_cons, List.map_nil]
      have f1 : ¬ (frontHalf idx c).start = j := by
        unfold frontHalf; split <;> exact hj
      have b1 : ¬ (backHalf idx c).start = j := by
        unfold backHalf; split <;> exact h
      rw [if_neg f1, if_neg b1]
    · simp only [List.map_cons, List.map_nil, if_neg hj]

theorem asplit_aappendRight (idx j : Int) (y : Str) (cs : List chunk) (h : idx ≠ j) :
    asplit idx (aappendRight j y cs) = aappendRight j y (asplit idx cs) := by
  induction cs with
  | nil => rfl
  | cons c rest ih =>
    have e1 : aappendRight j y (c :: rest) =
        [if c.start = j then c.appendRight y else c] ++ aappendRight j y rest := rfl
    have e2 : asplit idx (c :: rest) = splitSeg idx c ++ asplit idx rest := by
      unfold asplit; rw [List.flatMap_cons]
    rw [e1, asplit_append, e2, aappendRight_append, ih]
    congr 1
    have e3 : asplit idx [if c.start = j then c.appendRight y else c] =
        splitSeg idx (if c.start = j then c.appendRight y else c) := by
      unfold asplit; simp
    rw [e3, splitSeg_appendRight idx j y c h]
    rfl

--THEOREMS

theorem move_shape (s : Str) (st en : Int) (x y : Str) (h0 : 0 < st) (hse : st < en)
    (hen : en ≤ (s.length : Int)) :
    ∃ X M Z ms1 ms2, Pure s 0 st X ∧ Cover s st en M ∧ Pure s en (s.length : Int) Z ∧
      render M = y ++ slice s st en ++ x ∧
      (New s).AppendRight st y = Except.ok ms1 ∧ ms1.AppendLeft en x = Except.ok ms2 ∧
      Good s ms2 (X ++ M ++ Z) ∧ ms2.intro = [] ∧ ms2.outro = [] := by
  have hpos : 0 < s.length := by omega
  have g0 := New_good s hpos
  have hp0 := New_pure s hpos
  obtain ⟨X, Y, eXY, hX, hY⟩ := asplit_pure s st _ 0 _ (le_refl _) (by omega) (by omega) hp0
  obtain ⟨M, Z, eMZ, hM, hZ⟩ := asplit_pure s en Y st _ (by omega) (by omega) hen hY
  obtain ⟨ms1, e1, g1, hi1, ho1⟩ := appendRight_good s (New s) _ st y g0
  obtain ⟨ms2, e2, g2, hi2, ho2⟩ := appendLeft_good s ms1 _ en x g1
  have hM1 : Cover s st en (aappendRight st y M) := Cover_aappendRight s st y M st en hM.1
  have hM2 : Cover s st en (aappendLeft en x (aappendRight st y M)) :=
    Cover_aappendLeft s en x _ st en hM1
  have c2a : asplit en (aappendRight st y (asplit st [newChunk 0 (s.length : Int) s])) =
      X ++ (aappendRight st y M ++ Z) := by
    rw [asplit_aappendRight en st y _ (by omega), eXY, asplit_append,
      asplit_outside s en 0 st X hX.1 (Or.inr (by omega)), eMZ, aappendRight_append,
      aappendRight_append, aappendRight_outside s st y X 0 st hX.1 (Or.inl (le_refl _)),
      aappendRight_outside s st y Z en _ hZ.1 (Or.inr (by omega))]
  have c2 : aappendLeft en x
      (asplit en (aappendRight st y (asplit st [newChunk 0 (s.length : Int) s]))) =
      X ++ aappendLeft en x (aappendRight st y M) ++ Z := by
    rw [c2a, aappendLeft_append, aappendLeft_append,
      aappendLeft_outside s en x X 0 st hX.1 (Or.inr hse),
      aappendLeft_outside s en x Z en _ hZ.1 (Or.inl (le_refl _)), List.append_assoc]
  rw [c2] at g2
  obtain ⟨hs1, he1, hne1⟩ := hasStart_of_cover s st en _ hse hM1
  obtain ⟨hs0, _, _⟩ := hasStart_of_cover s st en M hse hM.1
  obtain ⟨hsY, _, _⟩ := hasStart_of_cover s st _ Y (by omega) hY.1
  have k1 := (aappendLeft_last s en x (aappendRight st y M) st hM1 hne1).1
  have k2 := ar_piece s st y M en hM.1 (fun c hc => (hM.2 c hc).2.1)
  rw [hs0, if_pos rfl, List.append_nil, render_pure s M st en (by omega) hM] at k2
  refine ⟨X, _, Z, ms1, ms2, hX, hM2, hZ, ?_, e1, e2, g2, ?_, ?_⟩
  · rw [k1, k2]
  · rw [hi2, hi1, New_intro, c2a, hasEnd_append, hasEnd_append, he1]
    simp
  · rw [ho2, ho1, New_outro, eXY, hasStart_append, hsY]
    simp

/-- C7: on `New(s)`, for `0 < st < en ≤ len(s)` and `0 ≤ i ≤ len(s)` with `i < st`
or `i > en`, after `AppendRight(st, y)` and `AppendLeft(en, x)` the call
`Move(st, en, i)` returns without error and the render is
`s[:i] + y + s[st:en] + x + s[i:st] + s[en:]` when `i < st`, and
`s[:st] + s[en:i] + y + s[st:en] + x + s[i:]` when `i > en`. -/
theorem C7_insertions_move_with_range (s : Str) (st en i : Int) (x y : Str)
    (h0 : 0 < st) (hse : st < en) (hen : en ≤ (s.length : Int)) (hi0 : 0 ≤ i)
    (hil : i ≤ (s.length : Int)) (hout : i < st ∨ en < i) :
    ∃ ms1 ms2 ms3, (New s).AppendRight st y = Except.ok ms1 ∧
      ms1.AppendLeft en x = Except.ok ms2 ∧ ms2.Move st en i = Except.ok (ms3, none) ∧
      (i < st → ms3.String = Except.ok (slice s 0 i ++ y ++ slice s st en ++ x ++
        slice s i st ++ slice s en (s.length : Int))) ∧
      (en < i → ms3.String = Except.ok (slice s 0 st ++ slice s en i ++ y ++ slice s st en ++ x ++
        slice s i (s.length : Int))) := by
  obtain ⟨X, M, Z, ms1, ms2, hX, hM, hZ, rM, e1, e2, g2, hin, hou⟩ :=
    move_shape s st en x y h0 hse hen
  have hMZ : Cover s st (s.length : Int) (M ++ Z) := by
    rw [Cover_append]; exact ⟨en, hM, hZ.1⟩
  have hXM : Cover s 0 en (X ++ M) := by
    rw [Cover_append]; exact ⟨st, hX.1, hM⟩
  have c3 : asplit en (asplit st (X ++ M ++ Z)) = X ++ M ++ Z := by
    rw [List.append_assoc, asplit_boundary s st X (M ++ Z) 0 _ hX.1 hMZ, ← List.append_assoc,
      asplit_boundary s en (X ++ M) Z 0 _ hXM hZ.1]
  rcases hout with his | hei
  · obtain ⟨A, B, eAB, hA, hB⟩ := asplit_pure s i X 0 st (le_refl _) hi0 (by omega) hX
    have hdec : asplit i (asplit en (asplit st (X ++ M ++ Z))) = A ++ B ++ M ++ Z := by
      rw [c3, asplit_append, asplit_append, eAB,
        asplit_outside s i st en M hM (Or.inl (by omega)),
        asplit_outside s i en _ Z hZ.1 (Or.inl (by omega))]
    obtain ⟨ms3, e3, hs3⟩ := move_left s ms2 _ st en i g2 A B M Z hdec hA.1 hB.1 hM his hse
    refine ⟨ms1, ms2, ms3, e1, e2, e3, fun _ => ?_, fun h => absurd h (by omega)⟩
    rw [hs3, hin, hou, render_append, render_append, render_append, rM,
      render_pure s A 0 i (le_refl _) hA, render_pure s B i st hi0 hB,
      render_pure s Z en _ (by omega) hZ]
    simp only [List.nil_append, List.append_nil, List.append_assoc]
  · obtain ⟨B, C, eBC, hB, hC⟩ := asplit_pure s i Z en _ (by omega) (by omega) hil hZ
    have hdec : asplit i (asplit en (asplit st (X ++ M ++ Z))) = X ++ M ++ B ++ C := by
      rw [c3, asplit_append, asplit_append, eBC,
        asplit_outside s i 0 st X hX.1 (Or.inr (by omega)),
        asplit_outside s i st en M hM (Or.inr (by omega))]
      simp only [List.append_assoc]
    obtain ⟨ms3, e3, hs3⟩ :=
      move_right s ms2 _ st en i g2 X M B C hdec hX.1 hM hB.1 hC.1 h0 hse hei
    refine ⟨ms1, ms2, ms3, e1, e2, e3, fun h => absurd h (by omega), fun _ => ?_⟩
    rw [hs3, hin, hou, render_append, render_append, render_append, rM,
      render_pure s X 0 st (le_refl _) hX, render_pure s B en i (by omega) hB,
      render_pure s C i _ hi0 hC]
    simp only [List.nil_append, List.append_nil, List.append_assoc]

theorem C7_insertions_move_with_range_witness :
    ∃ ms1 ms2 ms3, (New "abcdef".toList).AppendRight 2 "y".toList = Except.ok ms1 ∧
      ms1.AppendLeft 4 "x".toList = Except.ok ms2 ∧ ms2.Move 2 4 5 = Except.ok (ms3, none) ∧
      ((5 : Int) < 2 → ms3.String = Except.ok (slice "abcdef".toList 0 5 ++ "y".toList ++
        slice "abcdef".toList 2 4 ++ "x".toList ++ slice "abcdef".toList 5 2 ++
        slice "abcdef".toList 4 ("abcdef".toList.length : Int))) ∧
      ((4 : Int) < 5 → ms3.String = Except.ok (slice "abcdef".toList 0 2 ++
        slice "abcdef".toList 4 5 ++ "y".toList ++ slice "abcdef".toList 2 4 ++ "x".toList ++
        slice "abcdef".toList 5 ("abcdef".toList.length : Int))) :=
  C7_insertions_move_with_range "abcdef".toList 2 4 5 "x".toList "y".toList
    (by decide) (by decide) (by decide) (by decide) (by decide) (Or.inr (by decide))

--THEOREMS

theorem relink_no_error (ms : MagicString) (st en i : Int) (ms2 : MagicString) (e : Err) :
    ms.relink st en i ≠ Except.ok (ms2, some e) := by
  intro h
  unfold MagicString.relink at h
  split at h
  · cases h
  · cases h
  · split at h
    · cases h
    · cases h
    · dsimp only at h
      repeat' split at h
      all_goals cases h

theorem Move_no_error (ms : MagicString) (st en i : Int) (ms2 : MagicString) (e : Err)
    (h : ms.Move st en i = Except.ok (ms2, some e)) : (st ≤ i ∧ i ≤ en) ∧ ms2 = ms := by
  unfold MagicString.Move at h
  by_cases hc : i ≥ st ∧ i ≤ en
  · rw [if_pos hc] at h
    cases h
    exact ⟨⟨hc.1, hc.2⟩, rfl⟩
  · rw [if_neg hc] at h
    exfalso
    cases h1 : ms.split st with
    | error f => rw [h1] at h; cases h
    | ok ms1 =>
      rw [h1] at h
      dsimp only at h
      cases h2 : ms1.split en with
      | error f => rw [h2] at h; cases h
      | ok ms3 =>
        rw [h2] at h
        dsimp only at h
        cases h3 : ms3.split i with
        | error f => rw [h3] at h; cases h
        | ok ms4 =>
          rw [h3] at h
          exact relink_no_error ms4 st en i ms2 e h

/-- C11: for every state and all `start ≤ index ≤ end_`, `Move(start, end_, index)`
returns the error "cannot move a selection inside itself" and the state after the
call is the state before it; and whenever `Move` returns an error,
`start ≤ index ≤ end_` holds. -/
theorem C11_move_inside_error (ms : MagicString) (start end_ index : Int) :
    (start ≤ index ∧ index ≤ end_ →
        ms.Move start end_ index = Except.ok (ms, some Err.moveInside)) ∧
      (∀ ms2 e, ms.Move start end_ index = Except.ok (ms2, some e) →
        start ≤ index ∧ index ≤ end_) := by
  constructor
  · intro h
    unfold MagicString.Move
    rw [if_pos ⟨h.1, h.2⟩]
  · intro ms2 e h
    exact (Move_no_error ms start end_ index ms2 e h).1

theorem C11_move_inside_error_witness :
    (New "abcdef".toList).Move 1 3 3 = Except.ok (New "abcdef".toList, some Err.moveInside) :=
  (C11_move_inside_error (New "abcdef".toList) 1 3 3).1 ⟨by decide, by decide⟩

--THEOREMS

/-- C14 (an inverted range is not rejected): on `New("abcdef")` the call
`Overwrite(6, 3, "x")` returns the receiver and a nil error and `String()` is then
`"abc"`, while `Overwrite(6, 0, "x")` and `Overwrite(4, 2, "x")` abort on a nil
pointer; `Remove` rejects the same ranges with "end must be greater than start". -/
theorem C14_inverted_overwrite_not_rejected :
    (∃ ms1, (New "abcdef".toList).Overwrite 6 3 "x".toList = Except.ok (ms1, true, none) ∧
        ms1.String = Except.ok "abc".toList) ∧
      (New "abcdef".toList).Overwrite 6 0 "x".toList = Except.error Fault.panic ∧
      (New "abcdef".toList).Overwrite 4 2 "x".toList = Except.error Fault.panic ∧
      (New "abcdef".toList).Remove 6 3 =
        Except.ok (New "abcdef".toList, some Err.endBeforeStart) :=
  ⟨⟨_, rfl, rfl⟩, rfl, rfl, rfl⟩

/-- C16 (the outro of an edited chunk is lost by a split): on `New("abcdef")` after
`Remove(1, 3)` and `AppendLeft(3, "x")` the render is `"axdef"`; the split at offset
2 that `AppendLeft(2, "")` then makes cuts the edited chunk `[1, 3)`, whose outro is
`"x"`, and the render becomes `"adef"`.  On that chunk alone, `chunk.split(2)`
returns a second chunk whose outro is empty. -/
theorem C16_split_of_edited_chunk_drops_outro :
    (∃ ms1 ms2 ms3, (New "abcdef".toList).Remove 1 3 = Except.ok (ms1, none) ∧
        ms1.AppendLeft 3 "x".toList = Except.ok ms2 ∧
        ms2.String = Except.ok "axdef".toList ∧
        ms2.AppendLeft 2 [] = Except.ok ms3 ∧
        ms3.String = Except.ok "adef".toList) ∧
      (∃ h, chunk.split [((newChunk 1 3 "bc".toList).edit []).appendLeft "x".toList] 0 2 =
          Except.ok (h, 1) ∧
        h.map (fun c => (c.start, c.end_, c.outro)) = [(1, 2, []), (2, 3, [])]) :=
  ⟨⟨_, _, _, rfl, rfl, rfl, rfl, rfl⟩, ⟨_, rfl, rfl⟩⟩

/-- C18 (an end of the list goes stale): on `New("abcdef")`, after `Move(0, 2, 4)`
the chunk `firstChunk` points to has a predecessor and `String()` is `"abef"`;
after `Move(4, 6, 0)` the chunk `lastChunk` points to has a successor. -/
theorem C18_move_leaves_stale_ends :
    (∃ ms1 c, (New "abcdef".toList).Move 0 2 4 = Except.ok (ms1, none) ∧
        deref ms1.heap ms1.firstChunk = Except.ok c ∧ c.prev = some 1 ∧
        ms1.String = Except.ok "abef".toList) ∧
      (∃ ms1 c, (New "abcdef".toList).Move 4 6 0 = Except.ok (ms1, none) ∧
        deref ms1.heap ms1.lastChunk = Except.ok c ∧ c.next = some 0) :=
  ⟨⟨_, _, rfl, rfl, rfl, rfl⟩, ⟨_, _, rfl, rfl, rfl⟩⟩

/-- C19 (an insertion inside an overwritten range goes to a global buffer): on
`New("abcdef")` after `Overwrite(1, 4, "XY")`, the call `AppendLeft(2, "!")` puts
`"!"` in the global intro and the render is `"!aXYef"`, and `AppendRight(2, "!")`
puts it in the global outro and the render is `"aXYef!"`. -/
theorem C19_insertion_inside_overwrite_goes_global :
    ∃ ms1 ms2 ms3, (New "abcdef".toList).Overwrite 1 4 "XY".toList =
        Except.ok (ms1, true, none) ∧
      ms1.AppendLeft 2 "!".toList = Except.ok ms2 ∧ ms2.intro = "!".toList ∧
      ms2.String = Except.ok "!aXYef".toList ∧
      ms1.AppendRight 2 "!".toList = Except.ok ms3 ∧ ms3.outro = "!".toList ∧
      ms3.String = Except.ok "aXYef!".toList :=
  ⟨_, _, _, rfl, rfl, rfl, rfl, rfl, rfl, rfl⟩

theorem addLen_zero_diverges (fuel : Nat) (v : Int) (hv : v < 0) :
    addLen 0 fuel v = Except.error Fault.diverge := by
  induction fuel with
  | zero => unfold addLen; rw [if_pos hv]
  | succ n ih => unfold addLen; rw [if_pos hv, Int.add_zero]; exact ih

theorem splitWalk_empty_diverges (index : Int) (fuel : Nat) :
    MagicString.splitWalk (New []) index true fuel (some 0) = Except.error Fault.diverge := by
  induction fuel with
  | zero => rfl
  | succ n ih =>
    unfold MagicString.splitWalk
    have hd : deref (New []).heap (some 0) = Except.ok (newChunk 0 0 []) := rfl
    rw [hd]
    dsimp only
    have hc : (newChunk 0 0 []).contains index = false := by
      unfold chunk.contains newChunk
      simp only [Bool.and_eq_false_imp, decide_eq_true_eq, decide_eq_false_iff_not]
      intro h; omega
    rw [hc]
    exact ih

/-- C20 (the loops do not end on the empty string): on `New("")` the loop
`for start < 0 { start += len(ms.original) }` makes no progress, whatever the
number of rounds, so `Remove(-1, 0)` and `Overwrite(-1, 0, "x")` do not return;
and the walk of `split(5)` goes from the only chunk, `[0, 0)`, to `byStart[0]`,
the same chunk, whatever the number of rounds, so `Overwrite(5, 0, "x")` does not
return. -/
theorem C20_empty_original_never_returns :
    (∀ fuel, addLen (((New []).original.length : Nat) : Int) fuel (-1) =
        Except.error Fault.diverge) ∧
      (New []).Remove (-1) 0 = Except.error Fault.diverge ∧
      (New []).Overwrite (-1) 0 "x".toList = Except.error Fault.diverge ∧
      (∀ fuel, MagicString.splitWalk (New []) 5 true fuel (New []).lastSearchedChunk =
        Except.error Fault.diverge) ∧
      (New []).Overwrite 5 0 "x".toList = Except.error Fault.diverge :=
  ⟨fun fuel => addLen_zero_diverges fuel (-1) (by decide), rfl, rfl,
    fun fuel => splitWalk_empty_diverges 5 fuel, rfl⟩

/-- C13 (a failed `Overwrite` has split the list): on `New("abcdef")` after
`Move(2, 4, 6)`, the call `Overwrite(1, 4, "x")` returns "cannot overwrite across a
split chunk", and the state it leaves has a fourth chunk and the boundary 1 in
`byStart`, which the state before the call did not have. -/
theorem C13_failed_overwrite_has_split :
    ∃ ms1 ms2, (New "abcdef".toList).Move 2 4 6 = Except.ok (ms1, none) ∧
      ms1.Overwrite 1 4 "x".toList = Except.ok (ms2, false, some Err.acrossSplit) ∧
      ms1.byStart 1 = none ∧ ms2.byStart 1 = some 3 ∧
      ms1.heap.length = 3 ∧ ms2.heap.length = 4 :=
  ⟨_, _, rfl, rfl, rfl, rfl, rfl, rfl⟩

--THEOREMS

theorem Remove_error_state (ms : MagicString) (a b : Int) (ms2 : MagicString) (e : Err)
    (h : ms.Remove a b = Except.ok (ms2, some e)) : ms2 = ms := by
  unfold MagicString.Remove at h
  cases h1 : resolve ms a with
  | error f => rw [h1] at h; cases h
  | ok a2 =>
    rw [h1] at h
    dsimp only at h
    cases h2 : resolve ms b with
    | error f => rw [h2] at h; cases h
    | ok b2 =>
      rw [h2] at h
      dsimp only at h
      split at h
      · cases h
      · split at h
        · cases h; rfl
        · split at h
          · cases h; rfl
          · exfalso
            cases h3 : ms.split a2 with
            | error f => rw [h3] at h; cases h
            | ok ms1 =>
              rw [h3] at h
              dsimp only at h
              cases h4 : ms1.split b2 with
              | error f => rw [h4] at h; cases h
              | ok ms3 =>
                rw [h4] at h
                dsimp only at h
                split at h <;> cases h

theorem Overwrite_error_state (ms : MagicString) (a b : Int) (c : Str) (ms2 : MagicString)
    (r : Bool) (e : Err) (h : ms.Overwrite a b c = Except.ok (ms2, r, some e)) :
    (e ≠ Err.acrossSplit → ms2 = ms) ∧
      (e = Err.acrossSplit → ∃ a2 b2 ms1, resolve ms a = Except.ok a2 ∧
        resolve ms b = Except.ok b2 ∧ ms.split a2 = Except.ok ms1 ∧
        ms1.split b2 = Except.ok ms2) := by
  unfold MagicString.Overwrite at h
  cases h1 : resolve ms a with
  | error f => rw [h1] at h; cases h
  | ok a2 =>
    rw [h1] at h
    dsimp only at h
    cases h2 : resolve ms b with
    | error f => rw [h2] at h; cases h
    | ok b2 =>
      rw [h2] at h
      dsimp only at h
      split at h
      · cases h
        exact ⟨fun _ => rfl, fun h => by cases h⟩
      · split at h
        · cases h
          exact ⟨fun _ => rfl, fun h => by cases h⟩
        · cases h3 : ms.split a2 with
          | error f => rw [h3] at h; cases h
          | ok ms1 =>
            rw [h3] at h
            dsimp only at h
            cases h4 : ms1.split b2 with
            | error f => rw [h4] at h; cases h
            | ok ms3 =>
              rw [h4] at h
              dsimp only at h
              split at h
              · split at h
                · cases h
                · split at h
                  · cases h
                    exact ⟨fun h => absurd rfl h, fun _ => ⟨a2, b2, ms1, rfl, rfl, h3, h4⟩⟩
                  · exfalso
                    repeat' split at h
                    all_goals cases h
              · exfalso
                repeat' split at h
                all_goals cases h

/-- C13, as the code has it: for every state, a call of `Remove` or `Move` that
returns an error leaves the state as it was, and so does a call of `Overwrite`
that returns "end is out of bounds" or "cannot overwrite a zero-length range";
a call of `Overwrite` that returns "cannot overwrite across a split chunk" leaves
the state that `split(start)` and `split(end)` make of the state before it. -/
theorem C13_failed_call_state (ms : MagicString) :
    (∀ a b ms2 e, ms.Remove a b = Except.ok (ms2, some e) → ms2 = ms) ∧
      (∀ st en i ms2 e, ms.Move st en i = Except.ok (ms2, some e) → ms2 = ms) ∧
      (∀ a b c ms2 r e, ms.Overwrite a b c = Except.ok (ms2, r, some e) →
        (e ≠ Err.acrossSplit → ms2 = ms) ∧
        (e = Err.acrossSplit → ∃ a2 b2 ms1, resolve ms a = Except.ok a2 ∧
          resolve ms b = Except.ok b2 ∧ ms.split a2 = Except.ok ms1 ∧
          ms1.split b2 = Except.ok ms2)) :=
  ⟨fun a b ms2 e h => Remove_error_state ms a b ms2 e h,
    fun st en i ms2 e h => (Move_no_error ms st en i ms2 e h).2,
    fun a b c ms2 r e h => Overwrite_error_state ms a b c ms2 r e h⟩

theorem C13_failed_call_state_witness :
    (New "abcdef".toList).Overwrite 2 9 "x".toList =
        Except.ok (New "abcdef".toList, false, some Err.endOutOfBounds) ∧
      New "abcdef".toList = New "abcdef".toList :=
  ⟨rfl, ((C13_failed_call_state (New "abcdef".toList)).2.2 2 9 "x".toList
    (New "abcdef".toList) false Err.endOutOfBounds rfl).1 (by decide)⟩

--THEOREMS

theorem Cut_aedit_blank (a b index : Int) (cs : List chunk) (hp : ∀ c ∈ cs, Plain c) :
    Cut (aedit a b [] cs) index := by
  apply Cut_of_forall
  intro c hc
  unfold aedit at hc
  rw [List.mem_map] at hc
  obtain ⟨c0, hc0, rfl⟩ := hc
  split
  · rintro ⟨_, h⟩
    simp [chunk.edit] at h
  · exact Plain_not_edit c0 (hp c0 hc0)

/-- C12 (a repeated or overlapping removal is not reported): on `New(s)`, for
`0 ≤ a < b ≤ len(s)`, after `Remove(a, b)` a second `Remove(a, b)` returns nil, and
so does `Remove(a2, b2)` for every `a < a2 < b < b2 ≤ len(s)`. -/
theorem C12_repeated_remove_returns_nil (s : Str) (a b : Int) (ha : 0 ≤ a) (hab : a < b)
    (hb : b ≤ (s.length : Int)) :
    ∃ ms1, (New s).Remove a b = Except.ok (ms1, none) ∧
      (∃ ms2, ms1.Remove a b = Except.ok (ms2, none)) ∧
      (∀ a2 b2, a < a2 → a2 < b → b < b2 → b2 ≤ (s.length : Int) →
        ∃ ms2, ms1.Remove a2 b2 = Except.ok (ms2, none)) := by
  have hpos : 0 < s.length := by omega
  have g0 := New_good s hpos
  have hp0 := New_pure s hpos
  obtain ⟨X, R, Y, e, hX, hR, hY, hRne, hst, hen⟩ := splits_decomp s _ a b ha hab hb hp0.1
    (Cut_of_pure s _ _ _ a hp0) (Cut_of_pure s _ _ _ b hp0)
  have hpl := asplit_plain b _ (asplit_plain a _ hp0.2)
  obtain ⟨ms1, e1, g1, _, _⟩ := remove_good s (New s) _ a b g0 ha hab hb hst hen
  have hcut : ∀ k, Cut (aedit a b [] (asplit b (asplit a [newChunk 0 (s.length : Int) s]))) k :=
    fun k => Cut_aedit_blank a b k _ hpl
  refine ⟨ms1, e1, ?_, ?_⟩
  · obtain ⟨_, _, _, _, _, _, _, _, hs2, he2⟩ :=
      splits_decomp s _ a b ha hab hb g1.2.1 (hcut a) (hcut b)
    obtain ⟨ms2, e2, _⟩ := remove_good s ms1 _ a b g1 ha hab hb hs2 he2
    exact ⟨ms2, e2⟩
  · intro a2 b2 h1 h2 h3 h4
    obtain ⟨_, _, _, _, _, _, _, _, hs2, he2⟩ :=
      splits_decomp s _ a2 b2 (by omega) (by omega) h4 g1.2.1 (hcut a2) (hcut b2)
    obtain ⟨ms2, e2, _⟩ := remove_good s ms1 _ a2 b2 g1 (by omega) (by omega) h4 hs2 he2
    exact ⟨ms2, e2⟩

theorem C12_repeated_remove_returns_nil_witness :
    ∃ ms1, (New "abcdef".toList).Remove 1 3 = Except.ok (ms1, none) ∧
      (∃ ms2, ms1.Remove 1 3 = Except.ok (ms2, none)) ∧
      (∀ a2 b2, (1 : Int) < a2 → a2 < 3 → 3 < b2 → b2 ≤ ("abcdef".toList.length : Int) →
        ∃ ms2, ms1.Remove a2 b2 = Except.ok (ms2, none)) :=
  C12_repeated_remove_returns_nil "abcdef".toList 1 3 (by decide) (by decide) (by decide)

--THEOREMS

theorem resolve_wrap (ms : MagicString) (v : Int) (h1 : -(ms.original.length : Int) ≤ v) :
    resolve ms v = Except.ok (if v < 0 then v + (ms.original.length : Int) else v) := by
  by_cases hv : v < 0
  · rw [if_pos hv]
    unfold resolve
    obtain ⟨k, hk⟩ : ∃ k, (-v).toNat = k + 1 := ⟨(-v).toNat - 1, by omega⟩
    rw [hk]
    unfold addLen
    rw [if_pos hv]
    exact addLen_nonneg _ _ _ (by omega)
  · rw [if_neg hv]
    exact resolve_nonneg ms v (by omega)

theorem resolve_idem (ms : MagicString) (v : Int) (h1 : -(ms.original.length : Int) ≤ v) :
    resolve ms v = resolve ms (if v < 0 then v + (ms.original.length : Int) else v) := by
  rw [resolve_wrap ms v h1]
  symm
  apply resolve_nonneg
  split <;> omega

theorem remove_render (s : Str) (a b : Int) (ha : 0 ≤ a) (hab : a < b)
    (hb : b ≤ (s.length : Int)) :
    ∃ ms2, (New s).Remove a b = Except.ok (ms2, none) ∧
      ms2.String = Except.ok (slice s 0 a ++ slice s b (s.length : Int)) := by
  have hpos : 0 < s.length := by omega
  have g0 := New_good s hpos
  have hp0 := New_pure s hpos
  obtain ⟨X, R, Y, e, hX, hR, hY, hRne, hst, hen⟩ := splits_decomp s _ a b ha hab hb hp0.1
    (Cut_of_pure s _ _ _ a hp0) (Cut_of_pure s _ _ _ b hp0)
  have hpl := asplit_plain b _ (asplit_plain a _ hp0.2)
  rw [e] at hpl
  have hpX : Pure s 0 a X :=
    ⟨hX, fun c hc => hpl c (List.mem_append_left _ (List.mem_append_left _ hc))⟩
  have hpY : Pure s b (s.length : Int) Y :=
    ⟨hY, fun c hc => hpl c (List.mem_append_right _ hc)⟩
  obtain ⟨ms1, e1, g1, hi1, ho1⟩ := remove_good s (New s) _ a b g0 ha hab hb hst hen
  refine ⟨ms1, e1, ?_⟩
  rw [Good_String g1, hi1, ho1, New_intro, New_outro, e, aedit_append, aedit_append,
    aedit_outside s a b [] X 0 a hX (Or.inl (le_refl _)),
    aedit_outside s a b [] Y b _ hY (Or.inr (le_refl _)), render_append, render_append,
    aedit_run s a b [] R hR hRne, render_pure s X 0 a (le_refl _) hpX,
    render_pure s Y b _ (by omega) hpY]
  simp only [List.nil_append, List.append_nil]

/-- C15: for every state over a non-empty original of length `n` and all `start`,
`end_` not below `-n`, `Overwrite(start, end_, content)` and `Remove(start, end_)`
are the same calls as with each negative offset `v` replaced by `v + n`: same
state, same returned values, or the same abort.  On `New(s)` with
`1 ≤ j < k ≤ n`, `Remove(-k, -j)` returns nil and the render is
`s[:n-k] + s[n-j:]`. -/
theorem C15_negative_offsets_wrap :
    (∀ (ms : MagicString) (start end_ : Int) (content : Str),
        0 < ms.original.length → -(ms.original.length : Int) ≤ start →
        -(ms.original.length : Int) ≤ end_ →
        ms.Overwrite start end_ content =
          ms.Overwrite (if start < 0 then start + (ms.original.length : Int) else start)
            (if end_ < 0 then end_ + (ms.original.length : Int) else end_) content ∧
        ms.Remove start end_ =
          ms.Remove (if start < 0 then start + (ms.original.length : Int) else start)
            (if end_ < 0 then end_ + (ms.original.length : Int) else end_)) ∧
      (∀ (s : Str) (j k : Int), 1 ≤ j → j < k → k ≤ (s.length : Int) →
        ∃ ms2, (New s).Remove (-k) (-j) = Except.ok (ms2, none) ∧
          ms2.String = Except.ok (slice s 0 ((s.length : Int) - k) ++
            slice s ((s.length : Int) - j) (s.length : Int))) := by
  constructor
  · intro ms start end_ content _ hs he
    constructor
    · unfold MagicString.Overwrite
      rw [← resolve_idem ms start hs, ← resolve_idem ms end_ he]
    · unfold MagicString.Remove
      rw [← resolve_idem ms start hs, ← resolve_idem ms end_ he]
  · intro s j k hj hjk hk
    have h1 : (New s).Remove (-k) (-j) =
        (New s).Remove ((s.length : Int) - k) ((s.length : Int) - j) := by
      have hn : (New s).original = s := rfl
      unfold MagicString.Remove
      rw [resolve_wrap (New s) (-k) (by rw [hn]; omega),
        resolve_wrap (New s) (-j) (by rw [hn]; omega),
        resolve_nonneg (New s) ((s.length : Int) - k) (by omega),
        resolve_nonneg (New s) ((s.length : Int) - j) (by omega),
        if_pos (by omega), if_pos (by omega), hn]
      have e1 : -k + (s.length : Int) = (s.length : Int) - k := by omega
      have e2 : -j + (s.length : Int) = (s.length : Int) - j := by omega
      rw [e1, e2]
    rw [h1]
    exact remove_render s _ _ (by omega) (by omega) (by omega)

theorem C15_negative_offsets_wrap_witness :
    ∃ ms2, (New "abcdef".toList).Remove (-4) (-2) = Except.ok (ms2, none) ∧
      ms2.String = Except.ok (slice "abcdef".toList 0 (("abcdef".toList.length : Int) - 4) ++
        slice "abcdef".toList (("abcdef".toList.length : Int) - 2)
          ("abcdef".toList.length : Int)) :=
  C15_negative_offsets_wrap.2 "abcdef".toList 2 4 (by decide) (by decide) (by decide)

theorem Frame_refl (h : List chunk) : Frame h h := fun _ d hd => ⟨d, hd, rfl⟩

theorem Frame_trans (h1 h2 h3 : List chunk) (a : Frame h1 h2) (b : Frame h2 h3) :
    Frame h1 h3 := by
  intro x d hd
  obtain ⟨d2, e2, k2⟩ := a x d hd
  obtain ⟨d3, e3, k3⟩ := b x d2 e2
  exact ⟨d3, e3, k3.trans k2⟩

theorem Frame_set (h : List chunk) (p : Nat) (c c2 : chunk) (hp : h[p]? = some c)
    (hk : c2.key = c.key) : Frame h (h.set p c2) := by
  intro x d hd
  by_cases e : x = p
  · subst e
    have hl : x < h.length := by
      by_contra hge
      rw [List.getElem?_eq_none (by omega)] at hp
      cases hp
    rw [hp] at hd
    cases hd
    exact ⟨c2, List.getElem?_set_self hl, hk⟩
  · exact ⟨d, by rw [List.getElem?_set_ne (Ne.symm e)]; exact hd, rfl⟩

theorem Frame_append (h l : List chunk) : Frame h (h ++ l) := by
  intro x d hd
  have hl : x < h.length := by
    by_contra hge
    rw [List.getElem?_eq_none (by omega)] at hd
    cases hd
  exact ⟨d, by rw [List.getElem?_append_left hl]; exact hd, rfl⟩

theorem MapInv_frame (s : Str) (ms ms2 : MagicString) (inv : MapInv s ms)
    (hf : Frame ms.heap ms2.heap) (h1 : ms2.byStart = ms.byStart) (h2 : ms2.byEnd = ms.byEnd)
    (h3 : ms2.lastSearchedChunk = ms.lastSearchedChunk) : MapInv s ms2 := by
  constructor
  · intro k p hk
    rw [h1] at hk
    obtain ⟨c, hc, a1, a2, a3, a4, a5, a6⟩ := inv.starts k p hk
    obtain ⟨c2, hc2, hk2⟩ := hf p c hc
    simp only [chunk.key, Prod.mk.injEq] at hk2
    obtain ⟨k1, k2, k3⟩ := hk2
    refine ⟨c2, hc2, ?_, a2, ?_, ?_, ?_, ?_⟩
    · rw [k1]; exact a1
    · rw [k2]; exact a3
    · rw [k2]; exact a4
    · rw [k2, k3]; exact a5
    · rw [k2, h2]; exact a6
  · intro k p hk
    rw [h2] at hk
    obtain ⟨c, hc, a1, a2⟩ := inv.ends k p hk
    obtain ⟨c2, hc2, hk2⟩ := hf p c hc
    simp only [chunk.key, Prod.mk.injEq] at hk2
    obtain ⟨k1, k2, k3⟩ := hk2
    refine ⟨c2, hc2, ?_, ?_⟩
    · rw [k2]; exact a1
    · rw [k1, h1]; exact a2
  · intro k1 k2 p1 p2 c1 e1 e2 hc1 hlt
    rw [h1] at e1 e2
    obtain ⟨c, hc, _⟩ := inv.starts k1 p1 e1
    obtain ⟨c2, hc2, hk2⟩ := hf p1 c hc
    rw [hc1] at hc2
    cases hc2
    simp only [chunk.key, Prod.mk.injEq] at hk2
    rw [hk2.2.1]
    exact inv.apart k1 k2 p1 p2 c e1 e2 hc hlt
  · intro x hx0 hxn
    obtain ⟨k, p, c, e1, hc, a1, a2⟩ := inv.cover x hx0 hxn
    obtain ⟨c2, hc2, hk2⟩ := hf p c hc
    simp only [chunk.key, Prod.mk.injEq] at hk2
    exact ⟨k, p, c2, by rw [h1]; exact e1, hc2, a1, by rw [hk2.2.1]; exact a2⟩
  · obtain ⟨p, c, e1, hc, e2⟩ := inv.searched
    obtain ⟨c2, hc2, hk2⟩ := hf p c hc
    simp only [chunk.key, Prod.mk.injEq] at hk2
    exact ⟨p, c2, by rw [h3]; exact e1, hc2, by rw [hk2.1, h1]; exact e2⟩

theorem MapInv_new (s : Str) (hs : 0 < s.length) : MapInv s (New s) := by
  have hh : (New s).heap[0]? = some (newChunk 0 (s.length : Int) s) := rfl
  have hst : ∀ k p, (New s).byStart k = some p → k = 0 ∧ p = 0 := by
    intro k p h
    simp only [New, mapSet] at h
    split at h
    · cases h; exact ⟨by assumption, rfl⟩
    · cases h
  have hen : ∀ k p, (New s).byEnd k = some p → k = (s.length : Int) ∧ p = 0 := by
    intro k p h
    simp only [New, mapSet] at h
    split at h
    · cases h; exact ⟨by assumption, rfl⟩
    · cases h
  have b0 : (New s).byStart 0 = some 0 := by simp [New, mapSet]
  have bn : (New s).byEnd (s.length : Int) = some 0 := by simp [New, mapSet]
  constructor
  · intro k p h
    obtain ⟨rfl, rfl⟩ := hst k p h
    refine ⟨_, hh, rfl, le_refl _, ?_, le_refl _, ?_, bn⟩
    · show (0 : Int) < (s.length : Int); omega
    · show s = slice s 0 (s.length : Int)
      exact (slice_all s).symm
  · intro k p h
    obtain ⟨rfl, rfl⟩ := hen k p h
    exact ⟨_, hh, rfl, b0⟩
  · intro k1 k2 p1 p2 c1 e1 e2 _ hlt
    obtain ⟨rfl, _⟩ := hst k1 p1 e1
    obtain ⟨rfl, _⟩ := hst k2 p2 e2
    omega
  · intro x hx0 hxn
    exact ⟨0, 0, _, b0, hh, hx0, hxn⟩
  · exact ⟨0, _, rfl, hh, b0⟩

--THEOREMS

theorem getElem?_lt (h : List chunk) (p : Nat) (c : chunk) (hp : h[p]? = some c) :
    p < h.length := by
  by_contra hge
  rw [List.getElem?_eq_none (by omega)] at hp
  cases hp

theorem split_heap_keys (h : List chunk) (p : Nat) (A B : chunk) (hp : p < h.length) :
    (h.set p A ++ [B])[p]? = some A ∧ (h.set p A ++ [B])[h.length]? = some B ∧
      ∀ (x : Nat) (d : chunk), x ≠ p → h[x]? = some d → (h.set p A ++ [B])[x]? = some d := by
  refine ⟨?_, ?_, ?_⟩
  · rw [List.getElem?_append_left (by simpa using hp), List.getElem?_set_self hp]
  · rw [List.getElem?_append_right (by simp)]
    simp
  · intro x d hx hd
    have hl := getElem?_lt h x d hd
    rw [List.getElem?_append_left (by simpa using hl), List.getElem?_set_ne (Ne.symm hx)]
    exact hd

theorem split_base (h : List chunk) (p : Nat) (A B : chunk) (h3 : List chunk) (c : chunk)
    (index : Int) (hpl : p < h.length)
    (kA : A.key = (c.start, index, c.original.take (index - c.start).toNat))
    (kB : B.key = (index, c.end_, c.original.drop (index - c.start).toNat))
    (hf : Frame (h.set p A ++ [B]) h3) :
    (∃ c1 : chunk, h3[p]? = some c1 ∧
        c1.key = (c.start, index, c.original.take (index - c.start).toNat)) ∧
      (∃ c2 : chunk, h3[h.length]? = some c2 ∧
        c2.key = (index, c.end_, c.original.drop (index - c.start).toNat)) ∧
      (∀ (x : Nat) (d : chunk), x ≠ p → h[x]? = some d →
        ∃ d2 : chunk, h3[x]? = some d2 ∧ d2.key = d.key) := by
  obtain ⟨g1, g2, g3⟩ := split_heap_keys h p A B hpl
  refine ⟨?_, ?_, ?_⟩
  · obtain ⟨d2, e, k⟩ := hf p A g1
    exact ⟨d2, e, k.trans kA⟩
  · obtain ⟨d2, e, k⟩ := hf h.length B g2
    exact ⟨d2, e, k.trans kB⟩
  · intro x d hx hd
    exact hf x d (g3 x d hx hd)

theorem chunk_split_keys (h : List chunk) (p : Nat) (index : Int) (c : chunk)
    (h2 : List chunk) (p2 : Nat) (hp : h[p]? = some c)
    (hs : chunk.split h p index = Except.ok (h2, p2)) :
    p2 = h.length ∧
      (∃ c1 : chunk, h2[p]? = some c1 ∧
        c1.key = (c.start, index, c.original.take (index - c.start).toNat)) ∧
      (∃ c2 : chunk, h2[h.length]? = some c2 ∧
        c2.key = (index, c.end_, c.original.drop (index - c.start).toNat)) ∧
      (∀ (x : Nat) (d : chunk), x ≠ p → h[x]? = some d →
        ∃ d2 : chunk, h2[x]? = some d2 ∧ d2.key = d.key) := by
  have hpl := getElem?_lt h p c hp
  unfold chunk.split at hs
  simp only [deref, hp] at hs
  split at hs
  · cases hs
  · cases hed : c.edited <;> cases hnext : c.next <;>
      simp only [hed, hnext, if_true, if_false, Bool.false_eq_true] at hs
    · cases hs
      exact ⟨rfl, split_base h p _ _ _ c index hpl (by rfl) (by rfl) (Frame_refl _)⟩
    · split at hs
      · cases hs
      · rename_i cq hq
        cases hs
        exact ⟨rfl, split_base h p _ _ _ c index hpl (by rfl) (by rfl) (Frame_set _ _ cq _ hq rfl)⟩
    · cases hs
      exact ⟨rfl, split_base h p _ _ _ c index hpl (by rfl) (by rfl) (Frame_refl _)⟩
    · split at hs
      · cases hs
      · rename_i cq hq
        cases hs
        exact ⟨rfl, split_base h p _ _ _ c index hpl (by rfl) (by rfl) (Frame_set _ _ cq _ hq rfl)⟩

--THEOREMS

theorem MapInv_cut (s : Str) (ms ms2 : MagicString) (p : Nat) (index : Int) (c : chunk)
    (inv : MapInv s ms) (hp : ms.heap[p]? = some c) (hreg : ms.byStart c.start = some p)
    (h1 : c.start < index) (h2 : index < c.end_)
    (k1 : ∃ c1 : chunk, ms2.heap[p]? = some c1 ∧
      c1.key = (c.start, index, c.original.take (index - c.start).toNat))
    (k2 : ∃ c2 : chunk, ms2.heap[ms.heap.length]? = some c2 ∧
      c2.key = (index, c.end_, c.original.drop (index - c.start).toNat))
    (k3 : ∀ (x : Nat) (d : chunk), x ≠ p → ms.heap[x]? = some d →
      ∃ d2 : chunk, ms2.heap[x]? = some d2 ∧ d2.key = d.key)
    (hbS : ms2.byStart = mapSet ms.byStart index (some ms.heap.length))
    (hbE : ms2.byEnd = mapSet (mapSet ms.byEnd index (some p)) c.end_ (some ms.heap.length))
    (hl : ms2.lastSearchedChunk = some p) : MapInv s ms2 := by
  obtain ⟨c0, hc0, _, a0, _, an, ao, ae⟩ := inv.starts c.start p hreg
  rw [hp] at hc0
  cases hc0
  obtain ⟨c1, hc1, kc1⟩ := k1
  obtain ⟨c2, hc2, kc2⟩ := k2
  simp only [chunk.key, Prod.mk.injEq] at kc1 kc2
  obtain ⟨s1, e1, o1⟩ := kc1
  obtain ⟨s2, e2, o2⟩ := kc2
  have hpl := getElem?_lt _ p c hp
  -- a registered chunk other than `c` lies on one side of `c`
  have side : ∀ k q d, ms.byStart k = some q → ms.heap[q]? = some d → d.start = k →
      q ≠ p → d.end_ ≤ c.start ∨ c.end_ ≤ k := by
    intro k q d hk hd hdk hq
    rcases lt_trichotomy k c.start with h | h | h
    · exact Or.inl (inv.apart k c.start q p d hk hreg hd h)
    · rw [h, hreg] at hk
      cases hk
      exact absurd rfl hq
    · exact Or.inr (inv.apart c.start k p q c hreg hk hp h)
  have noStart : ms.byStart index = none := by
    cases hq : ms.byStart index with
    | none => rfl
    | some q =>
      exfalso
      have := inv.apart c.start index p q c hreg hq hp h1
      omega
  have bS : ∀ k, ms2.byStart k = if k = index then some ms.heap.length else ms.byStart k := by
    intro k; rw [hbS]; rfl
  have bE : ∀ k, ms2.byEnd k = if k = c.end_ then some ms.heap.length
      else if k = index then some p else ms.byEnd k := by
    intro k; rw [hbE]; rfl
  have o1s : c1.original = slice s c.start index := by
    rw [o1, ao, slice_take s c.start c.end_ index a0 (by omega) (by omega)]
  have o2s : c2.original = slice s index c.end_ := by
    rw [o2, ao, slice_drop s c.start c.end_ index a0 (by omega)]
  -- what a key of the old `byStart` leads to in the new arena
  have old : ∀ k q, ms.byStart k = some q → ∃ d d2, ms.heap[q]? = some d ∧ d.start = k ∧
      ms2.heap[q]? = some d2 ∧ d2.start = k ∧ (q = p → d = c ∧ d2 = c1) ∧
      (q ≠ p → d2.key = d.key ∧ (d.end_ ≤ c.start ∨ c.end_ ≤ k)) := by
    intro k q hk
    obtain ⟨d, hd, hdk, _⟩ := inv.starts k q hk
    by_cases hq : q = p
    · subst hq
      rw [hp] at hd
      cases hd
      exact ⟨c, c1, hp, hdk, hc1, by rw [s1]; exact hdk, fun _ => ⟨rfl, rfl⟩,
        fun h => absurd rfl h⟩
    · obtain ⟨d2, hd2, kd2⟩ := k3 q d hq hd
      have kd := kd2
      simp only [chunk.key, Prod.mk.injEq] at kd
      exact ⟨d, d2, hd, hdk, hd2, by rw [kd.1]; exact hdk, fun h => absurd h hq,
        fun _ => ⟨kd2, side k q d hk hd hdk hq⟩⟩
  constructor
  · intro k q hk
    rw [bS] at hk
    by_cases hki : k = index
    · rw [if_pos hki] at hk
      cases hk
      subst hki
      refine ⟨c2, hc2, s2, by omega, by omega, by omega, ?_, ?_⟩
      · rw [e2]; exact o2s
      · rw [bE, e2, if_pos rfl]
    · rw [if_neg hki] at hk
      obtain ⟨d, d2, hd, hdk, hd2, hd2k, hqp, hqn⟩ := old k q hk
      obtain ⟨d', hd', _, b0, b1, b2, b3, b4⟩ := inv.starts k q hk
      rw [hd] at hd'
      cases hd'
      by_cases hq : q = p
      · obtain ⟨rfl, rfl⟩ := hqp hq
        subst hq
        refine ⟨d2, hd2, hd2k, b0, by omega, by omega, ?_, ?_⟩
        · rw [e1, ← hdk]; exact o1s
        · rw [bE, e1, if_neg (by omega), if_pos rfl]
      · obtain ⟨kd, hside⟩ := hqn hq
        simp only [chunk.key, Prod.mk.injEq] at kd
        refine ⟨d2, hd2, hd2k, b0, by rw [kd.2.1]; exact b1, by rw [kd.2.1]; exact b2, ?_, ?_⟩
        · rw [kd.2.1, kd.2.2]; exact b3
        · rw [bE, kd.2.1, if_neg, if_neg]
          · exact b4
          · omega
          · intro h
            rw [h, ae] at b4
            cases b4
            exact hq rfl
  · intro k q hk
    rw [bE] at hk
    by_cases hke : k = c.end_
    · rw [if_pos hke] at hk
      cases hk
      exact ⟨c2, hc2, by rw [e2, hke], by rw [bS, s2, if_pos rfl]⟩
    · rw [if_neg hke] at hk
      by_cases hki : k = index
      · rw [if_pos hki] at hk
        cases hk
        exact ⟨c1, hc1, by rw [e1, hki], by rw [bS, s1, if_neg (by omega)]; exact hreg⟩
      · rw [if_neg hki] at hk
        obtain ⟨d, hd, hde, hds⟩ := inv.ends k q hk
        obtain ⟨d', d2, hd', _, hd2, hd2k, hqp, hqn⟩ := old d.start q hds
        rw [hd] at hd'
        cases hd'
        have hq : q ≠ p := by
          rintro rfl
          rw [hp] at hd
          cases hd
          exact hke hde.symm
        obtain ⟨kd, hside⟩ := hqn hq
        simp only [chunk.key, Prod.mk.injEq] at kd
        refine ⟨d2, hd2, by rw [kd.2.1]; exact hde, ?_⟩
        rw [bS, kd.1, if_neg]
        · exact hds
        · intro h
          rw [h, noStart] at hds
          cases hds
  · intro ka kb qa qb ca hka hkb hca hlt
    rw [bS] at hka hkb
    by_cases hai : ka = index
    · rw [if_pos hai] at hka
      cases hka
      rw [hc2] at hca
      cases hca
      rw [if_neg (by omega)] at hkb
      rw [e2]
      exact inv.apart c.start kb p qb c hreg hkb hp (by omega)
    · rw [if_neg hai] at hka
      obtain ⟨d, d2, hd, hdk, hd2, hd2k, hqp, hqn⟩ := old ka qa hka
      rw [hca] at hd2
      cases hd2
      by_cases hq : qa = p
      · obtain ⟨rfl, rfl⟩ := hqp hq
        rw [e1]
        by_cases hbi : kb = index
        · omega
        · rw [if_neg hbi] at hkb
          subst hq
          have := inv.apart d.start kb qa qb d hreg hkb hp (by omega)
          omega
      · obtain ⟨kd, hside⟩ := hqn hq
        simp only [chunk.key, Prod.mk.injEq] at kd
        rw [kd.2.1]
        by_cases hbi : kb = index
        · obtain ⟨_, _, _, _, b1, _⟩ := inv.starts ka qa hka
          rcases hside with h | h <;> omega
        · rw [if_neg hbi] at hkb
          exact inv.apart ka kb qa qb d hka hkb hd hlt
  · intro x hx0 hxn
    obtain ⟨k, q, d, hk, hd, hkx, hxd⟩ := inv.cover x hx0 hxn
    obtain ⟨d', d2, hd', hdk, hd2, hd2k, hqp, hqn⟩ := old k q hk
    rw [hd] at hd'
    cases hd'
    have hki : k ≠ index := by
      intro h
      rw [h, noStart] at hk
      cases hk
    by_cases hq : q = p
    · obtain ⟨rfl, rfl⟩ := hqp hq
      by_cases hxi : x < index
      · exact ⟨k, q, d2, by rw [bS, if_neg hki]; exact hk, hd2, hkx, by rw [e1]; exact hxi⟩
      · exact ⟨index, ms.heap.length, c2, by rw [bS, if_pos rfl], hc2, by omega,
          by rw [e2]; exact hxd⟩
    · obtain ⟨kd, _⟩ := hqn hq
      simp only [chunk.key, Prod.mk.injEq] at kd
      exact ⟨k, q, d2, by rw [bS, if_neg hki]; exact hk, hd2, hkx, by rw [kd.2.1]; exact hxd⟩
  · exact ⟨p, c1, hl, hc1, by rw [bS, s1, if_neg (by omega)]; exact hreg⟩

--THEOREMS

theorem MapInv_splitChunk (s : Str) (ms : MagicString) (p : Nat) (index : Int) (c : chunk)
    (r : MagicString × Option Err) (inv : MapInv s ms) (hp : ms.heap[p]? = some c)
    (hreg : ms.byStart c.start = some p) (hcon : c.contains index = true)
    (hs : ms.splitChunk p index = Except.ok r) : MapInv s r.1 := by
  simp only [chunk.contains, Bool.and_eq_true, decide_eq_true_eq] at hcon
  unfold MagicString.splitChunk at hs
  simp only [deref, hp] at hs
  split at hs
  · cases hs
    exact inv
  · cases hc : chunk.split ms.heap p index with
    | error f => rw [hc] at hs; cases hs
    | ok hp2 =>
      obtain ⟨h, p2⟩ := hp2
      rw [hc] at hs
      dsimp only at hs
      obtain ⟨rfl, k1, k2, k3⟩ := chunk_split_keys ms.heap p index c h p2 hp hc
      obtain ⟨c2, hc2, kc2⟩ := k2
      simp only [hc2] at hs
      cases hs
      have e2 : c2.end_ = c.end_ := by
        simp only [chunk.key, Prod.mk.injEq] at kc2
        exact kc2.2.1
      exact MapInv_cut s ms _ p index c inv hp hreg hcon.1 hcon.2 k1 ⟨c2, hc2, kc2⟩ k3 rfl
        (by dsimp only; rw [e2]) rfl

theorem MapInv_splitWalk (s : Str) (ms : MagicString) (index : Int) (fwd : Bool)
    (inv : MapInv s ms) :
    ∀ (fuel : Nat) (ptr : Ptr) (ms2 : MagicString),
      (∀ p, ptr = some p → ∃ c, ms.heap[p]? = some c ∧ ms.byStart c.start = some p) →
      MagicString.splitWalk ms index fwd fuel ptr = Except.ok ms2 → MapInv s ms2 := by
  intro fuel
  induction fuel with
  | zero =>
    intro ptr ms2 _ h
    cases ptr with
    | none =>
      unfold MagicString.splitWalk at h
      cases h
      exact inv
    | some p =>
      unfold MagicString.splitWalk at h
      cases h
  | succ n ih =>
    intro ptr ms2 hreg h
    cases ptr with
    | none =>
      unfold MagicString.splitWalk at h
      cases h
      exact inv
    | some p =>
      obtain ⟨c, hc, hcs⟩ := hreg p rfl
      unfold MagicString.splitWalk at h
      simp only [deref, hc] at h
      split at h
      · rename_i hcon
        cases hsc : ms.splitChunk p index with
        | error f => rw [hsc] at h; cases h
        | ok r =>
          rw [hsc] at h
          cases h
          exact MapInv_splitChunk s ms p index c r inv hc hcs hcon hsc
      · apply ih _ ms2 _ h
        intro q hq
        cases fwd with
        | true =>
          simp only [if_true] at hq
          obtain ⟨d, hd, hds, _⟩ := inv.starts c.end_ q hq
          exact ⟨d, hd, by rw [hds]; exact hq⟩
        | false =>
          simp only [Bool.false_eq_true, if_false] at hq
          obtain ⟨d, hd, _, hds⟩ := inv.ends c.start q hq
          exact ⟨d, hd, hds⟩

theorem MapInv_split (s : Str) (ms ms2 : MagicString) (index : Int) (inv : MapInv s ms)
    (h : ms.split index = Except.ok ms2) : MapInv s ms2 := by
  unfold MagicString.split at h
  split at h
  · cases h; exact inv
  · split at h
    · cases h; exact inv
    · obtain ⟨p, c, e1, hc, e2⟩ := inv.searched
      simp only [e1, deref, hc] at h
      exact MapInv_splitWalk s ms index _ inv _ _ ms2
        (fun q hq => by cases hq; exact ⟨c, hc, e2⟩) h

--THEOREMS

theorem Frame_setNext (h h2 : List chunk) (p : Nat) (v : Ptr)
    (hs : setNext h p v = Except.ok h2) : Frame h h2 := by
  unfold setNext at hs
  split at hs
  · cases hs
  · rename_i c hc
    cases hs
    exact Frame_set h p c _ hc rfl

theorem Frame_setPrev (h h2 : List chunk) (p : Nat) (v : Ptr)
    (hs : setPrev h p v = Except.ok h2) : Frame h h2 := by
  unfold setPrev at hs
  split at hs
  · cases hs
  · rename_i c hc
    cases hs
    exact Frame_set h p c _ hc rfl

theorem Frame_setNextOpt (h h2 : List chunk) (p : Ptr) (v : Ptr)
    (hs : setNextOpt h p v = Except.ok h2) : Frame h h2 := by
  cases p with
  | none => cases hs; exact Frame_refl h
  | some q => exact Frame_setNext h h2 q v hs

theorem Frame_setPrevOpt (h h2 : List chunk) (p : Ptr) (v : Ptr)
    (hs : setPrevOpt h p v = Except.ok h2) : Frame h h2 := by
  cases p with
  | none => cases hs; exact Frame_refl h
  | some q => exact Frame_setPrev h h2 q v hs

theorem Frame_editRun (lastC : Ptr) :
    ∀ (fuel : Nat) (h h2 : List chunk) (c : Ptr),
      editRun lastC fuel h c = Except.ok h2 → Frame h h2 := by
  intro fuel
  induction fuel with
  | zero =>
    intro h h2 c hs
    unfold editRun at hs
    split at hs
    · cases hs; exact Frame_refl h
    · split at hs <;> cases hs
  | succ n ih =>
    intro h h2 c hs
    unfold editRun at hs
    split at hs
    · cases hs; exact Frame_refl h
    · split at hs
      · cases hs
      · split at hs
        · cases hs
        · rename_i ch hch
          exact Frame_trans _ _ _ (Frame_set h _ ch _ hch (by rfl)) (ih _ _ _ hs)

theorem Frame_removeRun (end_ : Int) :
    ∀ (fuel : Nat) (h h2 : List chunk) (c : Ptr),
      removeRun end_ fuel h c = Except.ok h2 → Frame h h2 := by
  intro fuel
  induction fuel with
  | zero =>
    intro h h2 c hs
    cases c with
    | none => unfold removeRun at hs; cases hs; exact Frame_refl h
    | some p => unfold removeRun at hs; cases hs
  | succ n ih =>
    intro h h2 c hs
    cases c with
    | none => unfold removeRun at hs; cases hs; exact Frame_refl h
    | some p =>
      unfold removeRun at hs
      split at hs
      · cases hs
      · rename_i ch hch
        dsimp only at hs
        exact Frame_trans _ _ _ (Frame_set h p ch _ hch (by rfl)) (ih _ _ _ hs)

theorem MapInv_heap (s : Str) (ms : MagicString) (h2 : List chunk) (inv : MapInv s ms)
    (hf : Frame ms.heap h2) : MapInv s { ms with heap := h2 } :=
  MapInv_frame s ms _ inv hf rfl rfl rfl

theorem MapInv_AppendLeft (s : Str) (ms ms2 : MagicString) (index : Int) (x : Str)
    (inv : MapInv s ms) (h : ms.AppendLeft index x = Except.ok ms2) : MapInv s ms2 := by
  unfold MagicString.AppendLeft at h
  cases h1 : ms.split index with
  | error f => rw [h1] at h; cases h
  | ok ms1 =>
    rw [h1] at h
    dsimp only at h
    have inv1 := MapInv_split s ms ms1 index inv h1
    split at h
    · split at h
      · cases h
      · rename_i c hc
        cases h
        exact MapInv_heap s ms1 _ inv1 (Frame_set _ _ c _ hc rfl)
    · cases h
      exact MapInv_frame s ms1 _ inv1 (Frame_refl _) rfl rfl rfl

theorem MapInv_AppendRight (s : Str) (ms ms2 : MagicString) (index : Int) (x : Str)
    (inv : MapInv s ms) (h : ms.AppendRight index x = Except.ok ms2) : MapInv s ms2 := by
  unfold MagicString.AppendRight at h
  cases h1 : ms.split index with
  | error f => rw [h1] at h; cases h
  | ok ms1 =>
    rw [h1] at h
    dsimp only at h
    have inv1 := MapInv_split s ms ms1 index inv h1
    split at h
    · split at h
      · cases h
      · rename_i c hc
        cases h
        exact MapInv_heap s ms1 _ inv1 (Frame_set _ _ c _ hc rfl)
    · cases h
      exact MapInv_frame s ms1 _ inv1 (Frame_refl _) rfl rfl rfl

theorem MapInv_Remove (s : Str) (ms : MagicString) (a b : Int) (r : MagicString × Option Err)
    (inv : MapInv s ms) (h : ms.Remove a b = Except.ok r) : MapInv s r.1 := by
  unfold MagicString.Remove at h
  cases h1 : resolve ms a with
  | error f => rw [h1] at h; cases h
  | ok a2 =>
    rw [h1] at h
    dsimp only at h
    cases h2 : resolve ms b with
    | error f => rw [h2] at h; cases h
    | ok b2 =>
      rw [h2] at h
      dsimp only at h
      split at h
      · cases h; exact inv
      · split at h
        · cases h; exact inv
        · split at h
          · cases h; exact inv
          · cases h3 : ms.split a2 with
            | error f => rw [h3] at h; cases h
            | ok ms1 =>
              rw [h3] at h
              dsimp only at h
              cases h4 : ms1.split b2 with
              | error f => rw [h4] at h; cases h
              | ok ms3 =>
                rw [h4] at h
                dsimp only at h
                have inv3 := MapInv_split s ms1 ms3 b2 (MapInv_split s ms ms1 a2 inv h3) h4
                split at h
                · cases h
                · rename_i h5 hr
                  cases h
                  exact MapInv_heap s ms3 _ inv3 (Frame_removeRun _ _ _ _ _ hr)

--THEOREMS

theorem Frame_relink (ms : MagicString) (st en i : Int) (r : MagicString × Option Err)
    (h : ms.relink st en i = Except.ok r) :
    Frame ms.heap r.1.heap ∧ r.1.byStart = ms.byStart ∧ r.1.byEnd = ms.byEnd ∧
      r.1.lastSearchedChunk = ms.lastSearchedChunk := by
  unfold MagicString.relink at h
  split at h
  · cases h
  · cases h
  · split at h
    · cases h
    · cases h
    · dsimp only at h
      split at h
      · cases h
        exact ⟨Frame_refl _, rfl, rfl, rfl⟩
      · split at h
        · cases h
        · split at h
          · cases h
          · rename_i h1 e1
            split at h
            · cases h
            · rename_i h2 e2
              split at h
              · cases h
              · rename_i h3 e3
                split at h
                · cases h
                · rename_i h4 e4
                  split at h
                  · cases h
                  · rename_i h5 e5
                    split at h
                    · cases h
                    · rename_i h6 e6
                      cases h
                      refine ⟨?_, rfl, rfl, rfl⟩
                      exact Frame_trans _ _ _ (Frame_setNextOpt _ _ _ _ e1)
                        (Frame_trans _ _ _ (Frame_setPrevOpt _ _ _ _ e2)
                        (Frame_trans _ _ _ (Frame_setPrev _ _ _ _ e3)
                        (Frame_trans _ _ _ (Frame_setNextOpt _ _ _ _ e4)
                        (Frame_trans _ _ _ (Frame_setNext _ _ _ _ e5)
                          (Frame_setPrevOpt _ _ _ _ e6)))))

theorem MapInv_Move (s : Str) (ms : MagicString) (st en i : Int)
    (r : MagicString × Option Err) (inv : MapInv s ms)
    (h : ms.Move st en i = Except.ok r) : MapInv s r.1 := by
  unfold MagicString.Move at h
  split at h
  · cases h; exact inv
  · cases h1 : ms.split st with
    | error f => rw [h1] at h; cases h
    | ok ms1 =>
      rw [h1] at h
      dsimp only at h
      cases h2 : ms1.split en with
      | error f => rw [h2] at h; cases h
      | ok ms2 =>
        rw [h2] at h
        dsimp only at h
        cases h3 : ms2.split i with
        | error f => rw [h3] at h; cases h
        | ok ms3 =>
          rw [h3] at h
          dsimp only at h
          have inv3 := MapInv_split s ms2 ms3 i
            (MapInv_split s ms1 ms2 en (MapInv_split s ms ms1 st inv h1) h2) h3
          obtain ⟨f, b1, b2, b3⟩ := Frame_relink ms3 st en i r h
          exact MapInv_frame s ms3 r.1 inv3 f b1 b2 b3

theorem MapInv_Overwrite (s : Str) (ms : MagicString) (a b : Int) (c : Str)
    (r : MagicString × Bool × Option Err) (inv : MapInv s ms)
    (h : ms.Overwrite a b c = Except.ok r) : MapInv s r.1 := by
  unfold MagicString.Overwrite at h
  cases h1 : resolve ms a with
  | error f => rw [h1] at h; cases h
  | ok a2 =>
    rw [h1] at h
    dsimp only at h
    cases h2 : resolve ms b with
    | error f => rw [h2] at h; cases h
    | ok b2 =>
      rw [h2] at h
      dsimp only at h
      split at h
      · cases h; exact inv
      · split at h
        · cases h; exact inv
        · cases h3 : ms.split a2 with
          | error f => rw [h3] at h; cases h
          | ok ms1 =>
            rw [h3] at h
            dsimp only at h
            cases h4 : ms1.split b2 with
            | error f => rw [h4] at h; cases h
            | ok ms3 =>
              rw [h4] at h
              dsimp only at h
              have inv3 := MapInv_split s ms1 ms3 b2 (MapInv_split s ms ms1 a2 inv h3) h4
              split at h
              · split at h
                · cases h
                · rename_i cf hcf
                  split at h
                  · cases h; exact inv3
                  · split at h
                    · split at h
                      · cases h
                      · rename_i hr er
                        split at h
                        · cases h
                        · rename_i cl ecl
                          split at h
                          · cases h
                          · rename_i pl epl
                            cases h
                            apply MapInv_heap s ms3 _ inv3
                            have hcl : hr[pl]? = some cl := by
                              rw [epl] at ecl
                              unfold deref at ecl
                              dsimp only at ecl
                              split at ecl
                              · cases ecl
                              · rename_i c0 hc0
                                cases ecl
                                exact hc0
                            exact Frame_trans _ _ _ (Frame_set _ _ cf _ hcf (by rfl))
                              (Frame_trans _ _ _ (Frame_editRun _ _ _ _ _ er)
                                (Frame_set _ _ cl _ hcl (by rfl)))
                    · cases h
                      exact MapInv_heap s ms3 _ inv3 (Frame_set _ _ cf _ hcf (by rfl))
              · split at h
                · cases h
                · split at h
                  · cases h
                  · rename_i cl hcl
                    cases h
                    apply MapInv_heap s ms3 _ inv3
                    exact Frame_trans _ _ _ (Frame_set _ _ cl _ hcl (by rfl)) (Frame_append _ _)

theorem MapInv_applyOp (s : Str) (ms ms2 : MagicString) (o : Op) (inv : MapInv s ms)
    (h : applyOp ms o = Except.ok ms2) : MapInv s ms2 := by
  cases o with
  | overwrite a b c =>
    simp only [applyOp] at h
    cases hr : ms.Overwrite a b c with
    | error f => rw [hr] at h; cases h
    | ok r => rw [hr] at h; cases h; exact MapInv_Overwrite s ms a b c r inv hr
  | remove a b =>
    simp only [applyOp] at h
    cases hr : ms.Remove a b with
    | error f => rw [hr] at h; cases h
    | ok r => rw [hr] at h; cases h; exact MapInv_Remove s ms a b r inv hr
  | move a b i =>
    simp only [applyOp] at h
    cases hr : ms.Move a b i with
    | error f => rw [hr] at h; cases h
    | ok r => rw [hr] at h; cases h; exact MapInv_Move s ms a b i r inv hr
  | appendLeft i x => exact MapInv_AppendLeft s ms ms2 i x inv h
  | appendRight i x => exact MapInv_AppendRight s ms ms2 i x inv h
  | append x =>
    cases h
    exact MapInv_frame s ms _ inv (Frame_refl _) rfl rfl rfl
  | prepend x => cases h; exact inv
  | prependLeft i x => cases h; exact inv
  | prependRight i x => cases h; exact inv

theorem MapInv_runOps (s : Str) (ops : List Op) :
    ∀ (ms ms2 : MagicString), MapInv s ms → runOps ms ops = Except.ok ms2 → MapInv s ms2 := by
  induction ops with
  | nil =>
    intro ms ms2 inv h
    cases h
    exact inv
  | cons o rest ih =>
    intro ms ms2 inv h
    unfold runOps at h
    cases hr : applyOp ms o with
    | error f => rw [hr] at h; cases h
    | ok ms1 =>
      rw [hr] at h
      exact ih ms1 ms2 (MapInv_applyOp s ms ms1 o inv hr) h

theorem BoundaryIndex_of_MapInv (s : Str) (ms : MagicString) (hs : 0 < s.length)
    (inv : MapInv s ms) : BoundaryIndex s ms := by
  -- the chunk a key of `byStart` leads to
  have st := inv.starts
  have en := inv.ends
  have same : ∀ k1 k2 p1 p2 c1 c2, ms.byStart k1 = some p1 → ms.byStart k2 = some p2 →
      ms.heap[p1]? = some c1 → ms.heap[p2]? = some c2 → k1 ≤ k2 → k2 < c1.end_ → k1 = k2 := by
    intro k1 k2 p1 p2 c1 c2 e1 e2 h1 h2 hle hlt
    rcases lt_or_eq_of_le hle with h | h
    · have := inv.apart k1 k2 p1 p2 c1 e1 e2 h1 h
      omega
    · exact h
  have b0 : ms.byStart 0 ≠ none := by
    obtain ⟨k, p, c, e1, hc, hk, _⟩ := inv.cover 0 (le_refl _) (by omega)
    obtain ⟨_, _, _, h0, _⟩ := st k p e1
    have : k = 0 := by omega
    rw [← this, e1]
    simp
  have bn : ms.byEnd (s.length : Int) ≠ none := by
    obtain ⟨k, p, c, e1, hc, hk, hx⟩ := inv.cover ((s.length : Int) - 1) (by omega) (by omega)
    obtain ⟨c', hc', _, _, _, hn, _, he⟩ := st k p e1
    rw [hc] at hc'
    cases hc'
    have : c.end_ = (s.length : Int) := by omega
    rw [← this, he]
    simp
  constructor
  · intro p
    constructor
    · rintro ⟨k, hk⟩
      obtain ⟨c, _, _, _, _, _, _, he⟩ := st k p hk
      exact ⟨c.end_, he⟩
    · rintro ⟨k, hk⟩
      obtain ⟨c, _, _, hsx⟩ := en k p hk
      exact ⟨c.start, hsx⟩
  · intro k p h
    rcases h with h | h
    · obtain ⟨c, hc, a1, a2, a3, a4, a5, a6⟩ := st k p h
      refine ⟨c, hc, by omega, by omega, a4, by rw [a1]; exact a5, by rw [a1]; exact h, a6,
        fun _ => a1, ?_⟩
      intro h2
      obtain ⟨c2, hc2, b1, _⟩ := en k p h2
      rw [hc] at hc2
      cases hc2
      exact b1
    · obtain ⟨c, hc, b1, b2⟩ := en k p h
      obtain ⟨c2, hc2, a1, a2, a3, a4, a5, a6⟩ := st c.start p b2
      rw [hc] at hc2
      cases hc2
      refine ⟨c, hc, a3, a2, a4, a5, b2, a6, ?_, fun _ => b1⟩
      intro h2
      obtain ⟨c3, hc3, d1, _⟩ := st k p h2
      rw [hc] at hc3
      cases hc3
      exact d1
  · intro x hx0 hxn
    obtain ⟨k, p, c, e1, hc, hk, hx⟩ := inv.cover x hx0 hxn
    obtain ⟨c', hc', a1, _⟩ := st k p e1
    rw [hc] at hc'
    cases hc'
    refine ⟨p, ⟨k, c, e1, hc, by omega, hx⟩, ?_⟩
    rintro q ⟨k2, c2, e2, hc2, h1, h2⟩
    obtain ⟨c2', hc2', a2, _⟩ := st k2 q e2
    rw [hc2] at hc2'
    cases hc2'
    have hkk : k2 = k := by
      rcases le_total k k2 with h | h
      · exact (same k k2 p q c c2 e1 e2 hc hc2 h (by omega)).symm
      · exact same k2 k q p c2 c e2 e1 hc2 hc h (by omega)
    rw [hkk, e1] at e2
    cases e2
    rfl
  · intro k hk0 hkn
    constructor
    · intro h
      obtain ⟨p, hp⟩ := Option.ne_none_iff_exists'.mp h
      obtain ⟨c, hc, a1, _⟩ := st k p hp
      obtain ⟨k2, q, c2, e2, hc2, h1, h2⟩ := inv.cover (k - 1) (by omega) (by omega)
      obtain ⟨c2', hc2', _, _, _, _, _, he⟩ := st k2 q e2
      rw [hc2] at hc2'
      cases hc2'
      have := inv.apart k2 k q p c2 e2 hp hc2 (by omega)
      have : c2.end_ = k := by omega
      rw [← this, he]
      simp
    · intro h
      obtain ⟨p, hp⟩ := Option.ne_none_iff_exists'.mp h
      obtain ⟨c, hc, b1, b2⟩ := en k p hp
      obtain ⟨c', hc', _, _, b3, _⟩ := st c.start p b2
      rw [hc] at hc'
      cases hc'
      obtain ⟨k2, q, c2, e2, hc2, h1, h2⟩ := inv.cover k (by omega) hkn
      have hk2 : k2 = k := by
        rcases lt_or_eq_of_le h1 with hlt | heq
        · exfalso
          rcases lt_trichotomy c.start k2 with h3 | h3 | h3
          · have := inv.apart c.start k2 p q c b2 e2 hc h3
            omega
          · rw [h3, e2] at b2
            cases b2
            rw [hc] at hc2
            cases hc2
            omega
          · have := inv.apart k2 c.start q p c2 e2 b2 hc2 h3
            omega
        · exact heq
      rw [← hk2, e2]
      simp
  · refine ⟨b0, ?_⟩
    cases h : ms.byEnd 0 with
    | none => rfl
    | some p =>
      exfalso
      obtain ⟨c, hc, b1, b2⟩ := en 0 p h
      obtain ⟨c', hc', _, a0, a1, _⟩ := st c.start p b2
      rw [hc] at hc'
      cases hc'
      omega
  · refine ⟨bn, ?_⟩
    cases h : ms.byStart (s.length : Int) with
    | none => rfl
    | some p =>
      exfalso
      obtain ⟨c, hc, _, _, a1, a2, _⟩ := st _ p h
      omega

/-- C17: for every non-empty `s` and every state that a list of calls of
`Overwrite`, `Remove`, `Move`, `AppendLeft`, `AppendRight`, `Append`, `Prepend`,
`PrependLeft` and `PrependRight` reaches from `New(s)`, each call having
returned, the boundary-index invariant holds: `byStart` and `byEnd` register the
same chunks, whose ranges are not empty and partition `[0, len(s))`, each holding
its slice of `s` and registered at its start and at its end; an offset strictly
inside is a key of both maps or of neither, 0 is a key of `byStart` only and
`len(s)` of `byEnd` only. -/
theorem C17_boundary_index (s : Str) (hs : 0 < s.length) (ops : List Op) (ms : MagicString)
    (h : runOps (New s) ops = Except.ok ms) : BoundaryIndex s ms :=
  BoundaryIndex_of_MapInv s ms hs (MapInv_runOps s ops (New s) ms (MapInv_new s hs) h)

theorem C17_boundary_index_witness :
    ∃ ms, runOps (New "abcdef".toList)
        [Op.overwrite 1 3 "X".toList, Op.move 4 6 0, Op.appendLeft 2 "!".toList,
          Op.remove 3 5, Op.move 1 3 6, Op.prependLeft 1 "p".toList] = Except.ok ms ∧
      BoundaryIndex "abcdef".toList ms :=
  ⟨_, rfl, C17_boundary_index "abcdef".toList (by decide)
    [Op.overwrite 1 3 "X".toList, Op.move 4 6 0, Op.appendLeft 2 "!".toList,
      Op.remove 3 5, Op.move 1 3 6, Op.prependLeft 1 "p".toList] _ rfl⟩

end magicstring
